import Mathlib

/-!
Shallow embedding of the Barnes-Hut n-body engine (repository `newton`).

Conventions of the embedding:
* `f32` scalars are modelled as exact rationals (`ℚ`); the few places where
  the source takes a square root (`Vector::magnitude`, `Point::distance_to`,
  `Rect::diameter`) are modelled either in `ℝ` with `Real.sqrt` (the gravity
  kernel, where the numeric value of the root is returned), or by comparing
  squares (the Barnes-Hut pruning ratio, where the root is only ever compared:
  for nonnegative reals `a / b < 2` with `b > 0` is equivalent to
  `a ^ 2 < 4 * b ^ 2`, and `a / b` with `b = 0, a > 0` is `+inf` in IEEE
  arithmetic, hence never `< 2`).
* Rust panics (`expect`, `unwrap`, `assert`, out-of-fuel recursion) are
  modelled by `Option`, with `none` for the panic. `debug_assert!` is compiled
  out in release builds and is not modelled.
* `HashMap<Index, Node>` is modelled as a function `ℕ → Option Node`.
* The `Square` type used by `barneshut.rs` has no definition under `src/`
  (only `Rect` in `geometry/types.rs` exists, with the same `contains`,
  `quadrants`, `quadrant` and `diameter` operations).  `Square`-only items
  (`Square::new`, `Square::is_unit_rect`) are modelled from the spec and
  carry a `Modelled from the spec:` note.
-/

namespace Newton

-- Geometry: src/src/geometry/types.rs ---------------------------------------

/-- Point, from `src/src/geometry/types.rs` (`struct Point { x: f32, y: f32 }`).
Coordinates in 2D space. -/
structure Point where
  x : ℚ
  y : ℚ
deriving DecidableEq

/-- Componentwise addition (`impl Add for Point`). -/
def Point.add (a b : Point) : Point := ⟨a.x + b.x, a.y + b.y⟩

instance : Add Point := ⟨Point.add⟩

/-- Unfolding lemma for the `Add Point` instance. -/
theorem Point.add_xy (a b : Point) : a + b = ⟨a.x + b.x, a.y + b.y⟩ := rfl

/-- Scalar multiplication (`impl Mul<f32> for &Point`). -/
def Point.mulScalar (p : Point) (s : ℚ) : Point := ⟨p.x * s, p.y * s⟩

/-- Scalar division (`impl Div<f32> for &Point`). -/
def Point.divScalar (p : Point) (s : ℚ) : Point := ⟨p.x / s, p.y / s⟩

/-- `Point::zero()`. -/
def Point.zero : Point := ⟨0, 0⟩

/-- Componentwise subtraction (`impl SubAssign for Point`, used by
`virtual_bodies` as `virtual_body.position -= ...`). -/
def Point.sub (a b : Point) : Point := ⟨a.x - b.x, a.y - b.y⟩

/-- Vector, from `src/src/geometry/types.rs` (`struct Vector { dx, dy }`). -/
structure Vector where
  dx : ℚ
  dy : ℚ
deriving DecidableEq

/-- `Vector::zero()`. -/
def Vector.zero : Vector := ⟨0, 0⟩

/-- Componentwise addition (`impl Add for Vector` / `AddAssign`). -/
def Vector.add (a b : Vector) : Vector := ⟨a.dx + b.dx, a.dy + b.dy⟩

instance : Add Vector := ⟨Vector.add⟩

/-- Unfolding lemma for the `Add Vector` instance. -/
theorem Vector.add_dxdy (a b : Vector) : a + b = ⟨a.dx + b.dx, a.dy + b.dy⟩ := rfl

/-- Scalar division (`impl Div<f32> for &Vector`). -/
def Vector.divScalar (v : Vector) (s : ℚ) : Vector := ⟨v.dx / s, v.dy / s⟩

/-- Componentwise negation (not in the source; used to state the
antisymmetry claim about the gravity kernel). -/
def Vector.neg (v : Vector) : Vector := ⟨-v.dx, -v.dy⟩

/-- `Vector::difference(lhs, rhs)`: left minus right, componentwise. -/
def Vector.difference (lhs rhs : Point) : Vector := ⟨lhs.x - rhs.x, lhs.y - rhs.y⟩

/-- The absolute tolerance in `impl PartialEq for Vector`
(`let e = 0.0000001`).  The `f32` literal `0.0000001` rounds to
a value within one part in `10^8` of `10^-7`; no claim here depends on
that rounding, so the exact decimal is used. -/
def vecEps : ℚ := 1 / 10000000

/-- `impl PartialEq for Vector`: componentwise comparison within the
absolute tolerance `vecEps`. -/
def Vector.approxEq (a b : Vector) : Bool :=
  decide (|a.dx - b.dx| < vecEps) && decide (|a.dy - b.dy| < vecEps)

/-- Size, from `src/src/geometry/types.rs` (`struct Size { width: u32, height: u32 }`). -/
structure Size where
  width : ℕ
  height : ℕ
deriving DecidableEq

/-- `Size::new(exp)`: a `2^exp` by `2^exp` size. -/
def Size.new (exp : ℕ) : Size := ⟨2 ^ exp, 2 ^ exp⟩

/-- `Size::half_size()`: halves the width (`u32` division) and uses it for
both dimensions, exactly as the source does. -/
def Size.half_size (s : Size) : Size := ⟨s.width / 2, s.width / 2⟩

/-- Rect, from `src/src/geometry/types.rs`: origin is the bottom-left corner. -/
structure Rect where
  origin : Point
  size : Size
deriving DecidableEq

/-- `Rect::new(x, y, size)`. -/
def Rect.new (x y : ℚ) (size : Size) : Rect := ⟨⟨x, y⟩, size⟩

/-- Quadrant, from `src/src/geometry/types.rs`: the four quadrants of a
rectangle, each carrying its sub-rectangle. -/
inductive Quadrant where
  | nw (r : Rect)
  | ne (r : Rect)
  | sw (r : Rect)
  | se (r : Rect)
deriving DecidableEq

/-- `Quadrant::space()`. -/
def Quadrant.space : Quadrant → Rect
  | .nw r => r
  | .ne r => r
  | .sw r => r
  | .se r => r

/-- `Rect::has_minimum_dimension()`: width or height at most 1. -/
def Rect.has_minimum_dimension (r : Rect) : Bool :=
  decide (r.size.width ≤ 1) || decide (r.size.height ≤ 1)

/-- `Rect::upper_bound()`: origin plus (width, height). -/
def Rect.upper_bound (r : Rect) : Point :=
  ⟨r.origin.x + (r.size.width : ℚ), r.origin.y + (r.size.height : ℚ)⟩

/-- `Rect::contains(p)`: closed on all four sides. -/
def Rect.contains (r : Rect) (p : Point) : Bool :=
  decide (r.origin.x ≤ p.x) && decide (r.origin.y ≤ p.y) &&
    decide (p.x ≤ r.upper_bound.x) && decide (p.y ≤ r.upper_bound.y)

/-- `Quadrant::contains(p)`. -/
def Quadrant.contains (q : Quadrant) (p : Point) : Bool := q.space.contains p

/-- The square of `Rect::diameter()` (`sqrt(w^2 + h^2)` in the source).
The engine only ever compares the diameter, never returns it, so the
embedding keeps the exact square; see the header note. -/
def Rect.diameterSq (r : Rect) : ℚ :=
  (r.size.width : ℚ) ^ 2 + (r.size.height : ℚ) ^ 2

/-- `Rect::quadrants()`: the four sub-rectangles in the fixed order
NW, NE, SW, SE.  The source asserts `!has_minimum_dimension` (panic on a
unit rect); the panic is modelled by `none`.  Note the source offsets the
north rects by `half_size.width` (not height), exactly as modelled. -/
def Rect.quadrants (r : Rect) : Option (Quadrant × Quadrant × Quadrant × Quadrant) :=
  if r.has_minimum_dimension then none
  else
    let x := r.origin.x
    let y := r.origin.y
    let half := r.size.half_size
    let sw := Rect.new x y half
    let se := Rect.new (x + (half.width : ℚ)) y half
    let nw := Rect.new x (y + (half.width : ℚ)) half
    let ne := Rect.new (x + (half.width : ℚ)) (y + (half.width : ℚ)) half
    some (.nw nw, .ne ne, .sw sw, .se se)

/-- Result of `Rect::quadrant`, modelling `Result<Quadrant, Error>` with the
single error kind `OutOfBounds`. -/
inductive QuadrantResult where
  | found (q : Quadrant)
  | outOfBounds
deriving DecidableEq

/-- `Rect::quadrant(p)`: the first quadrant in NW, NE, SW, SE order that
contains `p`, or `OutOfBounds`.  The outer `Option` is the panic of the
`quadrants()` assert on a minimum-dimension rect. -/
def Rect.quadrant (r : Rect) (p : Point) : Option QuadrantResult :=
  (r.quadrants).map fun q =>
    if q.1.contains p then .found q.1
    else if q.2.1.contains p then .found q.2.1
    else if q.2.2.1.contains p then .found q.2.2.1
    else if q.2.2.2.contains p then .found q.2.2.2
    else .outOfBounds

/-- Modelled from the spec: `Square::new(x, y, exponent)` (the `Square` type
used by `barneshut.rs` is absent from `src/`; per spec section 3 it is an
axis-aligned square with edge length `2^exponent`, here represented by the
`Rect` type that carries all of its operations). -/
def Square.new (x y : ℚ) (exp : ℕ) : Rect := Rect.new x y (Size.new exp)

/-- Modelled from the spec: `Square::is_unit_rect()` (spec section 3 and
glossary: a unit square is a square with edge length 1, `k = 0`). -/
def Rect.is_unit_rect (r : Rect) : Bool :=
  decide (r.size.width = 1) && decide (r.size.height = 1)

-- Physics types: src/src/physics/types.rs -----------------------------------

/-- Body, from `src/src/physics/types.rs`.  The `Uuid` identity is omitted:
no claim formalised here depends on body identity.  `Mass` is modelled as a
plain rational; the `Mass::new` positivity panic becomes a `0 < mass`
hypothesis where a claim needs it. -/
structure Body where
  mass : ℚ
  position : Point
  velocity : Vector
deriving DecidableEq

/-- `Body::apply_force(force)`: `velocity += force / mass`. -/
def Body.apply_force (b : Body) (force : Vector) : Body :=
  { b with velocity := b.velocity + force.divScalar b.mass }

/-- `Body::apply_velocity()`: `position += velocity` (componentwise). -/
def Body.apply_velocity (b : Body) : Body :=
  { b with position := ⟨b.position.x + b.velocity.dx, b.position.y + b.velocity.dy⟩ }

-- VirtualBody: src/src/physics/barneshut.rs ---------------------------------

/-- VirtualBody, from `src/src/physics/barneshut.rs`: total mass and the sum
of mass-weighted positions. -/
structure VirtualBody where
  mass : ℚ
  position : Point
deriving DecidableEq

/-- `VirtualBody::zero()`. -/
def VirtualBody.zero : VirtualBody := ⟨0, ⟨0, 0⟩⟩

/-- `impl From<Body> for VirtualBody`: `(mass, mass * position)`. -/
def VirtualBody.ofBody (b : Body) : VirtualBody :=
  ⟨b.mass, b.position.mulScalar b.mass⟩

/-- `VirtualBody::centered()`: position divided by mass.  The source carries
a `debug_assert!(mass > 0)`; in release the division simply runs, and in the
embedding division by zero yields zero. -/
def VirtualBody.centered (v : VirtualBody) : VirtualBody :=
  ⟨v.mass, v.position.divScalar v.mass⟩

-- Node and index arithmetic: src/src/physics/barneshut.rs -------------------

/-- Node, from `src/src/physics/barneshut.rs`: index, space, aggregate body. -/
structure Node where
  id : ℕ
  space : Rect
  body : VirtualBody
deriving DecidableEq

/-- `Node::nw()`, the north-west child index. -/
def Node.nw (n : Node) : ℕ := 4 * n.id + 1

/-- `Node::ne()`, the north-east child index. -/
def Node.ne (n : Node) : ℕ := 4 * n.id + 2

/-- `Node::sw()`, the south-west child index. -/
def Node.sw (n : Node) : ℕ := 4 * n.id + 3

/-- `Node::se()`, the south-east child index. -/
def Node.se (n : Node) : ℕ := 4 * n.id + 4

/-- `ChildIterator::new(parent)`: the four child indices in order. -/
def childIndices (parent : ℕ) : List ℕ :=
  [4 * parent + 1, 4 * parent + 2, 4 * parent + 3, 4 * parent + 4]

/-- One step of `AncestorIterator::next()`: `current -= 1; current /= 4`. -/
def parentIdx (i : ℕ) : ℕ := (i - 1) / 4

/-- Fuel-driven body of `AncestorIterator`: while `current > 0`, step to the
parent and emit it.  The chain strictly decreases, so `fuel = current`
always suffices (`ancestors` below). -/
def ancestorsGo : ℕ → ℕ → List ℕ
  | 0, _ => []
  | fuel + 1, cur => if cur = 0 then [] else parentIdx cur :: ancestorsGo fuel (parentIdx cur)

/-- `Node::ancestors()` as a list: the parent chain up to and including 0. -/
def ancestors (i : ℕ) : List ℕ := ancestorsGo i i

/-- `Node::with(body)`: a copy of the node whose aggregate also includes the
given body (`VirtualBody::from(body)` plus the existing aggregate). -/
def Node.withBody (n : Node) (b : Body) : Node :=
  ⟨n.id, n.space,
    ⟨(VirtualBody.ofBody b).mass + n.body.mass,
     (VirtualBody.ofBody b).position + n.body.position⟩⟩

/-- `Node::is_empty()`: the aggregate equals `VirtualBody::zero()` (derived
`PartialEq`, exact componentwise equality). -/
def Node.is_empty (n : Node) : Bool := decide (n.body = VirtualBody.zero)

/-- The child index selected by a quadrant (the dispatch in
`Node::map_quadrant`). -/
def Node.quadrantChildIdx (n : Node) : Quadrant → ℕ
  | .nw _ => n.nw
  | .ne _ => n.ne
  | .sw _ => n.sw
  | .se _ => n.se

/-- `Node::map_quadrant(point, f)`: find the quadrant containing the point
and pass its child index and quadrant to `f`.  Panics (here `none`) when the
point is out of bounds or the space cannot be split. -/
def Node.map_quadrant (n : Node) (p : Point) (f : ℕ → Quadrant → α) : Option α :=
  match n.space.quadrant p with
  | some (.found q) => some (f (n.quadrantChildIdx q) q)
  | _ => none

/-- `Node::child_from_self()`: move the aggregate into the child chosen by
the centered position. -/
def Node.child_from_self (n : Node) : Option Node :=
  n.map_quadrant n.body.centered.position
    (fun idx q => Node.mk idx q.space n.body)

-- BHTree: src/src/physics/barneshut.rs --------------------------------------

/-- BHTree, from `src/src/physics/barneshut.rs`.  The `HashMap<Index, Node>`
is a function from indices to optional nodes. -/
structure BHTree where
  space : Rect
  nodes : ℕ → Option Node

/-- `Pending(Index, Body)`: the saved state of the insertion loop. -/
structure Pending where
  idx : ℕ
  body : Body

/-- `Action`: insert the given node, or internalize the node at the given
index and continue with the pending state. -/
inductive Action where
  | insert (n : Node)
  | internalize (id : ℕ) (p : Pending)

/-- `BHTree::new(space)`: a tree holding only an empty root node. -/
def BHTree.new (space : Rect) : BHTree :=
  ⟨space, fun i => if i = 0 then some ⟨0, space, VirtualBody.zero⟩ else none⟩

/-- `BHTree::node(idx)`. -/
def BHTree.node (t : BHTree) (idx : ℕ) : Option Node := t.nodes idx

/-- `BHTree::is_leaf(node)`: none of the four children is present. -/
def BHTree.is_leaf (t : BHTree) (n : Node) : Bool :=
  (childIndices n.id).all fun c => (t.nodes c).isNone

/-- Update of the node map at an explicit key. -/
def BHTree.storeAt (t : BHTree) (idx : ℕ) (n : Node) : BHTree :=
  ⟨t.space, fun i => if i = idx then some n else t.nodes i⟩

/-- Update of the node map at the id of the node (`nodes.insert(node.id, node)`). -/
def BHTree.store (t : BHTree) (n : Node) : BHTree := t.storeAt n.id n

/-- `BHTree::action(node, body)`: dive from `node` towards the position of
`body` and decide what to do.  The recursion follows existing child nodes;
`fuel` bounds it (the Rust recursion is bounded by the tree depth), `none`
is the out-of-fuel or panic case. -/
def BHTree.action (t : BHTree) : ℕ → Node → Body → Option Action
  | 0, _, _ => none
  | fuel + 1, n, body =>
    if t.is_leaf n then
      if n.is_empty || n.space.is_unit_rect then some (.insert (n.withBody body))
      else some (.internalize n.id ⟨n.id, body⟩)
    else
      match n.space.quadrant body.position with
      | some (.found q) =>
        match t.nodes (n.quadrantChildIdx q) with
        | some child => t.action fuel child body
        | none => some (.insert ⟨n.quadrantChildIdx q, q.space, VirtualBody.ofBody body⟩)
      | _ => none

/-- The ancestor update of `BHTree::process` on `Action::Insert`: each
ancestor absorbs `(node.body.mass, node.body.position)`.  `none` when an
expected ancestor is absent (`expect` panic). -/
def BHTree.bumpAncestors (t : BHTree) (vb : VirtualBody) : List ℕ → Option BHTree
  | [] => some t
  | idx :: rest =>
    match t.nodes idx with
    | none => none
    | some parent =>
      BHTree.bumpAncestors
        (t.storeAt idx ⟨parent.id, parent.space,
          ⟨parent.body.mass + vb.mass, parent.body.position + vb.position⟩⟩)
        vb rest

/-- `BHTree::internalize(id)`: take the body of the leaf at `id` and place a
copy into the child chosen by its centered position; `id` stays, now
internal. -/
def BHTree.internalize (t : BHTree) (id : ℕ) : Option BHTree :=
  match t.nodes id with
  | none => none
  | some n =>
    match n.child_from_self with
    | none => none
    | some child => some ((t.store n).store child)

/-- `BHTree::process(action)`: insert the node after updating the aggregates
of its ancestors, or internalize and return the pending state. -/
def BHTree.process (t : BHTree) : Action → Option (BHTree × Option Pending)
  | .insert n =>
    match t.bumpAncestors n.body (ancestors n.id) with
    | none => none
    | some t1 => some (t1.store n, none)
  | .internalize id p =>
    match t.internalize id with
    | none => none
    | some t1 => some (t1, some p)

/-- `BHTree::insert(pending)`: the driver loop alternating `action` and
`process`.  `fuel` bounds the Rust recursion (bounded in reachable trees by
the unit-square depth cap); `none` is the out-of-fuel or panic case. -/
def BHTree.insertLoop (t : BHTree) : ℕ → Pending → Option BHTree
  | 0, _ => none
  | fuel + 1, p =>
    match t.nodes p.idx with
    | none => none
    | some n =>
      match t.action (fuel + 1) n p.body with
      | none => none
      | some a =>
        match t.process a with
        | none => none
        | some (t1, none) => some t1
        | some (t1, some p1) => t1.insertLoop fuel p1

/-- `BHTree::add(body)`: silently drop a body outside the root space,
otherwise run the insertion loop from the root. -/
def BHTree.add (t : BHTree) (fuel : ℕ) (b : Body) : Option BHTree :=
  if t.space.contains b.position then t.insertLoop fuel ⟨0, b⟩
  else some t

/-- Sequential insertion of a list of bodies (the per-step tree build of
`BHField::forces`). -/
def BHTree.addAll (t : BHTree) (fuel : ℕ) : List Body → Option BHTree
  | [] => some t
  | b :: rest =>
    match t.add fuel b with
    | none => none
    | some t1 => t1.addAll fuel rest

-- virtual_bodies: src/src/physics/barneshut.rs ------------------------------

/-- The pruning condition of `BHTree::virtual_bodies`:
`node.space.diameter() / dist < 2.0` with
`dist = body.position.distance_to(centered position)`.  Compared via squares
(see the header note); `dist = 0` gives `+inf < 2.0 = false` in the source
and `false` here. -/
def farCondition (queryPos : Point) (n : Node) : Bool :=
  let c := n.body.centered.position
  let distSq := (queryPos.x - c.x) ^ 2 + (queryPos.y - c.y) ^ 2
  decide (0 < distSq) && decide (n.space.diameterSq < 4 * distSq)

/-- The leaf step of `virtual_bodies`: subtract the query body from the leaf
aggregate and emit the centered result when its mass stays positive. -/
def leafEmit (query : Body) (n : Node) : List VirtualBody :=
  let u : VirtualBody :=
    ⟨n.body.mass - query.mass, n.body.position.sub (query.position.mulScalar query.mass)⟩
  if u.mass ≤ 0 then [] else [u.centered]

/-- The preorder traversal of `BHTree::virtual_bodies` with pruning, written
as the equivalent recursion over subtrees: a visited node that satisfies the
condition emits its centered aggregate and skips its descendants
(`skip_children` pops exactly the child iterator of the node just returned);
a visited leaf emits the query-subtracted aggregate; otherwise the four
children are visited in NW, NE, SW, SE order, absent children yielding
nothing.  `fuel` bounds the descent depth. -/
def BHTree.visitAux (t : BHTree) (query : Body) : ℕ → ℕ → List VirtualBody
  | 0, _ => []
  | fuel + 1, idx =>
    match t.nodes idx with
    | none => []
    | some n =>
      if farCondition query.position n then [n.body.centered]
      else if t.is_leaf n then leafEmit query n
      else
        t.visitAux query fuel (4 * idx + 1) ++ t.visitAux query fuel (4 * idx + 2) ++
          t.visitAux query fuel (4 * idx + 3) ++ t.visitAux query fuel (4 * idx + 4)

/-- `BHTree::virtual_bodies(body)`: the traversal started at the root. -/
def BHTree.virtual_bodies (t : BHTree) (query : Body) (fuel : ℕ) : List VirtualBody :=
  t.visitAux query fuel 0

/-- Sum of the masses of a list of virtual bodies. -/
def massSum (l : List VirtualBody) : ℚ := (l.map VirtualBody.mass).sum

-- Gravity kernel: src/src/physics/force.rs ----------------------------------

/-- `Vector::magnitude()`: the euclidean norm, in `ℝ`. -/
noncomputable def Vector.magnitudeR (v : Vector) : ℝ :=
  Real.sqrt (((v.dx ^ 2 + v.dy ^ 2 : ℚ) : ℝ))

/-- `Vector::normalized()`: `None` when the vector equals zero under the
tolerance-based `PartialEq`, otherwise the components divided by the
magnitude. -/
noncomputable def Vector.normalizedR (v : Vector) : Option (ℝ × ℝ) :=
  if v.approxEq Vector.zero then none
  else some ((v.dx : ℝ) / v.magnitudeR, (v.dy : ℝ) / v.magnitudeR)

/-- `Gravity::between(b1, b2)` from `src/src/physics/force.rs`: zero for
exactly equal positions; otherwise direction times
`g * m1 * m2 / (max(|d|, min_dist))^2`, where the direction is
`normalized()` of the difference, or zero when `normalized()` is `None`.
The `Gravity::new` panic for `min_dist <= 0` becomes a hypothesis in the
claims. -/
noncomputable def Gravity.between (g min_dist : ℚ) (b1 b2 : Body) : ℝ × ℝ :=
  if b1.position = b2.position then (0, 0)
  else
    let d := Vector.difference b2.position b1.position
    let distance : ℝ := max d.magnitudeR ((min_dist : ℚ) : ℝ)
    let force : ℝ := ((g * b1.mass * b2.mass : ℚ) : ℝ) / (distance * distance)
    let dir : ℝ × ℝ :=
      match d.normalizedR with
      | none => (0, 0)
      | some u => u
    (dir.1 * force, dir.2 * force)

/-- Modelled from the spec (section 4.D), for comparison with the source
kernel: zero for equal positions; otherwise
`d = difference(B.position, A.position)`, `r = max(|d|, min_dist)`,
`F = G * m_A * m_B / r^2`, direction `d / |d|` (zero only when `d` is the
zero vector), returning direction times `F`. -/
noncomputable def Gravity.betweenSpec (g min_dist : ℚ) (b1 b2 : Body) : ℝ × ℝ :=
  if b1.position = b2.position then (0, 0)
  else
    let d := Vector.difference b2.position b1.position
    let r : ℝ := max d.magnitudeR ((min_dist : ℚ) : ℝ)
    let F : ℝ := ((g * b1.mass * b2.mass : ℚ) : ℝ) / r ^ 2
    if d = Vector.zero then (0, 0)
    else ((d.dx : ℝ) / d.magnitudeR * F, (d.dy : ℝ) / d.magnitudeR * F)

-- Rotation generator: src/src/util/gens.rs ----------------------------------

/-- The `f32` value of `std::f32::consts::PI` (`0x40490FDB`), exactly. -/
def piF32 : ℚ := 13176795 / 4194304

/-- The `pi_2` constant of `RotationGen::normalize`: `2.0 * PI`. -/
def pi2 : ℚ := 2 * piF32

/-- The first loop of `RotationGen::normalize`: add `2*PI` to `min` while
`min + 2*PI <= 0`. -/
def normMin (m : ℚ) : ℚ :=
  if h : m + pi2 ≤ 0 then normMin (m + pi2) else m
termination_by (⌈-m / pi2⌉).toNat
decreasing_by
  have hp : (0 : ℚ) < pi2 := by norm_num [pi2, piF32]
  have h1 : -(m + pi2) / pi2 = -m / pi2 - 1 := by
    field_simp
    ring
  have h2 : (1 : ℚ) ≤ -m / pi2 := by
    rw [le_div_iff hp]
    linarith
  have h3 : (1 : ℤ) ≤ ⌈-m / pi2⌉ := by
    have := Int.le_ceil (-m / pi2)
    exact_mod_cast le_trans h2 this
  rw [h1, Int.ceil_sub_one]
  omega

/-- The second loop of `RotationGen::normalize`: subtract `2*PI` from `max`
while `max - 2*PI > 0`. -/
def normMax (m : ℚ) : ℚ :=
  if h : 0 < m - pi2 then normMax (m - pi2) else m
termination_by (⌈m / pi2⌉).toNat
decreasing_by
  have hp : (0 : ℚ) < pi2 := by norm_num [pi2, piF32]
  have h1 : (m - pi2) / pi2 = m / pi2 - 1 := by
    field_simp
  have h2 : (1 : ℚ) ≤ m / pi2 := by
    rw [le_div_iff hp]
    linarith
  have h3 : (1 : ℤ) ≤ ⌈m / pi2⌉ := by
    have := Int.le_ceil (m / pi2)
    exact_mod_cast le_trans h2 this
  rw [h1, Int.ceil_sub_one]
  omega

/-- `RotationGen::normalize(min, max)`. -/
def RotationGen.normalize (lo hi : ℚ) : ℚ × ℚ := (normMin lo, normMax hi)

/-- UniformGen, from `src/src/util/gens.rs`: the stored sampling range of
`rand::distributions::Uniform::new_inclusive(min, max)`.  The external
`rand` crate panics when `min > max`, a behaviour the repository pins with
its own test `uniform_gen_panics_on_invalid_range`; the panic is `none`. -/
structure UniformGen where
  lo : ℚ
  hi : ℚ
deriving DecidableEq

/-- `UniformGen::new(min, max)`. -/
def UniformGen.new (lo hi : ℚ) : Option UniformGen :=
  if hi < lo then none else some ⟨lo, hi⟩

/-- RotationGen, from `src/src/util/gens.rs`. -/
structure RotationGen where
  gen : UniformGen
deriving DecidableEq

/-- `RotationGen::new_radians(min, max)`. -/
def RotationGen.new_radians (lo hi : ℚ) : Option RotationGen :=
  (UniformGen.new (RotationGen.normalize lo hi).1 (RotationGen.normalize lo hi).2).map
    RotationGen.mk

/-- `RotationGen::new_degrees(min, max)`: degrees converted by
`f32::to_radians`, which multiplies by `PI / 180`.  The quotient is kept
exact; the `f32` rounding of the constant does not affect the claim about
the normalized bounds. -/
def RotationGen.new_degrees (lo hi : ℚ) : Option RotationGen :=
  RotationGen.new_radians (lo * (piF32 / 180)) (hi * (piF32 / 180))

-- Helper lemmas on rectangles and quadrants ---------------------------------

/-- Unfolding of `Rect.contains` into its four inequalities. -/
theorem Rect.contains_iff (r : Rect) (p : Point) :
    r.contains p = true ↔
      r.origin.x ≤ p.x ∧ r.origin.y ≤ p.y ∧
        p.x ≤ r.origin.x + (r.size.width : ℚ) ∧ p.y ≤ r.origin.y + (r.size.height : ℚ) := by
  simp [Rect.contains, Rect.upper_bound, and_assoc]

theorem halfPow (k : ℕ) (hk : 1 ≤ k) : (2 ^ k : ℕ) / 2 = 2 ^ (k - 1) := by
  obtain ⟨j, rfl⟩ := Nat.exists_eq_add_of_le hk
  rw [add_comm 1 j, Nat.add_sub_cancel, pow_succ, Nat.mul_div_cancel _ (by norm_num)]

/-- A `2^k` square with `k ≥ 1` splits into four `2^(k-1)` squares at the
explicit origins used by the source. -/
theorem Rect.quadrants_eq (r : Rect) (k : ℕ) (hw : r.size.width = 2 ^ k)
    (hh : r.size.height = 2 ^ k) (hk : 1 ≤ k) :
    r.quadrants =
      some
        (.nw ⟨⟨r.origin.x, r.origin.y + ((2 ^ (k - 1) : ℕ) : ℚ)⟩, ⟨2 ^ (k - 1), 2 ^ (k - 1)⟩⟩,
         .ne ⟨⟨r.origin.x + ((2 ^ (k - 1) : ℕ) : ℚ), r.origin.y + ((2 ^ (k - 1) : ℕ) : ℚ)⟩,
              ⟨2 ^ (k - 1), 2 ^ (k - 1)⟩⟩,
         .sw ⟨⟨r.origin.x, r.origin.y⟩, ⟨2 ^ (k - 1), 2 ^ (k - 1)⟩⟩,
         .se ⟨⟨r.origin.x + ((2 ^ (k - 1) : ℕ) : ℚ), r.origin.y⟩, ⟨2 ^ (k - 1), 2 ^ (k - 1)⟩⟩) := by
  have hmin : r.has_minimum_dimension = false := by
    simp only [Rect.has_minimum_dimension, Bool.or_eq_false_iff, decide_eq_false_iff_not,
      not_le, hw, hh]
    constructor <;> calc 1 < 2 ^ 1 := by norm_num
      _ ≤ 2 ^ k := Nat.pow_le_pow_right (by norm_num) hk
  have hhalf : r.size.half_size = ⟨2 ^ (k - 1), 2 ^ (k - 1)⟩ := by
    simp [Size.half_size, hw, halfPow k hk]
  simp only [Rect.quadrants, hmin, Bool.false_eq_true, if_false, hhalf, Rect.new]

/-- Coverage: a point of a splittable `2^k` square lies in at least one of
the four sub-squares. -/
theorem Rect.quadrant_covers (r : Rect) (k : ℕ) (hw : r.size.width = 2 ^ k)
    (hh : r.size.height = 2 ^ k) (hk : 1 ≤ k) (p : Point) (hp : r.contains p = true) :
    ∃ qs, r.quadrants = some qs ∧
      (qs.1.contains p = true ∨ qs.2.1.contains p = true ∨
        qs.2.2.1.contains p = true ∨ qs.2.2.2.contains p = true) := by
  refine ⟨_, r.quadrants_eq k hw hh hk, ?_⟩
  rw [Rect.contains_iff] at hp
  rw [hw, hh] at hp
  have hsum : ((2 ^ (k - 1) : ℕ) : ℚ) + ((2 ^ (k - 1) : ℕ) : ℚ) = ((2 ^ k : ℕ) : ℚ) := by
    obtain ⟨j, rfl⟩ := Nat.exists_eq_add_of_le hk
    push_cast
    rw [add_comm 1 j, Nat.add_sub_cancel, pow_succ]
    ring
  obtain ⟨h1, h2, h3, h4⟩ := hp
  simp only [Quadrant.contains, Quadrant.space, Rect.contains_iff]
  rcases le_or_lt p.x (r.origin.x + ((2 ^ (k - 1) : ℕ) : ℚ)) with hx | hx <;>
    rcases le_or_lt (r.origin.y + ((2 ^ (k - 1) : ℕ) : ℚ)) p.y with hy | hy
  · exact Or.inl ⟨h1, hy, hx, by linarith⟩
  · exact Or.inr (Or.inr (Or.inl ⟨h1, h2, hx, le_of_lt hy⟩))
  · exact Or.inr (Or.inl ⟨le_of_lt hx, hy, by linarith, by linarith⟩)
  · exact Or.inr (Or.inr (Or.inr ⟨le_of_lt hx, h2, by linarith, le_of_lt hy⟩))

/-- C6: for every non-unit square region and every point, `quadrant` returns
`Ok` of the first quadrant in the fixed order NW, NE, SW, SE whose sub-square
contains the point, and the `OutOfBounds` error exactly when none of the four
contains it. -/
theorem c6_quadrant_first_match (r : Rect) (k : ℕ) (hw : r.size.width = 2 ^ k)
    (hh : r.size.height = 2 ^ k) (hk : 1 ≤ k) (p : Point) :
    ∃ qs : Quadrant × Quadrant × Quadrant × Quadrant,
      r.quadrants = some qs ∧
        r.quadrant p =
          some
            (if qs.1.contains p then QuadrantResult.found qs.1
             else if qs.2.1.contains p then QuadrantResult.found qs.2.1
             else if qs.2.2.1.contains p then QuadrantResult.found qs.2.2.1
             else if qs.2.2.2.contains p then QuadrantResult.found qs.2.2.2
             else QuadrantResult.outOfBounds) := by
  refine ⟨_, r.quadrants_eq k hw hh hk, ?_⟩
  rw [Rect.quadrant, r.quadrants_eq k hw hh hk, Option.map_some']

/-- C6 witness: the 8-square at the origin, queried at the centre point
(4, 4), which lies on the boundary of all four sub-squares and goes to NW. -/
theorem c6_quadrant_first_match_witness :
    ((Square.new 0 0 3).size.width = 2 ^ 3 ∧ (Square.new 0 0 3).size.height = 2 ^ 3 ∧ 1 ≤ 3) ∧
      ∃ qs : Quadrant × Quadrant × Quadrant × Quadrant,
        (Square.new 0 0 3).quadrants = some qs ∧
          (Square.new 0 0 3).quadrant ⟨4, 4⟩ =
            some
              (if qs.1.contains ⟨4, 4⟩ then QuadrantResult.found qs.1
               else if qs.2.1.contains ⟨4, 4⟩ then QuadrantResult.found qs.2.1
               else if qs.2.2.1.contains ⟨4, 4⟩ then QuadrantResult.found qs.2.2.1
               else if qs.2.2.2.contains ⟨4, 4⟩ then QuadrantResult.found qs.2.2.2
               else QuadrantResult.outOfBounds) :=
  ⟨⟨by decide, by decide, by decide⟩,
    c6_quadrant_first_match (Square.new 0 0 3) 3 (by decide) (by decide) (by decide) ⟨4, 4⟩⟩

/-- C10: a contained point of a splittable `2^k` square is always assigned a
quadrant (never `OutOfBounds`), so `Node::map_quadrant` cannot panic while
inserting in-bounds bodies. -/
theorem c10_quadrant_total_for_contained (r : Rect) (k : ℕ) (hw : r.size.width = 2 ^ k)
    (hh : r.size.height = 2 ^ k) (hk : 1 ≤ k) (p : Point) (hp : r.contains p = true) :
    (∃ q : Quadrant, r.quadrant p = some (QuadrantResult.found q)) ∧
      ∀ {α : Type} (n : Node) (f : ℕ → Quadrant → α),
        n.space = r → (n.map_quadrant p f).isSome = true := by
  have hfound : ∃ q : Quadrant, r.quadrant p = some (QuadrantResult.found q) := by
    obtain ⟨qs, hqs, hcov⟩ := r.quadrant_covers k hw hh hk p hp
    rw [Rect.quadrant, hqs, Option.map_some']
    by_cases c1 : qs.1.contains p = true
    · exact ⟨qs.1, by rw [if_pos c1]⟩
    · by_cases c2 : qs.2.1.contains p = true
      · exact ⟨qs.2.1, by rw [if_neg (by simp [c1]), if_pos c2]⟩
      · by_cases c3 : qs.2.2.1.contains p = true
        · exact ⟨qs.2.2.1, by rw [if_neg (by simp [c1]), if_neg (by simp [c2]), if_pos c3]⟩
        · have c4 : qs.2.2.2.contains p = true := by tauto
          exact ⟨qs.2.2.2, by
            rw [if_neg (by simp [c1]), if_neg (by simp [c2]), if_neg (by simp [c3]), if_pos c4]⟩
  refine ⟨hfound, ?_⟩
  intro α n f hn
  obtain ⟨q, hq⟩ := hfound
  rw [Node.map_quadrant, hn, hq]
  rfl

/-- C10 witness: the point (1, 6) inside the 8-square at the origin. -/
theorem c10_quadrant_total_for_contained_witness :
    ((Square.new 0 0 3).size.width = 2 ^ 3 ∧ (Square.new 0 0 3).size.height = 2 ^ 3 ∧
        1 ≤ 3 ∧ (Square.new 0 0 3).contains ⟨1, 6⟩ = true) ∧
      ((∃ q : Quadrant, (Square.new 0 0 3).quadrant ⟨1, 6⟩ = some (QuadrantResult.found q)) ∧
        ∀ {α : Type} (n : Node) (f : ℕ → Quadrant → α),
          n.space = Square.new 0 0 3 → (n.map_quadrant ⟨1, 6⟩ f).isSome = true) :=
  ⟨⟨by decide, by decide, by decide, by with_unfolding_all rfl⟩,
    c10_quadrant_total_for_contained (Square.new 0 0 3) 3 (by decide) (by decide) (by decide)
      ⟨1, 6⟩ (by with_unfolding_all rfl)⟩

-- C5 and C7 ------------------------------------------------------------------

/-- C5: adding a body whose position lies outside the root square raises no
error and returns the tree completely unchanged (same node mapping). -/
theorem c5_out_of_bounds_add_noop (t : BHTree) (fuel : ℕ) (b : Body)
    (h : t.space.contains b.position = false) :
    t.add fuel b = some t := by
  rw [BHTree.add, h]
  rfl

/-- C5 witness: the point (5, 0) lies outside the square from (0,0) of edge
4, and adding a body there is a no-op. -/
theorem c5_out_of_bounds_add_noop_witness :
    (BHTree.new (Square.new 0 0 2)).space.contains ⟨5, 0⟩ = false ∧
      (BHTree.new (Square.new 0 0 2)).add 7 ⟨1, ⟨5, 0⟩, Vector.zero⟩ =
        some (BHTree.new (Square.new 0 0 2)) :=
  ⟨by with_unfolding_all rfl,
    c5_out_of_bounds_add_noop (BHTree.new (Square.new 0 0 2)) 7 ⟨1, ⟨5, 0⟩, Vector.zero⟩
      (by with_unfolding_all rfl)⟩

/-- C7: `apply_force(f)` followed by `apply_velocity()` yields the final
velocity `v + f / m` and the final position `p + (v + f / m)`; `apply_force`
leaves the position unchanged. -/
theorem c7_integrator_step (m : ℚ) (p : Point) (v f : Vector) (hm : 0 < m) :
    (((Body.mk m p v).apply_force f).position = p) ∧
      (((Body.mk m p v).apply_force f).apply_velocity).velocity = v + f.divScalar m ∧
      (((Body.mk m p v).apply_force f).apply_velocity).position =
        ⟨p.x + (v + f.divScalar m).dx, p.y + (v + f.divScalar m).dy⟩ := by
  refine ⟨rfl, rfl, rfl⟩

/-- C7 witness: the integrator scenario of the spec (S5): mass 2, position
(1,2), velocity (-2,5), force (3,-3) gives velocity (-0.5, 3.5) and position
(0.5, 5.5). -/
theorem c7_integrator_step_witness :
    (0 : ℚ) < 2 ∧
      ((((Body.mk 2 ⟨1, 2⟩ ⟨-2, 5⟩).apply_force ⟨3, -3⟩).position = (⟨1, 2⟩ : Point)) ∧
        ((((Body.mk 2 ⟨1, 2⟩ ⟨-2, 5⟩).apply_force ⟨3, -3⟩).apply_velocity).velocity =
          (⟨-2, 5⟩ : Vector) + Vector.divScalar ⟨3, -3⟩ 2) ∧
        ((((Body.mk 2 ⟨1, 2⟩ ⟨-2, 5⟩).apply_force ⟨3, -3⟩).apply_velocity).position =
          ⟨(1 : ℚ) + ((⟨-2, 5⟩ : Vector) + Vector.divScalar ⟨3, -3⟩ 2).dx,
           (2 : ℚ) + ((⟨-2, 5⟩ : Vector) + Vector.divScalar ⟨3, -3⟩ 2).dy⟩)) :=
  ⟨by norm_num, c7_integrator_step 2 ⟨1, 2⟩ ⟨-2, 5⟩ ⟨3, -3⟩ (by norm_num)⟩

-- C9: rotation generator bounds ---------------------------------------------

theorem normMin_gt (m : ℚ) : -pi2 < normMin m := by
  induction m using normMin.induct with
  | case1 m h ih =>
    rw [normMin.eq_def, dif_pos h]
    exact ih
  | case2 m h =>
    rw [normMin.eq_def, dif_neg h]
    linarith

theorem normMax_le (m : ℚ) : normMax m ≤ pi2 := by
  induction m using normMax.induct with
  | case1 m h ih =>
    rw [normMax.eq_def, dif_pos h]
    exact ih
  | case2 m h =>
    rw [normMax.eq_def, dif_neg h]
    linarith

/-- C9: every successfully constructed rotation generator (radians or
degrees path) stores a sampling range whose two bounds both lie in the
half-open interval from `-2*PI` (exclusive) to `2*PI` (inclusive), with `PI`
the `f32` constant.  (A range with `normMin lo > normMax hi` makes
`Uniform::new_inclusive` panic, so no generator is constructed.) -/
theorem c9_rotation_bounds (lo hi : ℚ) (g : RotationGen)
    (h : RotationGen.new_radians lo hi = some g ∨ RotationGen.new_degrees lo hi = some g) :
    -pi2 < g.gen.lo ∧ g.gen.lo ≤ pi2 ∧ -pi2 < g.gen.hi ∧ g.gen.hi ≤ pi2 := by
  have key : ∀ a b : ℚ, RotationGen.new_radians a b = some g →
      -pi2 < g.gen.lo ∧ g.gen.lo ≤ pi2 ∧ -pi2 < g.gen.hi ∧ g.gen.hi ≤ pi2 := by
    intro a b hab
    unfold RotationGen.new_radians RotationGen.normalize UniformGen.new at hab
    by_cases hc : normMax b < normMin a
    · rw [if_pos hc] at hab
      simp at hab
    · rw [if_neg hc] at hab
      simp only [Option.map_some', Option.some.injEq] at hab
      push_neg at hc
      have hlo : g.gen.lo = normMin a := by rw [← hab]
      have hhi : g.gen.hi = normMax b := by rw [← hab]
      rw [hlo, hhi]
      refine ⟨normMin_gt a, le_trans hc (normMax_le b), ?_, normMax_le b⟩
      exact lt_of_lt_of_le (normMin_gt a) hc
  rcases h with h | h
  · exact key lo hi h
  · exact key _ _ h

/-- C9 witness: the range from 1 to 2 radians is already normalized and the
constructed generator stores it. -/
theorem c9_rotation_bounds_witness :
    (RotationGen.new_radians 1 2 = some ⟨⟨1, 2⟩⟩ ∨
        RotationGen.new_degrees 1 2 = some ⟨⟨1, 2⟩⟩) ∧
      (-pi2 < (RotationGen.mk ⟨1, 2⟩).gen.lo ∧ (RotationGen.mk ⟨1, 2⟩).gen.lo ≤ pi2 ∧
        -pi2 < (RotationGen.mk ⟨1, 2⟩).gen.hi ∧ (RotationGen.mk ⟨1, 2⟩).gen.hi ≤ pi2) :=
  have h : RotationGen.new_radians 1 2 = some ⟨⟨1, 2⟩⟩ := by
    unfold RotationGen.new_radians RotationGen.normalize UniformGen.new
    rw [normMin.eq_def, dif_neg (by norm_num [pi2, piF32]),
      normMax.eq_def, dif_neg (by norm_num [pi2, piF32]),
      if_neg (by norm_num)]
    rfl
  ⟨Or.inl h, c9_rotation_bounds 1 2 ⟨⟨1, 2⟩⟩ (Or.inl h)⟩

-- Gravity kernel claims ------------------------------------------------------

theorem Vector.magnitudeR_neg (v : Vector) : v.neg.magnitudeR = v.magnitudeR := by
  unfold Vector.magnitudeR Vector.neg
  congr 1
  push_cast
  ring

theorem Vector.approxEq_neg_zero (v : Vector) :
    v.neg.approxEq Vector.zero = v.approxEq Vector.zero := by
  simp [Vector.approxEq, Vector.neg, Vector.zero, abs_neg]

theorem Vector.difference_swap (p q : Point) :
    Vector.difference p q = (Vector.difference q p).neg := by
  simp only [Vector.difference, Vector.neg, Vector.mk.injEq]
  constructor <;> ring

/-- Explicit form of `Gravity.between` for distinct positions. -/
theorem between_unfold (g md : ℚ) (b1 b2 : Body) (hne : b1.position ≠ b2.position) :
    Gravity.between g md b1 b2 =
      if (Vector.difference b2.position b1.position).approxEq Vector.zero then (0, 0)
      else
        (((Vector.difference b2.position b1.position).dx : ℝ) /
            (Vector.difference b2.position b1.position).magnitudeR *
            (((g * b1.mass * b2.mass : ℚ) : ℝ) /
              (max (Vector.difference b2.position b1.position).magnitudeR ((md : ℚ) : ℝ) *
                max (Vector.difference b2.position b1.position).magnitudeR ((md : ℚ) : ℝ))),
          ((Vector.difference b2.position b1.position).dy : ℝ) /
            (Vector.difference b2.position b1.position).magnitudeR *
            (((g * b1.mass * b2.mass : ℚ) : ℝ) /
              (max (Vector.difference b2.position b1.position).magnitudeR ((md : ℚ) : ℝ) *
                max (Vector.difference b2.position b1.position).magnitudeR ((md : ℚ) : ℝ)))) := by
  unfold Gravity.between Vector.normalizedR
  rw [if_neg hne]
  by_cases ha : (Vector.difference b2.position b1.position).approxEq Vector.zero
  · rw [if_pos ha]
    simp [ha]
  · rw [if_neg ha]
    simp [ha]

/-- C8: swapping the two bodies negates the force vector of the gravity
kernel. -/
theorem c8_gravity_antisymmetry (g min_dist : ℚ) (b1 b2 : Body) (h : 0 < min_dist) :
    Gravity.between g min_dist b1 b2 = -(Gravity.between g min_dist b2 b1) := by
  by_cases hp : b1.position = b2.position
  · unfold Gravity.between
    rw [if_pos hp, if_pos hp.symm]
    simp [Prod.ext_iff]
  · have hp2 : b2.position ≠ b1.position := fun hh => hp hh.symm
    rw [between_unfold g min_dist b1 b2 hp, between_unfold g min_dist b2 b1 hp2,
      Vector.difference_swap b1.position b2.position, Vector.magnitudeR_neg,
      Vector.approxEq_neg_zero]
    have hm : (g * b2.mass * b1.mass : ℚ) = (g * b1.mass * b2.mass : ℚ) := by ring
    rw [hm]
    by_cases ha : (Vector.difference b2.position b1.position).approxEq Vector.zero
    · rw [if_pos ha, if_pos ha]
      simp [Prod.ext_iff]
    · rw [if_neg ha, if_neg ha]
      simp only [Vector.neg, Prod.ext_iff, Prod.fst_neg, Prod.snd_neg]
      push_cast
      constructor <;> ring

/-- C8 witness: two concrete bodies with `min_dist = 1 > 0`. -/
theorem c8_gravity_antisymmetry_witness :
    (0 : ℚ) < 1 ∧
      Gravity.between 1 1 (Body.mk 1 ⟨0, 0⟩ Vector.zero) (Body.mk 2 ⟨3, 4⟩ Vector.zero) =
        -(Gravity.between 1 1 (Body.mk 2 ⟨3, 4⟩ Vector.zero) (Body.mk 1 ⟨0, 0⟩ Vector.zero)) :=
  ⟨by norm_num,
    c8_gravity_antisymmetry 1 1 (Body.mk 1 ⟨0, 0⟩ Vector.zero) (Body.mk 2 ⟨3, 4⟩ Vector.zero)
      (by norm_num)⟩

/-- C3 counterexample: the two positions (0,0) and (2^-24, 0) are distinct
(and `2^-24` is an exact `f32` value), yet the kernel returns the zero
vector, because the difference passes the `1e-7` tolerance test of
`Vector::normalized`, while the claimed formula gives the nonzero vector
(1, 0). -/
theorem c3_between_tolerance_counterexample :
    (0 : ℚ) < 1 ∧
      (Body.mk 1 ⟨0, 0⟩ Vector.zero).position ≠
        (Body.mk 1 ⟨1 / 16777216, 0⟩ Vector.zero).position ∧
      Gravity.between 1 1 (Body.mk 1 ⟨0, 0⟩ Vector.zero)
          (Body.mk 1 ⟨1 / 16777216, 0⟩ Vector.zero) ≠
        Gravity.betweenSpec 1 1 (Body.mk 1 ⟨0, 0⟩ Vector.zero)
          (Body.mk 1 ⟨1 / 16777216, 0⟩ Vector.zero) := by
  have hne : (Body.mk 1 ⟨0, 0⟩ Vector.zero).position ≠
      (Body.mk 1 ⟨1 / 16777216, 0⟩ Vector.zero).position := by
    simp only [Point.mk.injEq, not_and]
    intro hh
    norm_num at hh
  refine ⟨by norm_num, hne, ?_⟩
  have happ : (Vector.difference (⟨1 / 16777216, 0⟩ : Point) (⟨0, 0⟩ : Point)).approxEq
      Vector.zero = true := by
    rw [Vector.approxEq]
    simp only [Vector.difference, Vector.zero, Bool.and_eq_true, decide_eq_true_eq]
    refine ⟨?_, ?_⟩ <;> rw [abs_lt] <;> constructor <;> norm_num [vecEps]
  have h1 : Gravity.between 1 1 (Body.mk 1 ⟨0, 0⟩ Vector.zero)
      (Body.mk 1 ⟨1 / 16777216, 0⟩ Vector.zero) = (0, 0) := by
    rw [between_unfold 1 1 _ _ hne]
    rw [if_pos happ]
  have hmag : (Vector.difference (⟨1 / 16777216, 0⟩ : Point) (⟨0, 0⟩ : Point)).magnitudeR =
      ((1 / 16777216 : ℚ) : ℝ) := by
    unfold Vector.magnitudeR
    have harg : (((Vector.difference (⟨1 / 16777216, 0⟩ : Point) (⟨0, 0⟩ : Point)).dx ^ 2 +
        (Vector.difference (⟨1 / 16777216, 0⟩ : Point) (⟨0, 0⟩ : Point)).dy ^ 2 : ℚ) : ℝ) =
        ((1 / 16777216 : ℚ) : ℝ) ^ 2 := by
      push_cast [Vector.difference]
      ring
    rw [harg, Real.sqrt_sq (by positivity)]
  have h2 : Gravity.betweenSpec 1 1 (Body.mk 1 ⟨0, 0⟩ Vector.zero)
      (Body.mk 1 ⟨1 / 16777216, 0⟩ Vector.zero) = (1, 0) := by
    unfold Gravity.betweenSpec
    rw [if_neg hne]
    have hdz : Vector.difference (⟨1 / 16777216, 0⟩ : Point) (⟨0, 0⟩ : Point) ≠
        Vector.zero := by
      simp only [Vector.difference, Vector.zero, ne_eq, Vector.mk.injEq, not_and]
      intro hh
      norm_num at hh
    rw [if_neg hdz]
    rw [hmag]
    have hmax : max ((1 / 16777216 : ℚ) : ℝ) (((1 : ℚ) : ℚ) : ℝ) = 1 := by
      rw [max_eq_right] <;> norm_num
    simp only [Vector.difference]
    rw [Prod.mk.injEq]
    constructor
    · push_cast
      rw [show ((1 : ℝ) / 16777216 ⊔ 1) = 1 from max_eq_right (by norm_num)]
      norm_num
    · push_cast
      norm_num
  rw [h1, h2]
  simp only [ne_eq, Prod.mk.injEq, not_and]
  intro hh
  norm_num at hh

/-- C3 amended: the kernel returns zero for exactly equal positions, returns
zero also when both components of the difference are below the `1e-7`
tolerance of the vector zero test, and otherwise returns the spec formula
`(d / |d|) * (g * mA * mB / max(|d|, min_dist)^2)`. -/
theorem c3_between_formula_amended (g md : ℚ) (b1 b2 : Body) (hmd : 0 < md) :
    Gravity.between g md b1 b2 =
      if b1.position ≠ b2.position ∧
          |(Vector.difference b2.position b1.position).dx| < vecEps ∧
          |(Vector.difference b2.position b1.position).dy| < vecEps
      then (0, 0)
      else Gravity.betweenSpec g md b1 b2 := by
  by_cases hp : b1.position = b2.position
  · rw [if_neg (by simp [hp])]
    unfold Gravity.between Gravity.betweenSpec
    rw [if_pos hp, if_pos hp]
  · rw [between_unfold g md b1 b2 hp]
    by_cases ha : (Vector.difference b2.position b1.position).approxEq Vector.zero
    · have ha2 : |(Vector.difference b2.position b1.position).dx| < vecEps ∧
          |(Vector.difference b2.position b1.position).dy| < vecEps := by
        rw [Vector.approxEq] at ha
        simp only [Vector.zero, sub_zero, Bool.and_eq_true, decide_eq_true_eq] at ha
        exact ha
      rw [if_pos ha, if_pos ⟨hp, ha2⟩]
    · have ha2 : ¬(|(Vector.difference b2.position b1.position).dx| < vecEps ∧
          |(Vector.difference b2.position b1.position).dy| < vecEps) := by
        intro hh
        apply ha
        rw [Vector.approxEq]
        simp only [Vector.zero, sub_zero, Bool.and_eq_true, decide_eq_true_eq]
        exact hh
      rw [if_neg ha, if_neg (by tauto)]
      unfold Gravity.betweenSpec
      rw [if_neg hp]
      have hdz : Vector.difference b2.position b1.position ≠ Vector.zero := by
        intro hh
        apply hp
        have hx : b2.position.x - b1.position.x = 0 := congrArg Vector.dx hh
        have hy : b2.position.y - b1.position.y = 0 := congrArg Vector.dy hh
        have : b1.position = ⟨b2.position.x, b2.position.y⟩ := by
          have e1 : b1.position.x = b2.position.x := by linarith
          have e2 : b1.position.y = b2.position.y := by linarith
          calc b1.position = ⟨b1.position.x, b1.position.y⟩ := rfl
            _ = ⟨b2.position.x, b2.position.y⟩ := by rw [e1, e2]
        exact this
      rw [if_neg hdz]
      rw [Prod.mk.injEq]
      constructor <;> ring

/-- C3 amended witness: at equal positions both sides are the zero vector. -/
theorem c3_between_formula_amended_witness :
    (0 : ℚ) < 1 ∧
      Gravity.between 1 1 (Body.mk 1 ⟨0, 0⟩ Vector.zero) (Body.mk 1 ⟨0, 0⟩ Vector.zero) =
        if (Body.mk 1 ⟨0, 0⟩ Vector.zero).position ≠ (Body.mk 1 ⟨0, 0⟩ Vector.zero).position ∧
            |(Vector.difference (Body.mk 1 ⟨0, 0⟩ Vector.zero).position
                (Body.mk 1 ⟨0, 0⟩ Vector.zero).position).dx| < vecEps ∧
            |(Vector.difference (Body.mk 1 ⟨0, 0⟩ Vector.zero).position
                (Body.mk 1 ⟨0, 0⟩ Vector.zero).position).dy| < vecEps
        then (0, 0)
        else Gravity.betweenSpec 1 1 (Body.mk 1 ⟨0, 0⟩ Vector.zero)
          (Body.mk 1 ⟨0, 0⟩ Vector.zero) :=
  ⟨by norm_num,
    c3_between_formula_amended 1 1 (Body.mk 1 ⟨0, 0⟩ Vector.zero)
      (Body.mk 1 ⟨0, 0⟩ Vector.zero) (by norm_num)⟩

-- Index arithmetic: levels, cells, insertion paths ---------------------------

/-- Depth of an index in the `i -> 4i+1 .. 4i+4` numbering (root is level 0). -/
def level : ℕ → ℕ
  | 0 => 0
  | i + 1 => level (i / 4) + 1
termination_by i => i
decreasing_by exact Nat.lt_succ_of_le (Nat.div_le_self i 4)

/-- Slot of a quadrant among the child indices (NW first). -/
def quadSlot : Quadrant → ℕ
  | .nw _ => 1
  | .ne _ => 2
  | .sw _ => 3
  | .se _ => 4

/-- Child index of `i` along a quadrant. -/
def childIdx (i : ℕ) (q : Quadrant) : ℕ := 4 * i + quadSlot q

/-- The sub-square of the root square that an index denotes, when it exists:
the root for 0, and the slot-numbered quadrant of the parent cell otherwise. -/
def cellOf (R : Rect) : ℕ → Option Rect
  | 0 => some R
  | i + 1 =>
    match cellOf R (i / 4) with
    | none => none
    | some r =>
      match r.quadrants with
      | none => none
      | some (q0, q1, q2, q3) =>
        some
          (match i % 4 with
           | 0 => q0.space
           | 1 => q1.space
           | 2 => q2.space
           | _ => q3.space)
termination_by i => i
decreasing_by exact Nat.lt_succ_of_le (Nat.div_le_self i 4)

/-- The insertion path of a position: the index and cell reached after `j`
quadrant steps from the root (this is the descent that `BHTree::action`
performs, driven by `Rect::quadrant`). -/
def pathAt (R : Rect) (p : Point) : ℕ → Option (ℕ × Rect)
  | 0 => some (0, R)
  | j + 1 =>
    match pathAt R p j with
    | none => none
    | some (i, r) =>
      match r.quadrant p with
      | some (.found q) => some (childIdx i q, q.space)
      | _ => none

/-- A body at position `p` falls in the subtree of `idx` exactly when its
insertion path passes through `idx` at the level of `idx`. -/
def onPath (R : Rect) (p : Point) (idx : ℕ) : Prop :=
  (pathAt R p (level idx)).map Prod.fst = some idx

instance (R : Rect) (p : Point) (idx : ℕ) : Decidable (onPath R p idx) := by
  unfold onPath
  infer_instance

-- C1: the aggregation invariant fails on a unit-square merge ------------------

/-- C1 failing input: over the root square from (0,0) with edge 2, insert a
body of mass 1/2 at (1/2, 2) and a body of mass 2 at (1/2, 3/2) (both inside
the root, both in the same unit square, as in the repository test
`tree_has_maximum_depth`).  The `Insert` branch of `BHTree::process` adds the
whole merged leaf aggregate - not just the new contribution - to every
ancestor, so the root ends with mass 3 and weighted position (3/2, 5), while
the inserted bodies sum to mass 5/2 and weighted position (5/4, 4). -/
theorem c1_aggregation_failing_input :
    (Square.new 0 0 1).contains ⟨1 / 2, 2⟩ = true ∧
      (Square.new 0 0 1).contains ⟨1 / 2, 3 / 2⟩ = true ∧
      ((BHTree.new (Square.new 0 0 1)).addAll 20
            [⟨1 / 2, ⟨1 / 2, 2⟩, Vector.zero⟩, ⟨2, ⟨1 / 2, 3 / 2⟩, Vector.zero⟩]).map
          (fun t => (t.nodes 0).map Node.body) =
        some (some ⟨3, ⟨3 / 2, 5⟩⟩) ∧
      (3 : ℚ) ≠ 1 / 2 + 2 ∧
      (⟨3 / 2, 5⟩ : Point) ≠
        ⟨(1 / 2) * (1 / 2) + 2 * (1 / 2), (1 / 2) * 2 + 2 * (3 / 2)⟩ := by
  refine ⟨by with_unfolding_all rfl, by with_unfolding_all rfl, by with_unfolding_all rfl,
    by norm_num, ?_⟩
  simp only [ne_eq, Point.mk.injEq, not_and]
  intro hh
  norm_num at hh

-- C2 counterexample: pruning at a node whose subtree contains the query ------

/-- C2 counterexample: over the root square from (0,0) with edge 2, insert a
body of mass 1 at (0,0) and a body of mass 3 at (2,2).  They lie in distinct
unit squares (path indices 3 and 2 at level 1).  Querying for the first body,
the root aggregate (mass 4, center (3/2, 3/2)) satisfies the pruning ratio
(diameter^2 = 8 < 4 * dist^2 = 18), so `virtual_bodies` emits the whole root
aggregate, query included: the masses sum to 4, not to 4 - 1 = 3. -/
theorem c2_mass_sum_counterexample :
    (Square.new 0 0 1).contains ⟨0, 0⟩ = true ∧
      (Square.new 0 0 1).contains ⟨2, 2⟩ = true ∧
      (pathAt (Square.new 0 0 1) ⟨0, 0⟩ 1).map Prod.fst = some 3 ∧
      (pathAt (Square.new 0 0 1) ⟨2, 2⟩ 1).map Prod.fst = some 2 ∧
      ((BHTree.new (Square.new 0 0 1)).addAll 20
            [⟨1, ⟨0, 0⟩, Vector.zero⟩, ⟨3, ⟨2, 2⟩, Vector.zero⟩]).map
          (fun t => massSum (t.virtual_bodies ⟨1, ⟨0, 0⟩, Vector.zero⟩ 20)) =
        some 4 ∧
      (4 : ℚ) ≠ (1 + 3) - 1 := by
  refine ⟨by with_unfolding_all rfl, by with_unfolding_all rfl, by with_unfolding_all rfl,
    by with_unfolding_all rfl, by with_unfolding_all rfl, by norm_num⟩

-- Arithmetic lemmas on the index scheme --------------------------------------

theorem level_zero : level 0 = 0 := by
  simp [level]

theorem level_succ (i : ℕ) : level (i + 1) = level (i / 4) + 1 := by
  conv_lhs => rw [level]

theorem level_child (i s : ℕ) (h1 : 1 ≤ s) (h4 : s ≤ 4) :
    level (4 * i + s) = level i + 1 := by
  have he : 4 * i + s = (4 * i + s - 1) + 1 := by omega
  rw [he, level_succ]
  have hd : (4 * i + s - 1) / 4 = i := by omega
  rw [hd]

theorem quadSlot_bounds (q : Quadrant) : 1 ≤ quadSlot q ∧ quadSlot q ≤ 4 := by
  cases q <;> simp [quadSlot]

theorem level_childIdx (i : ℕ) (q : Quadrant) : level (childIdx i q) = level i + 1 := by
  obtain ⟨h1, h4⟩ := quadSlot_bounds q
  exact level_child i (quadSlot q) h1 h4

theorem parentIdx_child (i s : ℕ) (h1 : 1 ≤ s) (h4 : s ≤ 4) :
    parentIdx (4 * i + s) = i := by
  unfold parentIdx
  omega

theorem parentIdx_childIdx (i : ℕ) (q : Quadrant) : parentIdx (childIdx i q) = i := by
  obtain ⟨h1, h4⟩ := quadSlot_bounds q
  exact parentIdx_child i (quadSlot q) h1 h4

theorem childIdx_pos (i : ℕ) (q : Quadrant) : childIdx i q ≠ 0 := by
  obtain ⟨h1, _⟩ := quadSlot_bounds q
  unfold childIdx
  omega

theorem mem_childIndices (p c : ℕ) :
    c ∈ childIndices p ↔ ∃ s, 1 ≤ s ∧ s ≤ 4 ∧ c = 4 * p + s := by
  simp only [childIndices, List.mem_cons, List.mem_singleton, List.not_mem_nil, or_false]
  constructor
  · rintro (rfl | rfl | rfl | rfl)
    · exact ⟨1, by omega⟩
    · exact ⟨2, by omega⟩
    · exact ⟨3, by omega⟩
    · exact ⟨4, by omega⟩
  · rintro ⟨s, h1, h4, rfl⟩
    interval_cases s <;> simp

theorem childIdx_mem_childIndices (i : ℕ) (q : Quadrant) :
    childIdx i q ∈ childIndices i := by
  rw [mem_childIndices]
  obtain ⟨h1, h4⟩ := quadSlot_bounds q
  exact ⟨quadSlot q, h1, h4, rfl⟩

theorem ancestorsGo_zero_cur (f : ℕ) : ancestorsGo f 0 = [] := by
  cases f <;> simp [ancestorsGo]

theorem ancestorsGo_fuel (cur : ℕ) : ∀ f g : ℕ, cur ≤ f → cur ≤ g →
    ancestorsGo f cur = ancestorsGo g cur := by
  induction cur using Nat.strong_induction_on with
  | _ cur ih =>
    intro f g hf hg
    match cur with
    | 0 => rw [ancestorsGo_zero_cur, ancestorsGo_zero_cur]
    | c + 1 =>
      match f, hf with
      | f + 1, hf =>
        match g, hg with
        | g + 1, hg =>
          simp only [ancestorsGo, Nat.succ_ne_zero, if_false, reduceIte]
          have hlt : parentIdx (c + 1) < c + 1 := by
            unfold parentIdx
            omega
          have hpf : parentIdx (c + 1) ≤ f := by omega
          have hpg : parentIdx (c + 1) ≤ g := by omega
          rw [ih (parentIdx (c + 1)) hlt f g hpf hpg]

theorem ancestors_zero : ancestors 0 = [] := by
  unfold ancestors
  exact ancestorsGo_zero_cur 0

theorem ancestors_succ (c : ℕ) : ancestors (c + 1) = parentIdx (c + 1) :: ancestors (parentIdx (c + 1)) := by
  unfold ancestors
  have h1 : ancestorsGo (c + 1) (c + 1) =
      parentIdx (c + 1) :: ancestorsGo c (parentIdx (c + 1)) := by
    simp [ancestorsGo]
  rw [h1]
  have hlt : parentIdx (c + 1) ≤ c := by
    unfold parentIdx
    omega
  rw [ancestorsGo_fuel (parentIdx (c + 1)) c (parentIdx (c + 1)) hlt le_rfl]

theorem ancestors_child (i s : ℕ) (h1 : 1 ≤ s) (h4 : s ≤ 4) :
    ancestors (4 * i + s) = i :: ancestors i := by
  have he : 4 * i + s = (4 * i + s - 1) + 1 := by omega
  rw [he, ancestors_succ, ← he, parentIdx_child i s h1 h4]

theorem ancestors_childIdx (i : ℕ) (q : Quadrant) :
    ancestors (childIdx i q) = i :: ancestors i := by
  obtain ⟨h1, h4⟩ := quadSlot_bounds q
  exact ancestors_child i (quadSlot q) h1 h4

-- Quadrant and cell lemmas ----------------------------------------------------

theorem cellOf_zero (R : Rect) : cellOf R 0 = some R := by
  conv_lhs => rw [cellOf]

theorem cellOf_succ (R : Rect) (i : ℕ) :
    cellOf R (i + 1) =
      match cellOf R (i / 4) with
      | none => none
      | some r =>
        match r.quadrants with
        | none => none
        | some (q0, q1, q2, q3) =>
          some
            (match i % 4 with
             | 0 => q0.space
             | 1 => q1.space
             | 2 => q2.space
             | _ => q3.space) := by
  conv_lhs => rw [cellOf]

theorem quadrants_shape (r : Rect) (qs : Quadrant × Quadrant × Quadrant × Quadrant)
    (h : r.quadrants = some qs) :
    ∃ a b c d, qs = (.nw a, .ne b, .sw c, .se d) := by
  unfold Rect.quadrants at h
  cases hm : r.has_minimum_dimension
  · rw [hm] at h
    simp only [Bool.false_eq_true, if_false, Option.some.injEq] at h
    exact ⟨_, _, _, _, h.symm⟩
  · rw [hm] at h
    simp at h

theorem quadrant_found (r : Rect) (p : Point) (q : Quadrant)
    (hq : r.quadrant p = some (.found q)) :
    q.contains p = true ∧
      ∃ qs : Quadrant × Quadrant × Quadrant × Quadrant, r.quadrants = some qs ∧
        ((q = qs.1 ∧ quadSlot q = 1) ∨ (q = qs.2.1 ∧ quadSlot q = 2) ∨
          (q = qs.2.2.1 ∧ quadSlot q = 3) ∨ (q = qs.2.2.2 ∧ quadSlot q = 4)) := by
  unfold Rect.quadrant at hq
  cases hqs : r.quadrants with
  | none =>
    rw [hqs] at hq
    simp at hq
  | some qs =>
    rw [hqs] at hq
    simp only [Option.map_some', Option.some.injEq] at hq
    obtain ⟨a, b, c, d, rfl⟩ := quadrants_shape r qs hqs
    by_cases c1 : (Quadrant.nw a).contains p = true
    · rw [if_pos c1] at hq
      cases hq
      refine ⟨c1, ⟨_, rfl, ?_⟩⟩
      exact Or.inl ⟨rfl, rfl⟩
    · rw [if_neg (by simp [c1])] at hq
      by_cases c2 : (Quadrant.ne b).contains p = true
      · rw [if_pos c2] at hq
        cases hq
        refine ⟨c2, ⟨_, rfl, ?_⟩⟩
        exact Or.inr (Or.inl ⟨rfl, rfl⟩)
      · rw [if_neg (by simp [c2])] at hq
        by_cases c3 : (Quadrant.sw c).contains p = true
        · rw [if_pos c3] at hq
          cases hq
          refine ⟨c3, ⟨_, rfl, ?_⟩⟩
          exact Or.inr (Or.inr (Or.inl ⟨rfl, rfl⟩))
        · rw [if_neg (by simp [c3])] at hq
          by_cases c4 : (Quadrant.se d).contains p = true
          · rw [if_pos c4] at hq
            cases hq
            refine ⟨c4, ⟨_, rfl, ?_⟩⟩
            exact Or.inr (Or.inr (Or.inr ⟨rfl, rfl⟩))
          · rw [if_neg (by simp [c4])] at hq
            cases hq

theorem quadrant_found_contains (r : Rect) (p : Point) (q : Quadrant)
    (hq : r.quadrant p = some (.found q)) : q.space.contains p = true :=
  (quadrant_found r p q hq).1

/-- The cell of a quadrant-child index is the space of that quadrant. -/
theorem cellOf_quadrant_child (R : Rect) (i : ℕ) (r : Rect) (hc : cellOf R i = some r)
    (p : Point) (q : Quadrant) (hq : r.quadrant p = some (.found q)) :
    cellOf R (childIdx i q) = some q.space := by
  obtain ⟨-, qs, hqs, hcase⟩ := quadrant_found r p q hq
  obtain ⟨hs1, hs4⟩ := quadSlot_bounds q
  have he : childIdx i q = (4 * i + (quadSlot q - 1)) + 1 := by
    unfold childIdx
    omega
  have hdiv : (4 * i + (quadSlot q - 1)) / 4 = i := by omega
  have hmod : (4 * i + (quadSlot q - 1)) % 4 = quadSlot q - 1 := by omega
  obtain ⟨a, b, c, d, rfl⟩ := quadrants_shape r qs hqs
  rcases hcase with ⟨rfl, hslot⟩ | ⟨rfl, hslot⟩ | ⟨rfl, hslot⟩ | ⟨rfl, hslot⟩ <;>
    · rw [he, cellOf_succ, hdiv, hc]
      simp [hqs, hmod, hslot, Quadrant.space, Nat.mul_add_mod]

/-- Sizes along `cellOf`: every existing cell of a `2^k` root square is a
`2^(k - level)` square, and its level is at most `k`. -/
theorem cellOf_size (R : Rect) (k : ℕ) (hw : R.size.width = 2 ^ k)
    (hh : R.size.height = 2 ^ k) :
    ∀ i r, cellOf R i = some r →
      level i ≤ k ∧ r.size.width = 2 ^ (k - level i) ∧ r.size.height = 2 ^ (k - level i) := by
  intro i
  induction i using Nat.strong_induction_on with
  | _ i ih =>
    intro r hr
    match i with
    | 0 =>
      rw [cellOf_zero] at hr
      cases hr
      rw [level_zero]
      exact ⟨Nat.zero_le k, by simpa using hw, by simpa using hh⟩
    | i + 1 =>
      rw [cellOf_succ] at hr
      cases hp : cellOf R (i / 4) with
      | none =>
        rw [hp] at hr
        simp at hr
      | some rp =>
        simp only [hp] at hr
        obtain ⟨hlev, hwp, hhp⟩ :=
          ih (i / 4) (Nat.lt_succ_of_le (Nat.div_le_self i 4)) rp hp
        cases hq : rp.quadrants with
        | none =>
          simp only [hq] at hr
          exact absurd hr (by simp)
        | some qs =>
          obtain ⟨q0, q1, q2, q3⟩ := qs
          simp only [hq] at hr
          have hnotmin : rp.has_minimum_dimension = false := by
            cases hmm : rp.has_minimum_dimension
            · rfl
            · unfold Rect.quadrants at hq
              rw [hmm] at hq
              simp at hq
          have hge : 1 ≤ k - level (i / 4) := by
            by_contra hcon
            have h0 : k - level (i / 4) = 0 := by omega
            rw [h0] at hwp hhp
            simp only [pow_zero] at hwp hhp
            unfold Rect.has_minimum_dimension at hnotmin
            rw [hwp, hhp] at hnotmin
            simp at hnotmin
          have hqeq := rp.quadrants_eq (k - level (i / 4)) hwp hhp hge
          rw [hq] at hqeq
          simp only [Option.some.injEq, Prod.mk.injEq] at hqeq
          obtain ⟨e0, e1, e2, e3⟩ := hqeq
          subst e0
          subst e1
          subst e2
          subst e3
          have hlev1 : level (i + 1) = level (i / 4) + 1 := level_succ i
          have hexp : k - level (i + 1) = k - level (i / 4) - 1 := by omega
          have hle : level (i + 1) ≤ k := by omega
          have hmod : i % 4 = 0 ∨ i % 4 = 1 ∨ i % 4 = 2 ∨ i % 4 = 3 := by omega
          rcases hmod with hm | hm | hm | hm <;>
            · rw [hm] at hr
              cases hr
              exact ⟨hle, by simp [Quadrant.space, hexp], by simp [Quadrant.space, hexp]⟩

-- Well-formedness of reachable trees -----------------------------------------

/-- Well-formedness invariant of every tree reachable from `BHTree::new` by
`add` calls, over a `2^k` root square: the root exists and spans the tree
space; every stored node is keyed by its own id, sits at the cell its index
denotes, has an existing parent, and (when not the root) a positive mass;
the root aggregate is zero or has positive mass; and the centered position
of every nonempty leaf lies inside the leaf cell. -/
structure WF (t : BHTree) (k : ℕ) : Prop where
  rootW : ∃ n, t.nodes 0 = some n ∧ n.space = t.space
  spaceW : t.space.size.width = 2 ^ k ∧ t.space.size.height = 2 ^ k
  idsW : ∀ idx n, t.nodes idx = some n → n.id = idx
  cellsW : ∀ idx n, t.nodes idx = some n → cellOf t.space idx = some n.space
  parentsW : ∀ idx n, t.nodes idx = some n → idx ≠ 0 → (t.nodes (parentIdx idx)).isSome = true
  massW : ∀ idx n, t.nodes idx = some n → idx ≠ 0 → 0 < n.body.mass
  rootMassW : ∀ n, t.nodes 0 = some n → n.body = VirtualBody.zero ∨ 0 < n.body.mass
  leafW : ∀ idx n, t.nodes idx = some n → t.is_leaf n = true → 0 < n.body.mass →
    n.space.contains n.body.centered.position = true

theorem WF.levelW (h : WF t k) (idx : ℕ) (n : Node) (hn : t.nodes idx = some n) :
    level idx ≤ k :=
  (cellOf_size t.space k h.spaceW.1 h.spaceW.2 idx n.space (h.cellsW idx n hn)).1

theorem WF.new (R : Rect) (k : ℕ) (hw : R.size.width = 2 ^ k)
    (hh : R.size.height = 2 ^ k) : WF (BHTree.new R) k := by
  have hnodes : ∀ idx, (BHTree.new R).nodes idx =
      if idx = 0 then some ⟨0, R, VirtualBody.zero⟩ else none := fun _ => rfl
  refine ⟨⟨⟨0, R, VirtualBody.zero⟩, rfl, rfl⟩, ⟨hw, hh⟩, ?_, ?_, ?_, ?_, ?_, ?_⟩
  · intro idx n hn
    rw [hnodes] at hn
    by_cases h0 : idx = 0
    · rw [if_pos h0] at hn
      cases hn
      exact h0.symm
    · rw [if_neg h0] at hn
      cases hn
  · intro idx n hn
    rw [hnodes] at hn
    by_cases h0 : idx = 0
    · rw [if_pos h0] at hn
      cases hn
      rw [h0, cellOf_zero]
      rfl
    · rw [if_neg h0] at hn
      cases hn
  · intro idx n hn h0
    rw [hnodes, if_neg h0] at hn
    cases hn
  · intro idx n hn h0
    rw [hnodes, if_neg h0] at hn
    cases hn
  · intro n hn
    rw [hnodes, if_pos rfl] at hn
    cases hn
    exact Or.inl rfl
  · intro idx n hn hleaf hmass
    rw [hnodes] at hn
    by_cases h0 : idx = 0
    · rw [if_pos h0] at hn
      cases hn
      simp [VirtualBody.zero] at hmass
    · rw [if_neg h0] at hn
      cases hn

-- Basic store and ancestor-presence lemmas ------------------------------------

theorem storeAt_nodes (t : BHTree) (idx : ℕ) (n : Node) (i : ℕ) :
    (t.storeAt idx n).nodes i = if i = idx then some n else t.nodes i := rfl

theorem storeAt_space (t : BHTree) (idx : ℕ) (n : Node) :
    (t.storeAt idx n).space = t.space := rfl

theorem ancestors_present (t : BHTree)
    (hpar : ∀ idx n, t.nodes idx = some n → idx ≠ 0 → (t.nodes (parentIdx idx)).isSome = true) :
    ∀ i, (t.nodes i).isSome = true → ∀ a ∈ ancestors i, (t.nodes a).isSome = true := by
  intro i
  induction i using Nat.strong_induction_on with
  | _ i ih =>
    intro hi a ha
    match i with
    | 0 =>
      rw [ancestors_zero] at ha
      cases ha
    | c + 1 =>
      rw [ancestors_succ] at ha
      obtain ⟨n, hn⟩ := Option.isSome_iff_exists.mp hi
      have hpsome : (t.nodes (parentIdx (c + 1))).isSome = true :=
        hpar (c + 1) n hn (Nat.succ_ne_zero c)
      rcases List.mem_cons.mp ha with rfl | ha2
      · exact hpsome
      · have hlt : parentIdx (c + 1) < c + 1 := by
          unfold parentIdx
          omega
        exact ih (parentIdx (c + 1)) hlt hpsome a ha2

/-- The node at the parent index of an existing non-root node is internal. -/
theorem parent_internal (t : BHTree) (k : ℕ) (h : WF t k) (i : ℕ)
    (hi : (t.nodes i).isSome = true) (h0 : i ≠ 0) (m : Node)
    (hm : t.nodes (parentIdx i) = some m) : t.is_leaf m = false := by
  have hmid : m.id = parentIdx i := h.idsW (parentIdx i) m hm
  have hmem : i ∈ childIndices m.id := by
    rw [hmid, mem_childIndices]
    refine ⟨i - 4 * parentIdx i, ?_, ?_, ?_⟩ <;> unfold parentIdx <;> omega
  unfold BHTree.is_leaf
  rw [List.all_eq_false]
  refine ⟨i, hmem, ?_⟩
  intro hnone
  rw [Option.isNone_iff_eq_none] at hnone
  rw [hnone] at hi
  cases hi

/-- Every strict ancestor of an existing node is internal. -/
theorem ancestors_internal (t : BHTree) (k : ℕ) (h : WF t k) :
    ∀ i, (t.nodes i).isSome = true → ∀ a ∈ ancestors i, ∀ m, t.nodes a = some m →
      t.is_leaf m = false := by
  intro i
  induction i using Nat.strong_induction_on with
  | _ i ih =>
    intro hi a ha m hm
    match i with
    | 0 =>
      rw [ancestors_zero] at ha
      cases ha
    | c + 1 =>
      rw [ancestors_succ] at ha
      rcases List.mem_cons.mp ha with rfl | ha2
      · exact parent_internal t k h (c + 1) hi (Nat.succ_ne_zero c) m hm
      · obtain ⟨n, hn⟩ := Option.isSome_iff_exists.mp hi
        have hpsome : (t.nodes (parentIdx (c + 1))).isSome = true :=
          h.parentsW (c + 1) n hn (Nat.succ_ne_zero c)
        have hlt : parentIdx (c + 1) < c + 1 := by
          unfold parentIdx
          omega
        exact ih (parentIdx (c + 1)) hlt hpsome a ha2 m hm

theorem quadrant_total (r : Rect) (k : ℕ) (hw : r.size.width = 2 ^ k)
    (hh : r.size.height = 2 ^ k) (hk : 1 ≤ k) (p : Point) (hp : r.contains p = true) :
    ∃ q : Quadrant, r.quadrant p = some (QuadrantResult.found q) := by
  obtain ⟨qs, hqs, hcov⟩ := r.quadrant_covers k hw hh hk p hp
  rw [Rect.quadrant, hqs, Option.map_some']
  by_cases c1 : qs.1.contains p = true
  · exact ⟨qs.1, by rw [if_pos c1]⟩
  · by_cases c2 : qs.2.1.contains p = true
    · exact ⟨qs.2.1, by rw [if_neg (by simp [c1]), if_pos c2]⟩
    · by_cases c3 : qs.2.2.1.contains p = true
      · exact ⟨qs.2.2.1, by rw [if_neg (by simp [c1]), if_neg (by simp [c2]), if_pos c3]⟩
      · have c4 : qs.2.2.2.contains p = true := by tauto
        exact ⟨qs.2.2.2, by
          rw [if_neg (by simp [c1]), if_neg (by simp [c2]), if_neg (by simp [c3]), if_pos c4]⟩

theorem quadrantChildIdx_eq (n : Node) (q : Quadrant) :
    n.quadrantChildIdx q = childIdx n.id q := by
  cases q <;> rfl

/-- A non-unit `2^j` square has `j ≥ 1`. -/
theorem non_unit_exp (r : Rect) (j : ℕ) (hw : r.size.width = 2 ^ j)
    (hh : r.size.height = 2 ^ j) (hnu : r.is_unit_rect = false) : 1 ≤ j := by
  by_contra hcon
  have hj : j = 0 := by omega
  rw [hj, pow_zero] at hw hh
  unfold Rect.is_unit_rect at hnu
  rw [hw, hh] at hnu
  simp at hnu

/-- Monotone domains reflect leafness backwards. -/
theorem is_leaf_of_mono (t t1 : BHTree)
    (hsub : ∀ i, (t.nodes i).isSome = true → (t1.nodes i).isSome = true) (n : Node)
    (h1 : t1.is_leaf n = true) : t.is_leaf n = true := by
  unfold BHTree.is_leaf at h1 ⊢
  rw [List.all_eq_true] at h1 ⊢
  intro c hc
  rw [Option.isNone_iff_eq_none]
  cases hx : t.nodes c with
  | none => rfl
  | some m =>
    have hs : (t1.nodes c).isSome = true := hsub c (by rw [hx]; rfl)
    have hn := h1 c hc
    rw [Option.isNone_iff_eq_none] at hn
    rw [hn] at hs
    cases hs

/-- The centered position of a merged aggregate, componentwise. -/
theorem centered_withBody_pos (n : Node) (b : Body) :
    (n.withBody b).body.centered.position =
      ⟨(b.position.x * b.mass + n.body.position.x) / (b.mass + n.body.mass),
        (b.position.y * b.mass + n.body.position.y) / (b.mass + n.body.mass)⟩ := rfl

/-- The centered position of an aggregate, componentwise. -/
theorem centered_pos (v : VirtualBody) :
    v.centered.position = ⟨v.position.x / v.mass, v.position.y / v.mass⟩ := rfl

/-- Convexity of rectangle membership for the merged centered position: if
the centered position of an aggregate lies in `r` and a body position lies in
`r`, the centered position of their sum lies in `r`. -/
theorem centered_withBody_mem (r : Rect) (b : Body) (hbm : 0 < b.mass)
    (hbp : r.contains b.position = true) (n : Node)
    (hcase : n.body = VirtualBody.zero ∨
      (0 < n.body.mass ∧ r.contains n.body.centered.position = true)) :
    r.contains (n.withBody b).body.centered.position = true := by
  rw [Rect.contains_iff] at hbp ⊢
  rw [centered_withBody_pos]
  rcases hcase with hz | ⟨hM, hc⟩
  · rw [hz]
    unfold VirtualBody.zero
    simp only
    have hx : (b.position.x * b.mass + 0) / (b.mass + 0) = b.position.x := by
      field_simp
    have hy : (b.position.y * b.mass + 0) / (b.mass + 0) = b.position.y := by
      field_simp
    rw [hx, hy]
    exact hbp
  · rw [Rect.contains_iff, centered_pos] at hc
    simp only at hc ⊢
    obtain ⟨hc1, hc2, hc3, hc4⟩ := hc
    obtain ⟨hb1, hb2, hb3, hb4⟩ := hbp
    have hMm : 0 < b.mass + n.body.mass := by linarith
    rw [le_div_iff hM] at hc1 hc2
    rw [div_le_iff hM] at hc3 hc4
    refine ⟨?_, ?_, ?_, ?_⟩
    · rw [le_div_iff hMm]
      nlinarith
    · rw [le_div_iff hMm]
      nlinarith
    · rw [div_le_iff hMm]
      nlinarith
    · rw [div_le_iff hMm]
      nlinarith

/-- Effect of the ancestor update loop: the domain, ids and spaces are
unchanged; indices outside the list keep their nodes; a touched node keeps
id and space and gains `c * vb.mass` mass for some positive count `c`. -/
theorem bumpAncestors_spec (vb : VirtualBody) :
    ∀ (l : List ℕ) (t t1 : BHTree), t.bumpAncestors vb l = some t1 →
      t1.space = t.space ∧
      (∀ idx, (t1.nodes idx).isSome = (t.nodes idx).isSome) ∧
      (∀ idx, idx ∉ l → t1.nodes idx = t.nodes idx) ∧
      (∀ idx n1, t1.nodes idx = some n1 →
        ∃ n, t.nodes idx = some n ∧ n1.id = n.id ∧ n1.space = n.space ∧
          (n1.body = n.body ∨
            ∃ c : ℕ, 1 ≤ c ∧ n1.body.mass = n.body.mass + c * vb.mass)) := by
  intro l
  induction l with
  | nil =>
    intro t t1 h
    unfold BHTree.bumpAncestors at h
    cases h
    exact ⟨rfl, fun _ => rfl, fun _ _ => rfl,
      fun idx n1 h1 => ⟨n1, h1, rfl, rfl, Or.inl rfl⟩⟩
  | cons idx rest ih =>
    intro t t1 h
    unfold BHTree.bumpAncestors at h
    cases hp : t.nodes idx with
    | none =>
      rw [hp] at h
      cases h
    | some parent =>
      rw [hp] at h
      obtain ⟨hsp, hiso, hout, hnode⟩ := ih _ t1 h
      rw [storeAt_space] at hsp
      refine ⟨hsp, ?_, ?_, ?_⟩
      · intro i
        rw [hiso i, storeAt_nodes]
        by_cases hi : i = idx
        · rw [if_pos hi, hi, hp]
          rfl
        · rw [if_neg hi]
      · intro i hi
        rw [List.mem_cons, not_or] at hi
        rw [hout i hi.2, storeAt_nodes, if_neg hi.1]
      · intro i n1 h1
        obtain ⟨n2, h2, hid, hspc, hbody⟩ := hnode i n1 h1
        rw [storeAt_nodes] at h2
        by_cases hi : i = idx
        · rw [if_pos hi] at h2
          cases h2
          refine ⟨parent, by rw [hi, hp], hid, hspc, ?_⟩
          rcases hbody with hb | ⟨c, hc1, hcm⟩
          · rw [hb]
            exact Or.inr ⟨1, le_rfl, by push_cast; ring⟩
          · refine Or.inr ⟨c + 1, by omega, ?_⟩
            rw [hcm]
            push_cast
            ring
        · rw [if_neg hi] at h2
          exact ⟨n2, h2, hid, hspc, hbody⟩

-- Lemmas about insertion paths -------------------------------------------------

theorem pathAt_zero (R : Rect) (p : Point) : pathAt R p 0 = some (0, R) := rfl

theorem pathAt_succ (R : Rect) (p : Point) (j : ℕ) :
    pathAt R p (j + 1) =
      match pathAt R p j with
      | none => none
      | some (i, r) =>
        match r.quadrant p with
        | some (.found q) => some (childIdx i q, q.space)
        | _ => none := rfl

theorem pathAt_parent (R : Rect) (p : Point) (j : ℕ) (i : ℕ) (r : Rect)
    (h : pathAt R p (j + 1) = some (i, r)) :
    ∃ i0 r0 q, pathAt R p j = some (i0, r0) ∧ r0.quadrant p = some (.found q) ∧
      i = childIdx i0 q ∧ r = q.space := by
  rw [pathAt_succ] at h
  split at h
  · cases h
  · rename_i i0 r0 heq
    split at h
    · rename_i q hq
      cases h
      exact ⟨i0, r0, q, heq, hq, rfl, rfl⟩
    · cases h

theorem pathAt_cell (R : Rect) (p : Point) :
    ∀ j i r, pathAt R p j = some (i, r) → cellOf R i = some r ∧ level i = j := by
  intro j
  induction j with
  | zero =>
    intro i r h
    rw [pathAt_zero] at h
    cases h
    exact ⟨cellOf_zero R, level_zero⟩
  | succ j ih =>
    intro i r h
    obtain ⟨i0, r0, q, h0, hq, rfl, rfl⟩ := pathAt_parent R p j i r h
    obtain ⟨hc0, hl0⟩ := ih i0 r0 h0
    refine ⟨cellOf_quadrant_child R i0 r0 hc0 p q hq, ?_⟩
    rw [level_childIdx, hl0]

theorem pathAt_contains (R : Rect) (p : Point) (j : ℕ) (i : ℕ) (r : Rect)
    (h : pathAt R p (j + 1) = some (i, r)) : r.contains p = true := by
  obtain ⟨i0, r0, q, -, hq, -, rfl⟩ := pathAt_parent R p j i r h
  exact quadrant_found_contains r0 p q hq

theorem onPath_zero (R : Rect) (p : Point) : onPath R p 0 := by
  unfold onPath
  rw [level_zero, pathAt_zero]
  rfl

theorem pathAt_mem_ancestors (R : Rect) (p : Point) :
    ∀ j i r, pathAt R p j = some (i, r) → ∀ jp, jp < j →
      ∃ ip rp, pathAt R p jp = some (ip, rp) ∧ ip ∈ ancestors i := by
  intro j
  induction j with
  | zero =>
    intro i r h jp hjp
    omega
  | succ j ih =>
    intro i r h jp hjp
    obtain ⟨i0, r0, q, h0, hq, rfl, rfl⟩ := pathAt_parent R p j i r h
    rw [ancestors_childIdx]
    by_cases hj : jp = j
    · subst hj
      exact ⟨i0, r0, h0, List.mem_cons_self i0 (ancestors i0)⟩
    · obtain ⟨ip, rp, hp, hmem⟩ := ih i0 r0 h0 jp (by omega)
      exact ⟨ip, rp, hp, List.mem_cons_of_mem i0 hmem⟩

/-- Over a contained point of a `2^k` root square, the path is defined down
to level `k`. -/
theorem pathAt_total (R : Rect) (k : ℕ) (hw : R.size.width = 2 ^ k)
    (hh : R.size.height = 2 ^ k) (p : Point) (hp : R.contains p = true) :
    ∀ j, j ≤ k → ∃ i r, pathAt R p j = some (i, r) := by
  intro j
  induction j with
  | zero =>
    intro hj
    exact ⟨0, R, pathAt_zero R p⟩
  | succ j ih =>
    intro hj
    obtain ⟨i, r, hpath⟩ := ih (by omega)
    obtain ⟨hc, hl⟩ := pathAt_cell R p j i r hpath
    obtain ⟨hlk, hwr, hhr⟩ := cellOf_size R k hw hh i r hc
    have hrcont : r.contains p = true := by
      match j, hpath with
      | 0, hpath =>
        rw [pathAt_zero] at hpath
        cases hpath
        exact hp
      | j + 1, hpath => exact pathAt_contains R p j i r hpath
    have hge : 1 ≤ k - level i := by omega
    obtain ⟨q, hq⟩ := quadrant_total r (k - level i) hwr hhr hge p hrcont
    refine ⟨childIdx i q, q.space, ?_⟩
    rw [pathAt_succ, hpath]
    simp only [hq]

theorem onPath_node_space (t : BHTree) (k : ℕ) (h : WF t k) (p : Point) (idx : ℕ)
    (n : Node) (hn : t.nodes idx = some n) (hop : onPath t.space p idx) :
    pathAt t.space p (level idx) = some (idx, n.space) := by
  unfold onPath at hop
  cases hpath : pathAt t.space p (level idx) with
  | none =>
    rw [hpath] at hop
    cases hop
  | some pr =>
    obtain ⟨i, r⟩ := pr
    rw [hpath] at hop
    simp only [Option.map_some', Option.some.injEq] at hop
    cases hop
    obtain ⟨hc, -⟩ := pathAt_cell t.space p (level idx) idx r hpath
    have := h.cellsW idx n hn
    rw [this] at hc
    rw [Option.some.inj hc]

/-- The parent of a non-root path index is the previous path index. -/
theorem onPath_parent (R : Rect) (p : Point) (i : ℕ) (hi : i ≠ 0)
    (hop : onPath R p i) : onPath R p (parentIdx i) := by
  unfold onPath at hop ⊢
  cases hpath : pathAt R p (level i) with
  | none =>
    rw [hpath] at hop
    cases hop
  | some pr =>
    obtain ⟨i2, r⟩ := pr
    rw [hpath] at hop
    simp only [Option.map_some', Option.some.injEq] at hop
    cases hop
    match hli : level i, hpath with
    | 0, hpath =>
      rw [pathAt_zero] at hpath
      cases hpath
      exact absurd rfl hi
    | j + 1, hpath =>
      obtain ⟨i0, r0, q, h0, -, he, -⟩ := pathAt_parent R p j i r hpath
      have hpi : parentIdx i = i0 := by
        rw [he, parentIdx_childIdx]
      have hlp : level (parentIdx i) = j := by
        obtain ⟨-, hl0⟩ := pathAt_cell R p j i0 r0 h0
        rw [hpi, hl0]
      rw [hlp, h0, hpi]
      rfl

-- Characterization of BHTree::action ------------------------------------------

/-- Facts about the node carried by an `Action::Insert` produced by `action`:
it lies at its cell, contains the inserted position, and is either an update
of an existing empty-or-unit leaf or a fresh child of an existing internal
node. -/
structure InsOK (t : BHTree) (b : Body) (m : Node) : Prop where
  containsW : m.space.contains b.position = true
  cellW : cellOf t.space m.id = some m.space
  caseW : (∃ old, t.nodes m.id = some old ∧ t.is_leaf old = true ∧ m = old.withBody b ∧
      (old.is_empty = true ∨ old.space.is_unit_rect = true)) ∨
    (t.nodes m.id = none ∧ m.id ≠ 0 ∧
      (∃ pn, t.nodes (parentIdx m.id) = some pn ∧ t.is_leaf pn = false) ∧
      m = ⟨m.id, m.space, VirtualBody.ofBody b⟩)
  pathW : onPath t.space b.position m.id

/-- Facts about the target of an `Action::Internalize` produced by `action`:
an occupied non-unit leaf whose space contains the inserted position. -/
structure IntOK (t : BHTree) (b : Body) (id : ℕ) : Prop where
  nodeW : ∃ ln, t.nodes id = some ln ∧ t.is_leaf ln = true ∧ ln.is_empty = false ∧
    ln.space.is_unit_rect = false ∧ ln.space.contains b.position = true
  pathIW : onPath t.space b.position id

theorem exists_child_of_internal (t : BHTree) (n : Node) (h : t.is_leaf n = false) :
    ∃ c, c ∈ childIndices n.id ∧ (t.nodes c).isSome = true := by
  unfold BHTree.is_leaf at h
  rw [List.all_eq_false] at h
  obtain ⟨c, hc, hnc⟩ := h
  refine ⟨c, hc, ?_⟩
  cases hx : t.nodes c with
  | none =>
    rw [hx] at hnc
    simp at hnc
  | some m => rfl

/-- An internal node of a well-formed tree sits strictly above the maximal
level. -/
theorem internal_level_lt (t : BHTree) (k : ℕ) (h : WF t k) (idx : ℕ) (n : Node)
    (hn : t.nodes idx = some n) (hleaf : t.is_leaf n = false) : level idx < k := by
  obtain ⟨c, hc, hcs⟩ := exists_child_of_internal t n hleaf
  obtain ⟨cn, hcn⟩ := Option.isSome_iff_exists.mp hcs
  have hlc : level c ≤ k := h.levelW c cn hcn
  rw [h.idsW idx n hn, mem_childIndices] at hc
  obtain ⟨s, hs1, hs4, rfl⟩ := hc
  rw [level_child idx s hs1 hs4] at hlc
  omega

/-- What `BHTree::action` produces on a well-formed tree, given enough fuel:
either an `Insert` of a node satisfying `InsOK`, or an `Internalize` of a
deeper (or equal, when starting at a leaf) occupied non-unit leaf. -/
theorem action_spec (k : ℕ) (t : BHTree) (h : WF t k) (b : Body) :
    ∀ (fuel idx : ℕ) (n : Node), t.nodes idx = some n →
      n.space.contains b.position = true →
      onPath t.space b.position idx →
      k + 1 ≤ level idx + fuel →
      (∃ m, t.action fuel n b = some (.insert m) ∧ InsOK t b m) ∨
      (∃ id, t.action fuel n b = some (.internalize id ⟨id, b⟩) ∧ IntOK t b id ∧
        level idx ≤ level id ∧ (t.is_leaf n = false → level idx + 1 ≤ level id)) := by
  intro fuel
  induction fuel with
  | zero =>
    intro idx n hn hcont hop hfuel
    have := h.levelW idx n hn
    omega
  | succ fuel ih =>
    intro idx n hn hcont hop hfuel
    have hnid : n.id = idx := h.idsW idx n hn
    cases hleaf : t.is_leaf n with
    | true =>
      cases hcond : (n.is_empty || n.space.is_unit_rect) with
      | true =>
        left
        refine ⟨n.withBody b, ?_, ?_, ?_, ?_, ?_⟩
        · simp only [BHTree.action, hleaf, hcond, if_true]
        · exact hcont
        · have : (n.withBody b).id = n.id := rfl
          rw [this, hnid]
          have := h.cellsW idx n hn
          rw [this]
          rfl
        · left
          refine ⟨n, ?_, hleaf, rfl, ?_⟩
          · have : (n.withBody b).id = n.id := rfl
            rw [this, hnid]
            exact hn
          · rcases Bool.or_eq_true_iff.mp hcond with hh | hh
            · exact Or.inl hh
            · exact Or.inr hh
        · show onPath t.space b.position n.id
          rw [hnid]
          exact hop
      | false =>
        right
        refine ⟨n.id, ?_, ⟨⟨n, ?_, hleaf, ?_, ?_, hcont⟩, ?_⟩, ?_, ?_⟩
        · simp only [BHTree.action, hleaf, hcond, if_true, Bool.false_eq_true, if_false]
        · rw [hnid]
          exact hn
        · rcases Bool.or_eq_false_iff.mp hcond with ⟨h1, h2⟩
          exact h1
        · rcases Bool.or_eq_false_iff.mp hcond with ⟨h1, h2⟩
          exact h2
        · rw [hnid]
          exact hop
        · rw [hnid]
        · intro hcontr
          simp [hleaf] at hcontr
    | false =>
      have hlt : level idx < k := internal_level_lt t k h idx n hn hleaf
      have hcell : cellOf t.space idx = some n.space := h.cellsW idx n hn
      obtain ⟨-, hwn, hhn⟩ := cellOf_size t.space k h.spaceW.1 h.spaceW.2 idx n.space hcell
      have hgek : 1 ≤ k - level idx := by omega
      obtain ⟨q, hq⟩ := quadrant_total n.space (k - level idx) hwn hhn hgek b.position hcont
      have hqcell : cellOf t.space (childIdx idx q) = some q.space :=
        cellOf_quadrant_child t.space idx n.space hcell b.position q hq
      have hqcont : q.space.contains b.position = true := quadrant_found_contains _ _ _ hq
      have hps : pathAt t.space b.position (level idx) = some (idx, n.space) :=
        onPath_node_space t k h b.position idx n hn hop
      have hopc : onPath t.space b.position (childIdx idx q) := by
        unfold onPath
        rw [level_childIdx, pathAt_succ, hps]
        simp only [hq, Option.map_some']
      cases hchild : t.nodes (n.quadrantChildIdx q) with
      | some child =>
        have hres : t.action (fuel + 1) n b = t.action fuel child b := by
          simp only [BHTree.action, hleaf, Bool.false_eq_true, if_false, hq, hchild]
        have hchild2 : t.nodes (childIdx idx q) = some child := by
          rw [← hnid, ← quadrantChildIdx_eq]
          exact hchild
        have hcs : child.space = q.space := by
          have := h.cellsW (childIdx idx q) child hchild2
          rw [this] at hqcell
          exact Option.some.inj hqcell
        have hccont : child.space.contains b.position = true := by
          rw [hcs]
          exact hqcont
        have hflev : k + 1 ≤ level (childIdx idx q) + fuel := by
          rw [level_childIdx]
          omega
        rcases ih (childIdx idx q) child hchild2 hccont hopc hflev with
          ⟨m, hm, hok⟩ | ⟨id, hid, hok, hle, hlt2⟩
        · left
          exact ⟨m, by rw [hres]; exact hm, hok⟩
        · right
          refine ⟨id, by rw [hres]; exact hid, hok, ?_, ?_⟩
          · have := level_childIdx idx q
            omega
          · intro hcontr
            have := level_childIdx idx q
            omega
      | none =>
        left
        refine ⟨⟨n.quadrantChildIdx q, q.space, VirtualBody.ofBody b⟩, ?_, ?_, ?_, ?_, ?_⟩
        · simp only [BHTree.action, hleaf, Bool.false_eq_true, if_false, hq, hchild]
        · exact hqcont
        · rw [quadrantChildIdx_eq, hnid]
          exact hqcell
        · right
          refine ⟨hchild, ?_, ⟨n, ?_, hleaf⟩, rfl⟩
          · rw [quadrantChildIdx_eq, hnid]
            exact childIdx_pos idx q
          · rw [quadrantChildIdx_eq, hnid, parentIdx_childIdx]
            exact hn
        · show onPath t.space b.position (n.quadrantChildIdx q)
          rw [quadrantChildIdx_eq, hnid]
          exact hopc

-- Helper lemmas for WF preservation -------------------------------------------

theorem is_leaf_false_mono (t t1 : BHTree)
    (hsub : ∀ i, (t.nodes i).isSome = true → (t1.nodes i).isSome = true) (n : Node)
    (h1 : t.is_leaf n = false) : t1.is_leaf n = false := by
  cases hx : t1.is_leaf n with
  | false => rfl
  | true =>
    rw [is_leaf_of_mono t t1 hsub n hx] at h1
    cases h1

theorem is_empty_iff (n : Node) : n.is_empty = true ↔ n.body = VirtualBody.zero := by
  simp [Node.is_empty]

theorem mass_pos_of_nonempty (t : BHTree) (k : ℕ) (h : WF t k) (idx : ℕ) (n : Node)
    (hn : t.nodes idx = some n) (hne : n.is_empty = false) : 0 < n.body.mass := by
  by_cases h0 : idx = 0
  · subst h0
    rcases h.rootMassW n hn with hz | hp
    · rw [← is_empty_iff] at hz
      rw [hz] at hne
      cases hne
    · exact hp
  · exact h.massW idx n hn h0

theorem mass_nonneg_of_node (t : BHTree) (k : ℕ) (h : WF t k) (idx : ℕ) (n : Node)
    (hn : t.nodes idx = some n) : 0 ≤ n.body.mass := by
  by_cases h0 : idx = 0
  · subst h0
    rcases h.rootMassW n hn with hz | hp
    · rw [hz]
      exact le_rfl
    · exact hp.le
  · exact (h.massW idx n hn h0).le

theorem centered_ofBody (b : Body) (hb : b.mass ≠ 0) :
    (VirtualBody.ofBody b).centered.position = b.position := by
  unfold VirtualBody.ofBody VirtualBody.centered Point.divScalar Point.mulScalar
  simp only
  rw [mul_div_cancel_right₀ _ hb, mul_div_cancel_right₀ _ hb]

theorem withBody_mass (n : Node) (b : Body) :
    (n.withBody b).body.mass = b.mass + n.body.mass := rfl

theorem withBody_space (n : Node) (b : Body) : (n.withBody b).space = n.space := rfl

theorem withBody_id (n : Node) (b : Body) : (n.withBody b).id = n.id := rfl

theorem bumpAncestors_total (vb : VirtualBody) :
    ∀ (l : List ℕ) (t : BHTree), (∀ a ∈ l, (t.nodes a).isSome = true) →
      ∃ t1, t.bumpAncestors vb l = some t1 := by
  intro l
  induction l with
  | nil =>
    intro t hdom
    exact ⟨t, rfl⟩
  | cons idx rest ih =>
    intro t hdom
    obtain ⟨parent, hparent⟩ :=
      Option.isSome_iff_exists.mp (hdom idx (List.mem_cons_self idx rest))
    have hrest : ∀ a ∈ rest,
        ((t.storeAt idx ⟨parent.id, parent.space,
          ⟨parent.body.mass + vb.mass, parent.body.position + vb.position⟩⟩).nodes a).isSome =
          true := by
      intro a ha
      rw [storeAt_nodes]
      by_cases hi : a = idx
      · rw [if_pos hi]
        rfl
      · rw [if_neg hi]
        exact hdom a (List.mem_cons_of_mem idx ha)
    obtain ⟨t1, ht1⟩ := ih _ hrest
    refine ⟨t1, ?_⟩
    unfold BHTree.bumpAncestors
    rw [hparent]
    exact ht1

/-- Ancestors of the id of an `InsOK` node all exist (they are existing
indices or the parent chain of an existing parent). -/
theorem insOK_ancestors_present (t : BHTree) (k : ℕ) (h : WF t k) (b : Body) (m : Node)
    (hok : InsOK t b m) : ∀ a ∈ ancestors m.id, (t.nodes a).isSome = true := by
  rcases hok.caseW with ⟨old, hold, -, -, -⟩ | ⟨-, h0, ⟨pn, hpn, -⟩, -⟩
  · exact ancestors_present t h.parentsW m.id (by rw [hold]; rfl)
  · intro a ha
    match hmid : m.id, h0 with
    | c + 1, _ =>
      rw [hmid] at ha hpn
      rw [ancestors_succ] at ha
      rcases List.mem_cons.mp ha with rfl | ha2
      · rw [hpn]
        rfl
      · exact ancestors_present t h.parentsW (parentIdx (c + 1)) (by rw [hpn]; rfl) a ha2

/-- Ancestors of the id of an `InsOK` node are internal. -/
theorem insOK_ancestors_internal (t : BHTree) (k : ℕ) (h : WF t k) (b : Body) (m : Node)
    (hok : InsOK t b m) :
    ∀ a ∈ ancestors m.id, ∀ mm, t.nodes a = some mm → t.is_leaf mm = false := by
  rcases hok.caseW with ⟨old, hold, -, -, -⟩ | ⟨-, h0, ⟨pn, hpn, hpleaf⟩, -⟩
  · exact ancestors_internal t k h m.id (by rw [hold]; rfl)
  · intro a ha mm hmm
    match hmid : m.id, h0 with
    | c + 1, _ =>
      rw [hmid] at ha hpn
      rw [ancestors_succ] at ha
      rcases List.mem_cons.mp ha with rfl | ha2
      · rw [hpn] at hmm
        cases hmm
        exact hpleaf
      · exact ancestors_internal t k h (parentIdx (c + 1)) (by rw [hpn]; rfl) a ha2 mm hmm

theorem insOK_mass_pos (t : BHTree) (k : ℕ) (h : WF t k) (b : Body) (hb : 0 < b.mass)
    (m : Node) (hok : InsOK t b m) : 0 < m.body.mass := by
  rcases hok.caseW with ⟨old, hold, -, hm, -⟩ | ⟨-, -, -, hm⟩
  · rw [hm, withBody_mass]
    have := mass_nonneg_of_node t k h m.id old hold
    linarith
  · have : m.body = VirtualBody.ofBody b := by rw [hm]
    rw [this]
    exact hb

theorem is_leaf_id_congr (t : BHTree) (a b : Node) (hid : a.id = b.id) :
    t.is_leaf a = t.is_leaf b := by
  unfold BHTree.is_leaf
  rw [hid]

/-- Processing an `InsOK` insert action succeeds, returns no pending state,
and preserves well-formedness; the node domain only grows. -/
theorem process_insert_spec (t : BHTree) (k : ℕ) (h : WF t k) (b : Body) (hb : 0 < b.mass)
    (m : Node) (hok : InsOK t b m) :
    ∃ t2, t.process (.insert m) = some (t2, none) ∧ WF t2 k ∧
      (∀ i, (t.nodes i).isSome = true → (t2.nodes i).isSome = true) ∧
      t2.nodes m.id = some m := by
  obtain ⟨t1, ht1⟩ := bumpAncestors_total m.body (ancestors m.id) t
    (insOK_ancestors_present t k h b m hok)
  obtain ⟨hsp, hiso, hout, hnode⟩ := bumpAncestors_spec m.body (ancestors m.id) t t1 ht1
  refine ⟨t1.store m, ?_, ?_, ?_, ?_⟩
  · simp only [BHTree.process, ht1]
  case refine_3 =>
    intro i hi
    show (if i = m.id then some m else t1.nodes i).isSome = true
    by_cases hieq : i = m.id
    · rw [if_pos hieq]
      rfl
    · rw [if_neg hieq]
      rw [hiso]
      exact hi
  case refine_4 =>
    show (if m.id = m.id then some m else t1.nodes m.id) = some m
    rw [if_pos rfl]
  have hmass := insOK_mass_pos t k h b hb m hok
  have ht2nodes : ∀ i, (t1.store m).nodes i = if i = m.id then some m else t1.nodes i :=
    fun _ => rfl
  have ht2space : (t1.store m).space = t.space := hsp
  have hdomt2 : ∀ i, (t.nodes i).isSome = true → ((t1.store m).nodes i).isSome = true := by
    intro i hi
    rw [ht2nodes]
    by_cases hieq : i = m.id
    · rw [if_pos hieq]
      rfl
    · rw [if_neg hieq]
      rw [hiso]
      exact hi
  refine ⟨?_, ?_, ?_, ?_, ?_, ?_, ?_, ?_⟩
  · -- rootW
    obtain ⟨n0, hn0, hn0s⟩ := h.rootW
    by_cases h0 : m.id = 0
    · rcases hok.caseW with ⟨old, hold, -, hm, -⟩ | ⟨-, hne0, -, -⟩
      · have holdr : old = n0 := by
          rw [h0] at hold
          rw [hold] at hn0
          exact Option.some.inj hn0
        refine ⟨m, ?_, ?_⟩
        · rw [ht2nodes, if_pos h0.symm]
        · rw [hm, withBody_space, holdr, hn0s]
          exact hsp.symm
      · exact absurd h0 hne0
    · have h1some : (t1.nodes 0).isSome = true := by
        rw [hiso, hn0]
        rfl
      obtain ⟨n1, hn1⟩ := Option.isSome_iff_exists.mp h1some
      obtain ⟨n, hnt, -, hspc, -⟩ := hnode 0 n1 hn1
      have hnn0 : n = n0 := by
        rw [hnt] at hn0
        exact Option.some.inj hn0
      refine ⟨n1, ?_, ?_⟩
      · rw [ht2nodes, if_neg (fun hh => h0 hh.symm)]
        exact hn1
      · rw [hspc, hnn0, hn0s]
        exact hsp.symm
  · -- spaceW
    show t1.space.size.width = 2 ^ k ∧ t1.space.size.height = 2 ^ k
    rw [hsp]
    exact h.spaceW
  · -- idsW
    intro i n2 hn2
    rw [ht2nodes] at hn2
    by_cases hieq : i = m.id
    · rw [if_pos hieq] at hn2
      cases hn2
      exact hieq.symm
    · rw [if_neg hieq] at hn2
      obtain ⟨n, hnt, hid, -, -⟩ := hnode i n2 hn2
      rw [hid]
      exact h.idsW i n hnt
  · -- cellsW
    intro i n2 hn2
    rw [ht2nodes] at hn2
    show cellOf t1.space i = some n2.space
    rw [hsp]
    by_cases hieq : i = m.id
    · rw [if_pos hieq] at hn2
      cases hn2
      rw [hieq]
      exact hok.cellW
    · rw [if_neg hieq] at hn2
      obtain ⟨n, hnt, -, hspc, -⟩ := hnode i n2 hn2
      rw [hspc]
      exact h.cellsW i n hnt
  · -- parentsW
    intro i n2 hn2 hine
    rw [ht2nodes] at hn2
    by_cases hieq : i = m.id
    · subst hieq
      apply hdomt2
      rcases hok.caseW with ⟨old, hold, -, -, -⟩ | ⟨-, -, ⟨pn, hpn, -⟩, -⟩
      · exact h.parentsW m.id old hold hine
      · rw [hpn]
        rfl
    · rw [if_neg hieq] at hn2
      obtain ⟨n, hnt, -, -, -⟩ := hnode i n2 hn2
      exact hdomt2 _ (h.parentsW i n hnt hine)
  · -- massW
    intro i n2 hn2 hine
    rw [ht2nodes] at hn2
    by_cases hieq : i = m.id
    · rw [if_pos hieq] at hn2
      cases hn2
      exact hmass
    · rw [if_neg hieq] at hn2
      obtain ⟨n, hnt, -, -, hbody⟩ := hnode i n2 hn2
      rcases hbody with he | ⟨c, hc1, hcm⟩
      · rw [he]
        exact h.massW i n hnt hine
      · have hpos := h.massW i n hnt hine
        have hcq : (1 : ℚ) ≤ (c : ℚ) := by exact_mod_cast hc1
        rw [hcm]
        nlinarith
  · -- rootMassW
    intro n2 hn2
    rw [ht2nodes] at hn2
    by_cases hieq : (0 : ℕ) = m.id
    · rw [if_pos hieq] at hn2
      cases hn2
      exact Or.inr hmass
    · rw [if_neg hieq] at hn2
      obtain ⟨n, hnt, -, -, hbody⟩ := hnode 0 n2 hn2
      rcases hbody with he | ⟨c, hc1, hcm⟩
      · rw [he]
        exact h.rootMassW n hnt
      · right
        have hcq : (1 : ℚ) ≤ (c : ℚ) := by exact_mod_cast hc1
        rcases h.rootMassW n hnt with hz | hp
        · rw [hcm, hz]
          show (0 : ℚ) < VirtualBody.zero.mass + c * m.body.mass
          have : VirtualBody.zero.mass = 0 := rfl
          rw [this]
          nlinarith
        · rw [hcm]
          nlinarith
  · -- leafW
    intro i n2 hn2 hlf hmp
    rw [ht2nodes] at hn2
    by_cases hieq : i = m.id
    · rw [if_pos hieq] at hn2
      cases hn2
      rcases hok.caseW with ⟨old, hold, holdleaf, hm, -⟩ | ⟨hnone, -, -, hm⟩
      · rw [hm, withBody_space]
        have hbp : old.space.contains b.position = true := by
          have := hok.containsW
          rw [hm, withBody_space] at this
          exact this
        apply centered_withBody_mem old.space b hb hbp old
        by_cases hemp : old.is_empty = true
        · exact Or.inl ((is_empty_iff old).mp hemp)
        · right
          have hempf : old.is_empty = false := by
            cases hx : old.is_empty
            · rfl
            · exact absurd hx hemp
          have hop : 0 < old.body.mass := mass_pos_of_nonempty t k h m.id old hold hempf
          exact ⟨hop, h.leafW m.id old hold holdleaf hop⟩
      · have hmb : m.body = VirtualBody.ofBody b := by rw [hm]
        rw [hmb, centered_ofBody b hb.ne']
        exact hok.containsW
    · rw [if_neg hieq] at hn2
      obtain ⟨n, hnt, hid, hspc, -⟩ := hnode i n2 hn2
      by_cases hanc : i ∈ ancestors m.id
      · have hint : t.is_leaf n = false := insOK_ancestors_internal t k h b m hok i hanc n hnt
        have hint2 : (t1.store m).is_leaf n2 = false := by
          rw [is_leaf_id_congr (t1.store m) n2 n hid]
          exact is_leaf_false_mono t (t1.store m) hdomt2 n hint
        rw [hint2] at hlf
        cases hlf
      · have huntouched : t1.nodes i = t.nodes i := hout i hanc
        rw [huntouched, hnt] at hn2
        cases hn2
        have hlf_t : t.is_leaf n2 = true := is_leaf_of_mono t (t1.store m) hdomt2 n2 hlf
        exact h.leafW i n2 hnt hlf_t hmp

/-- Internalizing an `IntOK` target succeeds and preserves well-formedness;
the target node survives unchanged but becomes internal, and the domain only
grows. -/
theorem internalize_spec (t : BHTree) (k : ℕ) (h : WF t k) (b : Body) (id : ℕ)
    (hok : IntOK t b id) :
    ∃ t1, t.internalize id = some t1 ∧ WF t1 k ∧
      (∀ i, (t.nodes i).isSome = true → (t1.nodes i).isSome = true) ∧
      (∃ ln1, t1.nodes id = some ln1 ∧ t1.is_leaf ln1 = false ∧
        ln1.space.contains b.position = true) ∧
      t1.space = t.space ∧
      (∃ ln q, t.nodes id = some ln ∧
        ln.space.quadrant ln.body.centered.position = some (.found q) ∧
        (∀ i, t1.nodes i =
          if i = childIdx id q then some ⟨childIdx id q, q.space, ln.body⟩ else t.nodes i)) := by
  obtain ⟨ln, hln, hleaf, hne, hnu, hcont⟩ := hok.nodeW
  have hlnid : ln.id = id := h.idsW id ln hln
  have hcell : cellOf t.space id = some ln.space := h.cellsW id ln hln
  obtain ⟨hlev, hwn, hhn⟩ := cellOf_size t.space k h.spaceW.1 h.spaceW.2 id ln.space hcell
  have hge : 1 ≤ k - level id := non_unit_exp ln.space (k - level id) hwn hhn hnu
  have hpos : 0 < ln.body.mass := mass_pos_of_nonempty t k h id ln hln hne
  have hcentered : ln.space.contains ln.body.centered.position = true :=
    h.leafW id ln hln hleaf hpos
  obtain ⟨q, hq⟩ :=
    quadrant_total ln.space (k - level id) hwn hhn hge ln.body.centered.position hcentered
  have hchild : ln.child_from_self = some ⟨childIdx id q, q.space, ln.body⟩ := by
    simp only [Node.child_from_self, Node.map_quadrant, hq, quadrantChildIdx_eq, hlnid]
  have hint : t.internalize id = some ((t.store ln).store ⟨childIdx id q, q.space, ln.body⟩) := by
    simp only [BHTree.internalize, hln, hchild]
  have hcnone : t.nodes (childIdx id q) = none := by
    unfold BHTree.is_leaf at hleaf
    rw [List.all_eq_true] at hleaf
    have := hleaf (childIdx id q) (by rw [hlnid]; exact childIdx_mem_childIndices id q)
    rw [Option.isNone_iff_eq_none] at this
    exact this
  have hcne : childIdx id q ≠ id := by
    obtain ⟨h1, h4⟩ := quadSlot_bounds q
    unfold childIdx
    omega
  have ht1n : ∀ i, ((t.store ln).store ⟨childIdx id q, q.space, ln.body⟩).nodes i =
      if i = childIdx id q then some ⟨childIdx id q, q.space, ln.body⟩ else t.nodes i := by
    intro i
    show (if i = childIdx id q then _ else (t.store ln).nodes i) = _
    by_cases hic : i = childIdx id q
    · rw [if_pos hic, if_pos hic]
    · rw [if_neg hic, if_neg hic]
      show (if i = ln.id then some ln else t.nodes i) = t.nodes i
      by_cases hii : i = ln.id
      · rw [if_pos hii, hii, hlnid, hln]
      · rw [if_neg hii]
  have ht1space : ((t.store ln).store ⟨childIdx id q, q.space, ln.body⟩).space = t.space := rfl
  have hdom : ∀ i, (t.nodes i).isSome = true →
      (((t.store ln).store ⟨childIdx id q, q.space, ln.body⟩).nodes i).isSome = true := by
    intro i hi
    rw [ht1n]
    by_cases hic : i = childIdx id q
    · rw [if_pos hic]
      rfl
    · rw [if_neg hic]
      exact hi
  have hqcell : cellOf t.space (childIdx id q) = some q.space :=
    cellOf_quadrant_child t.space id ln.space hcell ln.body.centered.position q hq
  have hchildleaf : ∀ c2, c2 ∈ childIndices (childIdx id q) →
      t.nodes c2 = none := by
    intro c2 hc2
    cases hx : t.nodes c2 with
    | none => rfl
    | some m2 =>
      rw [mem_childIndices] at hc2
      obtain ⟨s, hs1, hs4, rfl⟩ := hc2
      have hpar : (t.nodes (parentIdx (4 * childIdx id q + s))).isSome = true :=
        h.parentsW _ m2 hx (by obtain ⟨e1, e4⟩ := quadSlot_bounds q; unfold childIdx; omega)
      rw [parentIdx_child _ s hs1 hs4, hcnone] at hpar
      cases hpar
  refine ⟨_, hint, ?_, hdom, ?_, rfl, ln, q, hln, hq, ht1n⟩
  case refine_2 =>
    refine ⟨ln, ?_, ?_, hcont⟩
    · rw [ht1n, if_neg (fun hh => hcne hh.symm), hln]
    · unfold BHTree.is_leaf
      rw [List.all_eq_false]
      refine ⟨childIdx id q, by rw [hlnid]; exact childIdx_mem_childIndices id q, ?_⟩
      rw [ht1n, if_pos rfl]
      simp
  refine ⟨?_, ?_, ?_, ?_, ?_, ?_, ?_, ?_⟩
  · -- rootW
    obtain ⟨n0, hn0, hn0s⟩ := h.rootW
    refine ⟨n0, ?_, ?_⟩
    · rw [ht1n, if_neg ?_, hn0]
      obtain ⟨h1, h4⟩ := quadSlot_bounds q
      unfold childIdx
      omega
    · rw [hn0s, ht1space]
  · -- spaceW
    rw [ht1space]
    exact h.spaceW
  · -- idsW
    intro i n2 hn2
    rw [ht1n] at hn2
    by_cases hic : i = childIdx id q
    · rw [if_pos hic] at hn2
      cases hn2
      exact hic.symm
    · rw [if_neg hic] at hn2
      exact h.idsW i n2 hn2
  · -- cellsW
    intro i n2 hn2
    rw [ht1n] at hn2
    rw [ht1space]
    by_cases hic : i = childIdx id q
    · rw [if_pos hic] at hn2
      cases hn2
      rw [hic]
      exact hqcell
    · rw [if_neg hic] at hn2
      exact h.cellsW i n2 hn2
  · -- parentsW
    intro i n2 hn2 hine
    rw [ht1n] at hn2
    by_cases hic : i = childIdx id q
    · subst hic
      apply hdom
      rw [parentIdx_childIdx, hln]
      rfl
    · rw [if_neg hic] at hn2
      exact hdom _ (h.parentsW i n2 hn2 hine)
  · -- massW
    intro i n2 hn2 hine
    rw [ht1n] at hn2
    by_cases hic : i = childIdx id q
    · rw [if_pos hic] at hn2
      cases hn2
      exact hpos
    · rw [if_neg hic] at hn2
      exact h.massW i n2 hn2 hine
  · -- rootMassW
    intro n2 hn2
    rw [ht1n] at hn2
    rw [if_neg ?noroot] at hn2
    case noroot =>
      obtain ⟨h1, h4⟩ := quadSlot_bounds q
      unfold childIdx
      omega
    exact h.rootMassW n2 hn2
  · -- leafW
    intro i n2 hn2 hlf hmp
    rw [ht1n] at hn2
    by_cases hic : i = childIdx id q
    · rw [if_pos hic] at hn2
      cases hn2
      exact quadrant_found_contains _ _ _ hq
    · rw [if_neg hic] at hn2
      have hlf_t : t.is_leaf n2 = true := is_leaf_of_mono t _ hdom n2 hlf
      exact h.leafW i n2 hn2 hlf_t hmp

/-- Termination measure for the insertion loop: twice the remaining depth
plus one when the pending node is still a leaf.  Each loop round strictly
decreases it. -/
def insMeasure (t : BHTree) (k : ℕ) (p : Pending) : ℕ :=
  2 * (k - level p.idx) +
    (match t.nodes p.idx with
     | some n => if t.is_leaf n then 1 else 0
     | none => 0)

theorem insMeasure_eq (t : BHTree) (k idx : ℕ) (b : Body) (n : Node)
    (hn : t.nodes idx = some n) :
    insMeasure t k ⟨idx, b⟩ = 2 * (k - level idx) + (if t.is_leaf n then 1 else 0) := by
  unfold insMeasure
  rw [hn]

/-- The insertion loop of a well-formed tree terminates successfully on any
positive-mass body inside the pending node, given enough fuel, and preserves
well-formedness. -/
theorem insertLoop_spec (k : ℕ) :
    ∀ (fuel : ℕ) (t : BHTree) (idx : ℕ) (n : Node) (b : Body),
      WF t k → t.nodes idx = some n → n.space.contains b.position = true →
      onPath t.space b.position idx → 0 < b.mass →
      insMeasure t k ⟨idx, b⟩ + k + 2 ≤ fuel →
      ∃ t2, t.insertLoop fuel ⟨idx, b⟩ = some t2 ∧ WF t2 k ∧
        (∀ i, (t.nodes i).isSome = true → (t2.nodes i).isSome = true) := by
  intro fuel
  induction fuel with
  | zero =>
    intro t idx n b hw hn hcont hop hb hfuel
    omega
  | succ fuel ih =>
    intro t idx n b hw hn hcont hop hb hfuel
    have hlidx : level idx ≤ k := hw.levelW idx n hn
    have hmeq := insMeasure_eq t k idx b n hn
    rcases action_spec k t hw b (fuel + 1) idx n hn hcont hop (by omega) with
      ⟨m, hact, hok⟩ | ⟨id, hact, hok, hle, hlt⟩
    · obtain ⟨t2, hproc, hwf2, hdom2, -⟩ := process_insert_spec t k hw b hb m hok
      refine ⟨t2, ?_, hwf2, hdom2⟩
      simp only [BHTree.insertLoop, hn, hact, hproc]
    · obtain ⟨t1, hint, hwf1, hdom1, ⟨ln1, hln1, hleaf1, hcont1⟩, hsp1, -⟩ :=
        internalize_spec t k hw b id hok
      have hproc : t.process (.internalize id ⟨id, b⟩) = some (t1, some ⟨id, b⟩) := by
        simp only [BHTree.process, hint]
      obtain ⟨lnt, hlnt, -, -, -, -⟩ := hok.nodeW
      have hlid : level id ≤ k := hw.levelW id lnt hlnt
      have hmeq1 : insMeasure t1 k ⟨id, b⟩ = 2 * (k - level id) := by
        rw [insMeasure_eq t1 k id b ln1 hln1, hleaf1]
        simp
      have hmeas1 : insMeasure t1 k ⟨id, b⟩ + k + 2 ≤ fuel := by
        rw [hmeq1]
        cases hnl : t.is_leaf n with
        | true =>
          rw [hnl] at hmeq
          simp only [if_true] at hmeq
          omega
        | false =>
          rw [hnl] at hmeq
          simp only [Bool.false_eq_true, if_false] at hmeq
          have := hlt hnl
          omega
      have hop1 : onPath t1.space b.position id := by
        rw [hsp1]
        exact hok.pathIW
      obtain ⟨t2, hrec, hwf2, hdom2⟩ := ih t1 id ln1 b hwf1 hln1 hcont1 hop1 hb hmeas1
      refine ⟨t2, ?_, hwf2, fun i hi => hdom2 i (hdom1 i hi)⟩
      simp only [BHTree.insertLoop, hn, hact, hproc]
      exact hrec

/-- `add` on a well-formed tree with fuel `3k+5` always succeeds and
preserves well-formedness, for any positive-mass body (in- or out-of-bounds). -/
theorem add_spec (t : BHTree) (k : ℕ) (hw : WF t k) (b : Body) (hb : 0 < b.mass) :
    ∃ t2, t.add (3 * k + 5) b = some t2 ∧ WF t2 k ∧
      (∀ i, (t.nodes i).isSome = true → (t2.nodes i).isSome = true) := by
  unfold BHTree.add
  cases hc : t.space.contains b.position with
  | false =>
    refine ⟨t, ?_, hw, fun _ hi => hi⟩
    simp
  | true =>
    simp only [if_true]
    obtain ⟨n0, hn0, hn0s⟩ := hw.rootW
    have hcont : n0.space.contains b.position = true := by
      rw [hn0s]
      exact hc
    have hmeas : insMeasure t k ⟨0, b⟩ + k + 2 ≤ 3 * k + 5 := by
      rw [insMeasure_eq t k 0 b n0 hn0, level_zero]
      cases t.is_leaf n0 <;> simp <;> omega
    exact insertLoop_spec k (3 * k + 5) t 0 n0 b hw hn0 hcont (onPath_zero t.space b.position) hb
      hmeas

/-- `addAll` on a well-formed tree succeeds for any list of positive-mass
bodies and preserves well-formedness. -/
theorem addAll_spec (k : ℕ) :
    ∀ (bodies : List Body) (t : BHTree), WF t k → (∀ b ∈ bodies, 0 < b.mass) →
      ∃ t2, t.addAll (3 * k + 5) bodies = some t2 ∧ WF t2 k := by
  intro bodies
  induction bodies with
  | nil =>
    intro t hw hmass
    exact ⟨t, rfl, hw⟩
  | cons b rest ih =>
    intro t hw hmass
    obtain ⟨t1, hadd, hwf1, -⟩ := add_spec t k hw b (hmass b (List.mem_cons_self b rest))
    obtain ⟨t2, hrest, hwf2⟩ := ih t1 hwf1 (fun b2 hb2 => hmass b2 (List.mem_cons_of_mem b hb2))
    refine ⟨t2, ?_, hwf2⟩
    unfold BHTree.addAll
    rw [hadd]
    exact hrest

/-- C4: building a tree over a `2^k` root square by `new` followed by any
finite list of `add` calls of positive-mass bodies always terminates without
error (fuel `3k+5` suffices for every call, even for bodies at coincident
positions, which merge in a unit-square leaf), and the resulting tree has at
most `k+1` levels: every stored index sits at level at most `k`. -/
theorem c4_add_terminates_depth_bound (x y : ℚ) (k : ℕ) (bodies : List Body)
    (hmass : ∀ b ∈ bodies, 0 < b.mass) :
    ∃ t, (BHTree.new (Square.new x y k)).addAll (3 * k + 5) bodies = some t ∧
      ∀ idx n, t.nodes idx = some n → level idx ≤ k := by
  have hwf0 : WF (BHTree.new (Square.new x y k)) k := WF.new (Square.new x y k) k rfl rfl
  obtain ⟨t, hall, hwf⟩ := addAll_spec k bodies (BHTree.new (Square.new x y k)) hwf0 hmass
  exact ⟨t, hall, fun idx n hn => hwf.levelW idx n hn⟩

/-- C4 witness: two bodies in the same unit square of a `2^1` root (the
repository test `tree_has_maximum_depth`): insertion terminates and the tree
has at most 2 levels. -/
theorem c4_add_terminates_depth_bound_witness :
    (∀ b ∈ [Body.mk (1 / 2) ⟨1 / 2, 2⟩ Vector.zero, Body.mk 2 ⟨1 / 2, 3 / 2⟩ Vector.zero],
        0 < b.mass) ∧
      ∃ t, (BHTree.new (Square.new 0 0 1)).addAll (3 * 1 + 5)
            [Body.mk (1 / 2) ⟨1 / 2, 2⟩ Vector.zero, Body.mk 2 ⟨1 / 2, 3 / 2⟩ Vector.zero] =
          some t ∧ ∀ idx n, t.nodes idx = some n → level idx ≤ 1 :=
  ⟨by
    intro b hb
    simp only [List.mem_cons, List.mem_singleton, List.not_mem_nil, or_false] at hb
    rcases hb with rfl | rfl <;> norm_num,
    c4_add_terminates_depth_bound 0 0 1
      [Body.mk (1 / 2) ⟨1 / 2, 2⟩ Vector.zero, Body.mk 2 ⟨1 / 2, 3 / 2⟩ Vector.zero]
      (by
        intro b hb
        simp only [List.mem_cons, List.mem_singleton, List.not_mem_nil, or_false] at hb
        rcases hb with rfl | rfl <;> norm_num)⟩

-- Aggregation bookkeeping for virtual_bodies -----------------------------------

/-- Total mass of the bodies of `S` whose insertion path passes through `idx`
(the bodies inserted into the subtree that `idx` denotes). -/
def pathMass (R : Rect) (S : List Body) (idx : ℕ) : ℚ :=
  (S.map fun c => if onPath R c.position idx then c.mass else 0).sum

/-- Total mass of a list of bodies. -/
def massOf (S : List Body) : ℚ := (S.map Body.mass).sum

/-- The level-`k` path index (unit cell over a `2^k` root) of a position. -/
def cellIndexAt (R : Rect) (k : ℕ) (p : Point) : Option ℕ :=
  (pathAt R p k).map Prod.fst

/-- Pairwise distinctness of the level-`k` cells of a list of bodies. -/
def distinctCells (R : Rect) (k : ℕ) : List Body → Bool
  | [] => true
  | b :: rest =>
    (rest.all fun c => decide (cellIndexAt R k b.position ≠ cellIndexAt R k c.position)) &&
      distinctCells R k rest

/-- Bounded check of the Barnes-Hut ratio along a query: every stored internal
node on the query's path fails the pruning condition, and every stored leaf
off the query's path satisfies it. -/
def checkTraversal (t : BHTree) (R : Rect) (qp : Point) (B : ℕ) : Bool :=
  (List.range B).all fun idx =>
    match t.nodes idx with
    | none => true
    | some n =>
      (!(t.is_leaf n) || decide (onPath R qp idx) || farCondition qp n) &&
        (t.is_leaf n || !(decide (onPath R qp idx)) || !(farCondition qp n))

/-- Invariant of a tree built by inserting the in-bounds, positive-mass bodies
of `S` (in order), with pairwise-distinct unit cells: well-formedness, exact
aggregate masses (the double-count of `BHTree::process` needs a unit-square
merge, which distinct cells exclude), aggregate of every occupied leaf equal
to its occupant, and a resident leaf on every body's path. -/
structure AggInv (R : Rect) (k : ℕ) (S : List Body) (t : BHTree) : Prop where
  wf : WF t k
  spaceE : t.space = R
  posB : ∀ c ∈ S, 0 < c.mass
  inbB : ∀ c ∈ S, R.contains c.position = true
  agg : ∀ idx n, t.nodes idx = some n → n.body.mass = pathMass R S idx
  leafB : ∀ idx n, t.nodes idx = some n → t.is_leaf n = true →
    ∀ c ∈ S, onPath R c.position idx → n.body = VirtualBody.ofBody c
  res : ∀ c ∈ S, ∃ idx n, t.nodes idx = some n ∧ t.is_leaf n = true ∧
    onPath R c.position idx

/-- Indices at level `l` are bounded: `3 * idx + 4 ≤ 4 ^ (l + 1)`. -/
theorem idx_le_pow : ∀ idx : ℕ, 3 * idx + 4 ≤ 4 ^ (level idx + 1) := by
  intro idx
  induction idx using Nat.strong_induction_on with
  | _ idx ih =>
    match idx with
    | 0 =>
      rw [level_zero]
      norm_num
    | i + 1 =>
      have h1 := ih (i / 4) (Nat.lt_succ_of_le (Nat.div_le_self i 4))
      rw [level_succ]
      have h2 : 4 ^ (level (i / 4) + 1 + 1) = 4 * 4 ^ (level (i / 4) + 1) := by
        rw [pow_succ]
        ring
      rw [h2]
      omega

/-- An index whose level is at most `k` is below `4 ^ (k + 1)`. -/
theorem idx_lt_of_level_le (idx k : ℕ) (h : level idx ≤ k) : idx < 4 ^ (k + 1) := by
  have h1 := idx_le_pow idx
  have h2 : (4 : ℕ) ^ (level idx + 1) ≤ 4 ^ (k + 1) :=
    Nat.pow_le_pow_right (by norm_num) (by omega)
  omega

/-- At most one index per level lies on a path. -/
theorem onPath_level_inj (R : Rect) (p : Point) (i j : ℕ) (hi : onPath R p i)
    (hj : onPath R p j) (hl : level i = level j) : i = j := by
  unfold onPath at hi hj
  rw [hl] at hi
  rw [hi] at hj
  exact Option.some.inj hj

/-- Every ancestor of an on-path index is on the path. -/
theorem ancestors_onPath (R : Rect) (p : Point) :
    ∀ i, onPath R p i → ∀ a ∈ ancestors i, onPath R p a := by
  intro i
  induction i using Nat.strong_induction_on with
  | _ i ih =>
    intro hi a ha
    match i with
    | 0 =>
      rw [ancestors_zero] at ha
      cases ha
    | c + 1 =>
      rw [ancestors_succ] at ha
      have hp : onPath R p (parentIdx (c + 1)) :=
        onPath_parent R p (c + 1) (Nat.succ_ne_zero c) hi
      rcases List.mem_cons.mp ha with rfl | ha2
      · exact hp
      · have hlt : parentIdx (c + 1) < c + 1 := by
          unfold parentIdx
          omega
        exact ih (parentIdx (c + 1)) hlt hp a ha2

/-- A shallower on-path index is an ancestor of a deeper one. -/
theorem onPath_mem_ancestors (R : Rect) (p : Point) (i j : ℕ) (hi : onPath R p i)
    (hj : onPath R p j) (hl : level j < level i) : j ∈ ancestors i := by
  unfold onPath at hi hj
  cases hpi : pathAt R p (level i) with
  | none =>
    rw [hpi] at hi
    cases hi
  | some pr =>
    obtain ⟨i2, r⟩ := pr
    rw [hpi] at hi
    simp only [Option.map_some', Option.some.injEq] at hi
    cases hi
    obtain ⟨jp, rp, hjp, hmem⟩ := pathAt_mem_ancestors R p (level i) i r hpi (level j) hl
    rw [hjp] at hj
    simp only [Option.map_some', Option.some.injEq] at hj
    rw [← hj]
    exact hmem

/-- The parent drops the level by one. -/
theorem level_parentIdx (i : ℕ) (hi : i ≠ 0) : level i = level (parentIdx i) + 1 := by
  match i with
  | c + 1 =>
    have hp : parentIdx (c + 1) = c / 4 := by
      unfold parentIdx
      omega
    rw [hp]
    exact level_succ c

/-- Ancestors are strictly smaller. -/
theorem ancestors_lt : ∀ i : ℕ, ∀ a ∈ ancestors i, a < i := by
  intro i
  induction i using Nat.strong_induction_on with
  | _ i ih =>
    intro a ha
    match i with
    | 0 =>
      rw [ancestors_zero] at ha
      cases ha
    | c + 1 =>
      rw [ancestors_succ] at ha
      have hlt : parentIdx (c + 1) < c + 1 := by
        unfold parentIdx
        omega
      rcases List.mem_cons.mp ha with rfl | ha2
      · exact hlt
      · exact lt_trans (ih (parentIdx (c + 1)) hlt a ha2) hlt

/-- The ancestor list has no duplicates. -/
theorem ancestors_nodup : ∀ i : ℕ, (ancestors i).Nodup := by
  intro i
  induction i using Nat.strong_induction_on with
  | _ i ih =>
    match i with
    | 0 =>
      rw [ancestors_zero]
      exact List.nodup_nil
    | c + 1 =>
      rw [ancestors_succ]
      have hlt : parentIdx (c + 1) < c + 1 := by
        unfold parentIdx
        omega
      refine List.Nodup.cons ?_ (ih (parentIdx (c + 1)) hlt)
      intro hmem
      exact absurd (ancestors_lt (parentIdx (c + 1)) _ hmem) (lt_irrefl _)

-- List lemmas for pathMass ------------------------------------------------------

theorem pathMass_nil (R : Rect) (idx : ℕ) : pathMass R [] idx = 0 := rfl

theorem pathMass_cons (R : Rect) (c : Body) (S : List Body) (idx : ℕ) :
    pathMass R (c :: S) idx =
      (if onPath R c.position idx then c.mass else 0) + pathMass R S idx := by
  unfold pathMass
  rw [List.map_cons, List.sum_cons]

theorem pathMass_append (R : Rect) (S : List Body) (b : Body) (idx : ℕ) :
    pathMass R (S ++ [b]) idx =
      pathMass R S idx + (if onPath R b.position idx then b.mass else 0) := by
  unfold pathMass
  rw [List.map_append, List.sum_append]
  simp

theorem pathMass_eq_zero (R : Rect) (idx : ℕ) :
    ∀ S : List Body, (∀ c ∈ S, ¬ onPath R c.position idx) → pathMass R S idx = 0 := by
  intro S
  induction S with
  | nil =>
    intro h
    rfl
  | cons c rest ih =>
    intro h
    rw [pathMass_cons, if_neg (h c (List.mem_cons_self c rest)),
      ih (fun c2 hc2 => h c2 (List.mem_cons_of_mem c hc2))]
    ring

theorem exists_onPath_of_pathMass_ne_zero (R : Rect) (idx : ℕ) (S : List Body)
    (h : pathMass R S idx ≠ 0) : ∃ c ∈ S, onPath R c.position idx := by
  by_contra hcon
  push_neg at hcon
  exact h (pathMass_eq_zero R idx S hcon)

theorem pathMass_nonneg (R : Rect) (idx : ℕ) :
    ∀ S : List Body, (∀ c ∈ S, 0 ≤ c.mass) → 0 ≤ pathMass R S idx := by
  intro S
  induction S with
  | nil =>
    intro _
    exact le_refl 0
  | cons d rest ih =>
    intro hpos
    rw [pathMass_cons]
    have h1 : 0 ≤ pathMass R rest idx := ih fun c hc => hpos c (List.mem_cons_of_mem d hc)
    by_cases hop : onPath R d.position idx
    · rw [if_pos hop]
      have := hpos d (List.mem_cons_self d rest)
      linarith
    · rw [if_neg hop]
      linarith

theorem pathMass_lower (R : Rect) (idx : ℕ) :
    ∀ S : List Body, (∀ c ∈ S, 0 ≤ c.mass) → ∀ c ∈ S, onPath R c.position idx →
      c.mass ≤ pathMass R S idx := by
  intro S
  induction S with
  | nil =>
    intro _ c hc
    cases hc
  | cons d rest ih =>
    intro hpos c hc hop
    rw [pathMass_cons]
    rcases List.mem_cons.mp hc with rfl | hc2
    · rw [if_pos hop]
      have h1 : 0 ≤ pathMass R rest idx :=
        pathMass_nonneg R idx rest fun c2 hc2 => hpos c2 (List.mem_cons_of_mem _ hc2)
      linarith
    · have h2 := ih (fun c2 hc2 => hpos c2 (List.mem_cons_of_mem d hc2)) c hc2 hop
      by_cases hd : onPath R d.position idx
      · rw [if_pos hd]
        have := hpos d (List.mem_cons_self d rest)
        linarith
      · rw [if_neg hd]
        linarith

theorem pathMass_root (R : Rect) : ∀ S : List Body, pathMass R S 0 = massOf S := by
  intro S
  induction S with
  | nil => rfl
  | cons c rest ih =>
    rw [pathMass_cons, if_pos (onPath_zero R c.position), ih]
    unfold massOf
    rw [List.map_cons, List.sum_cons]

theorem pathMass_congr (R : Rect) (i j : ℕ) :
    ∀ S : List Body, (∀ c ∈ S, onPath R c.position i ↔ onPath R c.position j) →
      pathMass R S i = pathMass R S j := by
  intro S
  induction S with
  | nil =>
    intro _
    rfl
  | cons c rest ih =>
    intro h
    rw [pathMass_cons, pathMass_cons, ih (fun c2 hc2 => h c2 (List.mem_cons_of_mem c hc2))]
    have hiff := h c (List.mem_cons_self c rest)
    by_cases hop : onPath R c.position i
    · rw [if_pos hop, if_pos (hiff.mp hop)]
    · rw [if_neg hop, if_neg (fun hh => hop (hiff.mpr hh))]

-- Lemmas about distinctCells and checkTraversal --------------------------------

theorem distinctCells_cons (R : Rect) (k : ℕ) (b : Body) (rest : List Body) :
    distinctCells R k (b :: rest) =
      ((rest.all fun c => decide (cellIndexAt R k b.position ≠ cellIndexAt R k c.position)) &&
        distinctCells R k rest) := rfl

theorem distinctCells_pairwise (R : Rect) (k : ℕ) :
    ∀ S : List Body, distinctCells R k S = true → ∀ a ∈ S, ∀ b ∈ S, a ≠ b →
      cellIndexAt R k a.position ≠ cellIndexAt R k b.position := by
  intro S
  induction S with
  | nil =>
    intro _ a ha
    cases ha
  | cons d rest ih =>
    intro h a ha b hb hne
    rw [distinctCells_cons, Bool.and_eq_true] at h
    obtain ⟨hall, hrest⟩ := h
    rw [List.all_eq_true] at hall
    rcases List.mem_cons.mp ha with rfl | ha2 <;> rcases List.mem_cons.mp hb with rfl | hb2
    · exact absurd rfl hne
    · exact of_decide_eq_true (hall b hb2)
    · intro heq
      exact of_decide_eq_true (hall a ha2) heq.symm
    · exact ih hrest a ha2 b hb2 hne

theorem distinctCells_head (R : Rect) (k : ℕ) :
    ∀ (S1 : List Body) (b : Body) (S2 : List Body),
      distinctCells R k (S1 ++ b :: S2) = true →
      ∀ c ∈ S1, cellIndexAt R k c.position ≠ cellIndexAt R k b.position := by
  intro S1
  induction S1 with
  | nil =>
    intro b S2 h c hc
    cases hc
  | cons d rest ih =>
    intro b S2 h c hc
    rw [List.cons_append, distinctCells_cons, Bool.and_eq_true] at h
    obtain ⟨hall, hrest⟩ := h
    rcases List.mem_cons.mp hc with rfl | hc2
    · rw [List.all_eq_true] at hall
      exact of_decide_eq_true (hall b (by simp))
    · exact ih b S2 hrest c hc2

theorem checkTraversal_spec (t : BHTree) (R : Rect) (qp : Point) (B : ℕ)
    (h : checkTraversal t R qp B = true) (idx : ℕ) (hB : idx < B) (n : Node)
    (hn : t.nodes idx = some n) :
    (t.is_leaf n = true → ¬ onPath R qp idx → farCondition qp n = true) ∧
    (t.is_leaf n = false → onPath R qp idx → farCondition qp n = false) := by
  unfold checkTraversal at h
  rw [List.all_eq_true] at h
  have h2 := h idx (List.mem_range.mpr hB)
  simp only [hn, Bool.and_eq_true, Bool.or_eq_true, Bool.not_eq_true',
    decide_eq_true_eq, decide_eq_false_iff_not] at h2
  obtain ⟨hA, hB2⟩ := h2
  constructor
  · intro hleaf hop
    rcases hA with (h3 | h3) | h3
    · simp [hleaf] at h3
    · exact absurd h3 hop
    · exact h3
  · intro hleaf hop
    rcases hB2 with (h3 | h3) | h3
    · simp [hleaf] at h3
    · exact absurd hop h3
    · exact h3

/-- The invariant holds for the freshly initialized tree. -/
theorem AggInv.init (R : Rect) (k : ℕ) (hw : R.size.width = 2 ^ k)
    (hh : R.size.height = 2 ^ k) : AggInv R k [] (BHTree.new R) := by
  refine ⟨WF.new R k hw hh, rfl, ?_, ?_, ?_, ?_, ?_⟩
  · intro c hc
    cases hc
  · intro c hc
    cases hc
  · intro idx n hn
    have hnodes : (BHTree.new R).nodes idx =
        if idx = 0 then some ⟨0, R, VirtualBody.zero⟩ else none := rfl
    rw [hnodes] at hn
    by_cases h0 : idx = 0
    · rw [if_pos h0] at hn
      cases hn
      rfl
    · rw [if_neg h0] at hn
      cases hn
  · intro idx n hn hleaf c hc
    cases hc
  · intro c hc
    cases hc

-- Frontier lemmas for insertion paths ------------------------------------------

theorem is_leaf_iff_children_none (t : BHTree) (n : Node) :
    t.is_leaf n = true ↔ ∀ c ∈ childIndices n.id, t.nodes c = none := by
  unfold BHTree.is_leaf
  rw [List.all_eq_true]
  constructor
  · intro h c hc
    have := h c hc
    rwa [Option.isNone_iff_eq_none] at this
  · intro h c hc
    rw [Option.isNone_iff_eq_none]
    exact h c hc

/-- Ancestors sit at strictly lower levels. -/
theorem ancestors_level_lt : ∀ j : ℕ, ∀ a ∈ ancestors j, level a < level j := by
  intro j
  induction j using Nat.strong_induction_on with
  | _ j ih =>
    intro a ha
    match j with
    | 0 =>
      rw [ancestors_zero] at ha
      cases ha
    | c + 1 =>
      rw [ancestors_succ] at ha
      have hlt : parentIdx (c + 1) < c + 1 := by
        unfold parentIdx
        omega
      have hlev : level (c + 1) = level (parentIdx (c + 1)) + 1 :=
        level_parentIdx (c + 1) (Nat.succ_ne_zero c)
      rcases List.mem_cons.mp ha with rfl | ha2
      · omega
      · have := ih (parentIdx (c + 1)) hlt a ha2
        omega

/-- Two stored on-path indices with the second a leaf: the first is the leaf
itself or one of its ancestors. -/
theorem present_onPath_cases (t : BHTree) (k : ℕ) (h : WF t k) (p : Point)
    (i : ℕ) (ni : Node) (hni : t.nodes i = some ni)
    (j : ℕ) (nj : Node) (hnj : t.nodes j = some nj) (hleaf : t.is_leaf nj = true)
    (hip : onPath t.space p i) (hjp : onPath t.space p j) :
    i = j ∨ i ∈ ancestors j := by
  rcases lt_trichotomy (level i) (level j) with hl | hl | hl
  · exact Or.inr (onPath_mem_ancestors t.space p j i hjp hip hl)
  · exact Or.inl (onPath_level_inj t.space p i j hip hjp hl)
  · exfalso
    have hmem : j ∈ ancestors i := onPath_mem_ancestors t.space p i j hip hjp hl
    have := ancestors_internal t k h i (by rw [hni]; rfl) j hmem nj hnj
    rw [hleaf] at this
    cases this

/-- A stored on-path index is a strict ancestor of any absent on-path index. -/
theorem absent_onPath_ancestor (t : BHTree) (k : ℕ) (h : WF t k) (p : Point)
    (m : ℕ) (hm : t.nodes m = none) (i : ℕ) (ni : Node) (hni : t.nodes i = some ni)
    (hip : onPath t.space p i) (hmp : onPath t.space p m) :
    i ∈ ancestors m := by
  rcases lt_trichotomy (level i) (level m) with hl | hl | hl
  · exact onPath_mem_ancestors t.space p m i hmp hip hl
  · exfalso
    have heq := onPath_level_inj t.space p i m hip hmp hl
    rw [heq, hm] at hni
    cases hni
  · exfalso
    have hmem : m ∈ ancestors i := onPath_mem_ancestors t.space p i m hip hmp hl
    have := ancestors_present t h.parentsW i (by rw [hni]; rfl) m hmem
    rw [hm] at this
    cases this

/-- No inserted body lies on the path of an absent child of a stored internal
node: its resident leaf would be an orphan. -/
theorem absent_child_no_body (R : Rect) (k : ℕ) (S : List Body) (t : BHTree)
    (ha : AggInv R k S t) (idx : ℕ) (n : Node) (hn : t.nodes idx = some n)
    (hleaf : t.is_leaf n = false) (j : ℕ) (hj : t.nodes j = none)
    (hpar : parentIdx j = idx) (hj0 : j ≠ 0) :
    ∀ c ∈ S, ¬ onPath R c.position j := by
  intro c hc hop
  obtain ⟨L, nL, hnL, hLleaf, hLop⟩ := ha.res c hc
  have hR : R = t.space := ha.spaceE.symm
  rw [hR] at hop hLop
  have hLanc : L ∈ ancestors j :=
    absent_onPath_ancestor t k ha.wf c.position j hj L nL hnL hLop hop
  have hidxp : onPath t.space c.position idx := by
    rw [← hpar]
    exact onPath_parent t.space c.position j hj0 hop
  rcases present_onPath_cases t k ha.wf c.position idx n hn L nL hnL hLleaf hidxp hLop with
    he | hanc
  · rw [he, hnL] at hn
    cases hn
    rw [hLleaf] at hleaf
    cases hleaf
  · have h1 : level idx < level L := ancestors_level_lt L idx hanc
    have h2 : level L < level j := ancestors_level_lt j L hLanc
    have h3 : level j = level idx + 1 := by
      rw [level_parentIdx j hj0, hpar]
    omega

/-- A stored node of unit size sits at the maximum level. -/
theorem unit_rect_level (t : BHTree) (k : ℕ) (h : WF t k) (idx : ℕ) (n : Node)
    (hn : t.nodes idx = some n) (hu : n.space.is_unit_rect = true) : level idx = k := by
  have hcell := h.cellsW idx n hn
  obtain ⟨hlev, hwn, hhn⟩ := cellOf_size t.space k h.spaceW.1 h.spaceW.2 idx n.space hcell
  unfold Rect.is_unit_rect at hu
  rw [hwn, hhn] at hu
  simp only [Bool.and_eq_true, decide_eq_true_eq] at hu
  have h2 : k - level idx = 0 := by
    by_contra hcon
    have hge : 2 ≤ 2 ^ (k - level idx) := by
      calc (2 : ℕ) = 2 ^ 1 := (pow_one 2).symm
        _ ≤ 2 ^ (k - level idx) := Nat.pow_le_pow_right (by norm_num) (by omega)
    omega
  omega

/-- On-path at level `k` determines the unit-cell index. -/
theorem onPath_cellIndexAt (R : Rect) (p : Point) (idx k : ℕ) (hl : level idx = k)
    (hop : onPath R p idx) : cellIndexAt R k p = some idx := by
  unfold onPath at hop
  unfold cellIndexAt
  rw [← hl]
  exact hop

/-- A merged aggregate over an empty node is the plain converted body. -/
theorem withBody_empty (n : Node) (b : Body) (he : n.is_empty = true) :
    (n.withBody b).body = VirtualBody.ofBody b := by
  rw [is_empty_iff] at he
  show (⟨(VirtualBody.ofBody b).mass + n.body.mass,
      (VirtualBody.ofBody b).position + n.body.position⟩ : VirtualBody) = VirtualBody.ofBody b
  rw [he]
  show (⟨(VirtualBody.ofBody b).mass + 0,
      (VirtualBody.ofBody b).position + Point.mk 0 0⟩ : VirtualBody) = VirtualBody.ofBody b
  rw [Point.add_xy]
  simp

/-- Exactly-once ancestor update over a duplicate-free index list. -/
theorem bumpAncestors_nodup (vb : VirtualBody) :
    ∀ (l : List ℕ) (t t1 : BHTree), l.Nodup → t.bumpAncestors vb l = some t1 →
      t1.space = t.space ∧
      (∀ i, i ∉ l → t1.nodes i = t.nodes i) ∧
      (∀ i, i ∈ l → ∀ n, t.nodes i = some n →
        t1.nodes i = some ⟨n.id, n.space,
          ⟨n.body.mass + vb.mass, n.body.position + vb.position⟩⟩) := by
  intro l
  induction l with
  | nil =>
    intro t t1 hnd h
    unfold BHTree.bumpAncestors at h
    cases h
    exact ⟨rfl, fun _ _ => rfl, fun i hi => absurd hi (List.not_mem_nil i)⟩
  | cons idx rest ih =>
    intro t t1 hnd h
    unfold BHTree.bumpAncestors at h
    cases hp : t.nodes idx with
    | none =>
      rw [hp] at h
      cases h
    | some parent =>
      rw [hp] at h
      have hnd2 := List.nodup_cons.mp hnd
      obtain ⟨hsp, hout, hmem⟩ := ih _ t1 hnd2.2 h
      rw [storeAt_space] at hsp
      refine ⟨hsp, ?_, ?_⟩
      · intro i hi
        rw [List.mem_cons, not_or] at hi
        rw [hout i hi.2, storeAt_nodes, if_neg hi.1]
      · intro i hi n hn
        rcases List.mem_cons.mp hi with rfl | hi2
        · rw [hout i hnd2.1, storeAt_nodes, if_pos rfl]
          rw [hp] at hn
          cases hn
          rfl
        · by_cases hieq : i = idx
          · subst hieq
            exact absurd hi2 hnd2.1
          · exact hmem i hi2 n (by rw [storeAt_nodes, if_neg hieq]; exact hn)

/-- Processing an `InsOK` insert action under the aggregation invariant, when
the inserted body's unit cell is fresh, extends the invariant to `S ++ [b]`
(the fresh cell rules out the double-counting merge branch). -/
theorem process_insert_agg (R : Rect) (k : ℕ) (S : List Body) (t : BHTree)
    (ha : AggInv R k S t) (b : Body) (hb : 0 < b.mass)
    (hbin : R.contains b.position = true)
    (hfresh : ∀ c ∈ S, cellIndexAt R k c.position ≠ cellIndexAt R k b.position)
    (m : Node) (hok : InsOK t b m) :
    ∃ t2, t.process (.insert m) = some (t2, none) ∧ AggInv R k (S ++ [b]) t2 := by
  have h := ha.wf
  have hR : R = t.space := ha.spaceE.symm
  have hbop : onPath R b.position m.id := by
    rw [hR]
    exact hok.pathW
  have hcase : (∃ old, t.nodes m.id = some old ∧ t.is_leaf old = true ∧
      m = old.withBody b ∧ old.is_empty = true) ∨
      (t.nodes m.id = none ∧ m.id ≠ 0 ∧
        (∃ pn, t.nodes (parentIdx m.id) = some pn ∧ t.is_leaf pn = false) ∧
        m = ⟨m.id, m.space, VirtualBody.ofBody b⟩) := by
    rcases hok.caseW with ⟨old, hold, holdleaf, hm, hcond⟩ | hB
    · by_cases hemp : old.is_empty = true
      · exact Or.inl ⟨old, hold, holdleaf, hm, hemp⟩
      · exfalso
        rcases hcond with he | hu
        · exact hemp he
        · have hlev : level m.id = k := unit_rect_level t k h m.id old hold hu
          have hemp2 : old.is_empty = false := by
            cases hx : old.is_empty
            · rfl
            · exact absurd hx hemp
          have hmass : 0 < old.body.mass := mass_pos_of_nonempty t k h m.id old hold hemp2
          have hpm : pathMass R S m.id ≠ 0 := by
            rw [← ha.agg m.id old hold]
            linarith
          obtain ⟨c, hc, hcop⟩ := exists_onPath_of_pathMass_ne_zero R m.id S hpm
          have h1 := onPath_cellIndexAt R c.position m.id k hlev hcop
          have h2 := onPath_cellIndexAt R b.position m.id k hlev hbop
          exact hfresh c hc (by rw [h1, h2])
    · exact Or.inr hB
  have hmbody : m.body = VirtualBody.ofBody b := by
    rcases hcase with ⟨old, hold, holdleaf, hm, hemp⟩ | ⟨hnone, h0, hpn, hm⟩
    · rw [hm]
      exact withBody_empty old b hemp
    · rw [hm]
  have hmmass : m.body.mass = b.mass := by
    rw [hmbody]
    rfl
  have hz : pathMass R S m.id = 0 := by
    rcases hcase with ⟨old, hold, holdleaf, hm, hemp⟩ | ⟨hnone, h0, ⟨pn, hpn, hpleaf⟩, hm⟩
    · rw [← ha.agg m.id old hold, (is_empty_iff old).mp hemp]
      rfl
    · exact pathMass_eq_zero R m.id S
        (absent_child_no_body R k S t ha (parentIdx m.id) pn hpn hpleaf m.id hnone rfl h0)
  have hcover : ∀ i n2, t.nodes i = some n2 → onPath R b.position i →
      i = m.id ∨ i ∈ ancestors m.id := by
    intro i n2 hn2 hop
    rw [hR] at hop
    rcases hcase with ⟨old, hold, holdleaf, hm, hemp⟩ | ⟨hnone, h0, hpn, hm⟩
    · exact present_onPath_cases t k h b.position i n2 hn2 m.id old hold holdleaf hop hok.pathW
    · exact Or.inr (absent_onPath_ancestor t k h b.position m.id hnone i n2 hn2 hop hok.pathW)
  have hanc_b : ∀ a ∈ ancestors m.id, onPath R b.position a := by
    intro a haa
    rw [hR]
    exact ancestors_onPath t.space b.position m.id hok.pathW a haa
  have habsent_anc : ∀ cc, t.nodes cc = none → cc ∉ ancestors m.id := by
    intro cc hcc hmem
    have := insOK_ancestors_present t k h b m hok cc hmem
    rw [hcc] at this
    cases this
  obtain ⟨t1, hbump⟩ := bumpAncestors_total m.body (ancestors m.id) t
    (insOK_ancestors_present t k h b m hok)
  obtain ⟨hsp1, hout1, hmem1⟩ :=
    bumpAncestors_nodup m.body (ancestors m.id) t t1 (ancestors_nodup m.id) hbump
  have hproc : t.process (.insert m) = some (t1.store m, none) := by
    simp only [BHTree.process, hbump]
  obtain ⟨t2x, hproc2, hwf2x, hdom2x, hm2x⟩ := process_insert_spec t k h b hb m hok
  rw [hproc] at hproc2
  have ht2x : t1.store m = t2x := congrArg Prod.fst (Option.some.inj hproc2)
  rw [← ht2x] at hwf2x hdom2x hm2x
  have ht2n : ∀ i, (t1.store m).nodes i = if i = m.id then some m else t1.nodes i :=
    fun _ => rfl
  have ht2sp : (t1.store m).space = R := by
    show t1.space = R
    rw [hsp1, ← hR]
  have hmleaf : (t1.store m).is_leaf m = true := by
    rw [is_leaf_iff_children_none]
    intro cc hcc
    rw [mem_childIndices] at hcc
    obtain ⟨s, hs1, hs4, rfl⟩ := hcc
    have hccne : 4 * m.id + s ≠ m.id := by omega
    have hccnone : t.nodes (4 * m.id + s) = none := by
      rcases hcase with ⟨old, hold, holdleaf, hm, hemp⟩ | ⟨hnone, h0, ⟨pn, hpn, hpleaf⟩, hm⟩
      · have holdid : old.id = m.id := h.idsW m.id old hold
        rw [is_leaf_iff_children_none] at holdleaf
        exact holdleaf (4 * m.id + s)
          (by rw [holdid, mem_childIndices]; exact ⟨s, hs1, hs4, rfl⟩)
      · cases hx : t.nodes (4 * m.id + s) with
        | none => rfl
        | some mm =>
          have := h.parentsW (4 * m.id + s) mm hx (by omega)
          rw [parentIdx_child m.id s hs1 hs4, hnone] at this
          cases this
    rw [ht2n, if_neg hccne, hout1 _ (habsent_anc _ hccnone)]
    exact hccnone
  refine ⟨t1.store m, hproc, hwf2x, ht2sp, ?_, ?_, ?_, ?_, ?_⟩
  · intro c hc
    rcases List.mem_append.mp hc with h1 | h1
    · exact ha.posB c h1
    · rw [List.mem_singleton.mp h1]
      exact hb
  · intro c hc
    rcases List.mem_append.mp hc with h1 | h1
    · exact ha.inbB c h1
    · rw [List.mem_singleton.mp h1]
      exact hbin
  · -- agg
    intro i n2 hn2
    rw [ht2n] at hn2
    rw [pathMass_append]
    by_cases hieq : i = m.id
    · subst hieq
      rw [if_pos rfl] at hn2
      cases hn2
      rw [hz, hmmass, if_pos hbop]
      ring
    · rw [if_neg hieq] at hn2
      by_cases hia : i ∈ ancestors m.id
      · obtain ⟨n0, hn0⟩ :=
          Option.isSome_iff_exists.mp (insOK_ancestors_present t k h b m hok i hia)
        have hbmp := hmem1 i hia n0 hn0
        rw [hbmp] at hn2
        cases hn2
        show n0.body.mass + m.body.mass =
          pathMass R S i + (if onPath R b.position i then b.mass else 0)
        rw [ha.agg i n0 hn0, hmmass, if_pos (hanc_b i hia)]
      · rw [hout1 i hia] at hn2
        have hnop : ¬ onPath R b.position i := by
          intro hop
          rcases hcover i n2 hn2 hop with he | hmem
          · exact hieq he
          · exact hia hmem
        rw [if_neg hnop, ha.agg i n2 hn2]
        ring
  · -- leafB
    intro i n2 hn2 hlf c hc hop
    rw [ht2n] at hn2
    by_cases hieq : i = m.id
    · subst hieq
      rw [if_pos rfl] at hn2
      cases hn2
      rcases List.mem_append.mp hc with h1 | h1
      · exfalso
        have hle := pathMass_lower R m.id S (fun c2 hc2 => le_of_lt (ha.posB c2 hc2)) c h1 hop
        have := ha.posB c h1
        rw [hz] at hle
        linarith
      · rw [List.mem_singleton.mp h1]
        rw [hmbody]
    · rw [if_neg hieq] at hn2
      by_cases hia : i ∈ ancestors m.id
      · exfalso
        obtain ⟨n0, hn0⟩ :=
          Option.isSome_iff_exists.mp (insOK_ancestors_present t k h b m hok i hia)
        have hbmp := hmem1 i hia n0 hn0
        rw [hbmp] at hn2
        cases hn2
        have hint := insOK_ancestors_internal t k h b m hok i hia n0 hn0
        have hint2 : (t1.store m).is_leaf n0 = false :=
          is_leaf_false_mono t (t1.store m) hdom2x n0 hint
        have hcongr := is_leaf_id_congr (t1.store m)
          (⟨n0.id, n0.space,
            ⟨n0.body.mass + m.body.mass, n0.body.position + m.body.position⟩⟩ : Node) n0 rfl
        rw [hcongr, hint2] at hlf
        cases hlf
      · rw [hout1 i hia] at hn2
        have hlf_t : t.is_leaf n2 = true := is_leaf_of_mono t (t1.store m) hdom2x n2 hlf
        rcases List.mem_append.mp hc with h1 | h1
        · exact ha.leafB i n2 hn2 hlf_t c h1 hop
        · exfalso
          rw [List.mem_singleton.mp h1] at hop
          rcases hcover i n2 hn2 hop with he | hmem
          · exact hieq he
          · exact hia hmem
  · -- res
    intro c hc
    rcases List.mem_append.mp hc with h1 | h1
    · obtain ⟨L, nL, hnL, hLl, hLop⟩ := ha.res c h1
      have hLm : L ≠ m.id := by
        intro he
        rw [he] at hLop
        have hle := pathMass_lower R m.id S (fun c2 hc2 => le_of_lt (ha.posB c2 hc2)) c h1 hLop
        have := ha.posB c h1
        rw [hz] at hle
        linarith
      have hLanc : L ∉ ancestors m.id := by
        intro hmem
        have := insOK_ancestors_internal t k h b m hok L hmem nL hnL
        rw [hLl] at this
        cases this
      have hnLid : nL.id = L := h.idsW L nL hnL
      refine ⟨L, nL, ?_, ?_, hLop⟩
      · rw [ht2n, if_neg hLm, hout1 L hLanc]
        exact hnL
      · rw [is_leaf_iff_children_none]
        intro cc hcc
        have hccnone : t.nodes cc = none := (is_leaf_iff_children_none t nL).mp hLl cc hcc
        have hccm : cc ≠ m.id := by
          intro he
          rcases hcase with ⟨old, hold, -, -, -⟩ | ⟨-, -, ⟨pn, hpn, hpleaf⟩, -⟩
          · rw [he, hold] at hccnone
            cases hccnone
          · rw [mem_childIndices, hnLid] at hcc
            obtain ⟨s, hs1, hs4, hcc4⟩ := hcc
            have hpar : parentIdx m.id = L := by
              rw [← he, hcc4]
              exact parentIdx_child L s hs1 hs4
            rw [hpar, hnL] at hpn
            cases hpn
            rw [hLl] at hpleaf
            cases hpleaf
        rw [ht2n, if_neg hccm, hout1 cc (habsent_anc cc hccnone)]
        exact hccnone
    · rw [List.mem_singleton.mp h1]
      exact ⟨m.id, m, by rw [ht2n, if_pos rfl], hmleaf, hbop⟩

/-- Internalizing an occupied non-unit leaf preserves the aggregation
invariant: the occupant aggregate moves into the child on its own path. -/
theorem internalize_agg (R : Rect) (k : ℕ) (S : List Body) (t : BHTree)
    (ha : AggInv R k S t) (b : Body) (id : ℕ) (hok : IntOK t b id) :
    ∃ t1, t.internalize id = some t1 ∧ AggInv R k S t1 ∧
      (∃ ln1, t1.nodes id = some ln1 ∧ t1.is_leaf ln1 = false ∧
        ln1.space.contains b.position = true) ∧
      t1.space = t.space := by
  have hR : R = t.space := ha.spaceE.symm
  obtain ⟨t1, hint, hwf1, hdom1, hln1ex, hsp1, ln, q, hln, hq, ht1n⟩ :=
    internalize_spec t k ha.wf b id hok
  obtain ⟨ln0, hln0, hlf0, hne0, hnu0, hcont0⟩ := hok.nodeW
  rw [hln] at hln0
  cases hln0
  have hlnid : ln.id = id := ha.wf.idsW id ln hln
  have hcne : childIdx id q ≠ id := by
    obtain ⟨h1, h4⟩ := quadSlot_bounds q
    unfold childIdx
    omega
  have hcnone : t.nodes (childIdx id q) = none :=
    (is_leaf_iff_children_none t ln).mp hlf0 (childIdx id q)
      (by rw [hlnid]; exact childIdx_mem_childIndices id q)
  have hiff : ∀ c ∈ S, (onPath R c.position id ↔ onPath R c.position (childIdx id q)) := by
    intro c hc
    constructor
    · intro hop
      have hcm : c.mass ≠ 0 := ne_of_gt (ha.posB c hc)
      have hbody : ln.body = VirtualBody.ofBody c := ha.leafB id ln hln hlf0 c hc hop
      have hcpos : ln.body.centered.position = c.position := by
        rw [hbody, centered_ofBody c hcm]
      have hq2 : ln.space.quadrant c.position = some (.found q) := by
        rw [← hcpos]
        exact hq
      have hps : pathAt t.space c.position (level id) = some (id, ln.space) :=
        onPath_node_space t k ha.wf c.position id ln hln (by rw [← hR]; exact hop)
      unfold onPath
      rw [hR, level_childIdx, pathAt_succ, hps]
      simp only [hq2, Option.map_some']
    · intro hop
      have h1 : onPath R c.position (parentIdx (childIdx id q)) :=
        onPath_parent R c.position (childIdx id q) (childIdx_pos id q) hop
      rwa [parentIdx_childIdx] at h1
  refine ⟨t1, hint, ?_, hln1ex, hsp1⟩
  refine ⟨hwf1, by rw [hsp1, ← hR], ha.posB, ha.inbB, ?_, ?_, ?_⟩
  · -- agg
    intro i n2 hn2
    rw [ht1n] at hn2
    by_cases hic : i = childIdx id q
    · subst hic
      rw [if_pos rfl] at hn2
      cases hn2
      show ln.body.mass = pathMass R S (childIdx id q)
      rw [ha.agg id ln hln]
      exact pathMass_congr R id (childIdx id q) S hiff
    · rw [if_neg hic] at hn2
      exact ha.agg i n2 hn2
  · -- leafB
    intro i n2 hn2 hlf c hc hop
    rw [ht1n] at hn2
    by_cases hic : i = childIdx id q
    · subst hic
      rw [if_pos rfl] at hn2
      cases hn2
      show ln.body = VirtualBody.ofBody c
      exact ha.leafB id ln hln hlf0 c hc ((hiff c hc).mpr hop)
    · rw [if_neg hic] at hn2
      by_cases hid : i = id
      · exfalso
        obtain ⟨ln1, hln1, hlf1, hcont1⟩ := hln1ex
        subst hid
        rw [hln] at hn2
        cases hn2
        have h2 : t1.nodes i = some ln := by
          rw [ht1n, if_neg hic]
          exact hln
        rw [h2] at hln1
        cases hln1
        rw [hlf] at hlf1
        cases hlf1
      · have hlf_t : t.is_leaf n2 = true := is_leaf_of_mono t t1 hdom1 n2 hlf
        exact ha.leafB i n2 hn2 hlf_t c hc hop
  · -- res
    intro c hc
    obtain ⟨L, nL, hnL, hLl, hLop⟩ := ha.res c hc
    by_cases hLid : L = id
    · subst hLid
      rw [hnL] at hln
      cases hln
      refine ⟨childIdx L q, ⟨childIdx L q, q.space, ln.body⟩, ?_, ?_, ?_⟩
      · rw [ht1n, if_pos rfl]
      · rw [is_leaf_iff_children_none]
        intro cc hcc
        have hcc2 : cc ∈ childIndices (childIdx L q) := hcc
        rw [mem_childIndices] at hcc2
        obtain ⟨s, hs1, hs4, rfl⟩ := hcc2
        have hccne : 4 * childIdx L q + s ≠ childIdx L q := by omega
        have hccnone : t.nodes (4 * childIdx L q + s) = none := by
          cases hx : t.nodes (4 * childIdx L q + s) with
          | none => rfl
          | some mm =>
            have hp := ha.wf.parentsW (4 * childIdx L q + s) mm hx (by omega)
            rw [parentIdx_child (childIdx L q) s hs1 hs4, hcnone] at hp
            cases hp
        rw [ht1n, if_neg hccne]
        exact hccnone
      · exact (hiff c hc).mp hLop
    · have hLc : L ≠ childIdx id q := by
        intro he
        rw [he, hcnone] at hnL
        cases hnL
      refine ⟨L, nL, ?_, ?_, hLop⟩
      · rw [ht1n, if_neg hLc]
        exact hnL
      · rw [is_leaf_iff_children_none]
        intro cc hcc
        have hccnone : t.nodes cc = none := (is_leaf_iff_children_none t nL).mp hLl cc hcc
        have hccc : cc ≠ childIdx id q := by
          intro he
          rw [mem_childIndices] at hcc
          obtain ⟨s, hs1, hs4, hcc4⟩ := hcc
          have hnLid : nL.id = L := ha.wf.idsW L nL hnL
          have hpar : parentIdx (childIdx id q) = L := by
            rw [← he, hcc4, hnLid]
            exact parentIdx_child L s hs1 hs4
          rw [parentIdx_childIdx] at hpar
          exact hLid hpar.symm
        rw [ht1n, if_neg hccc]
        exact hccnone

/-- The insertion loop preserves the aggregation invariant, extending it with
the inserted body. -/
theorem insertLoop_agg (R : Rect) (k : ℕ) (S : List Body) (b : Body)
    (hb : 0 < b.mass) (hbin : R.contains b.position = true)
    (hfresh : ∀ c ∈ S, cellIndexAt R k c.position ≠ cellIndexAt R k b.position) :
    ∀ (fuel : ℕ) (t : BHTree) (idx : ℕ) (n : Node),
      AggInv R k S t → t.nodes idx = some n → n.space.contains b.position = true →
      onPath t.space b.position idx →
      insMeasure t k ⟨idx, b⟩ + k + 2 ≤ fuel →
      ∃ t2, t.insertLoop fuel ⟨idx, b⟩ = some t2 ∧ AggInv R k (S ++ [b]) t2 := by
  intro fuel
  induction fuel with
  | zero =>
    intro t idx n ha hn hcont hop hfuel
    omega
  | succ fuel ih =>
    intro t idx n ha hn hcont hop hfuel
    have hw := ha.wf
    have hlidx : level idx ≤ k := hw.levelW idx n hn
    have hmeq := insMeasure_eq t k idx b n hn
    rcases action_spec k t hw b (fuel + 1) idx n hn hcont hop (by omega) with
      ⟨m, hact, hok⟩ | ⟨id, hact, hok, hle, hlt⟩
    · obtain ⟨t2, hproc, hagg2⟩ := process_insert_agg R k S t ha b hb hbin hfresh m hok
      refine ⟨t2, ?_, hagg2⟩
      simp only [BHTree.insertLoop, hn, hact, hproc]
    · obtain ⟨t1, hint, hagg1, ⟨ln1, hln1, hleaf1, hcont1⟩, hsp1⟩ :=
        internalize_agg R k S t ha b id hok
      have hproc : t.process (.internalize id ⟨id, b⟩) = some (t1, some ⟨id, b⟩) := by
        simp only [BHTree.process, hint]
      obtain ⟨lnt, hlnt, -, -, -, -⟩ := hok.nodeW
      have hlid : level id ≤ k := hw.levelW id lnt hlnt
      have hmeq1 : insMeasure t1 k ⟨id, b⟩ = 2 * (k - level id) := by
        rw [insMeasure_eq t1 k id b ln1 hln1, hleaf1]
        simp
      have hmeas1 : insMeasure t1 k ⟨id, b⟩ + k + 2 ≤ fuel := by
        rw [hmeq1]
        cases hnl : t.is_leaf n with
        | true =>
          rw [hnl] at hmeq
          simp only [if_true] at hmeq
          omega
        | false =>
          rw [hnl] at hmeq
          simp only [Bool.false_eq_true, if_false] at hmeq
          have := hlt hnl
          omega
      have hop1 : onPath t1.space b.position id := by
        rw [hsp1]
        exact hok.pathIW
      obtain ⟨t2, hrec, hagg2⟩ := ih t1 id ln1 hagg1 hln1 hcont1 hop1 hmeas1
      refine ⟨t2, ?_, hagg2⟩
      simp only [BHTree.insertLoop, hn, hact, hproc]
      exact hrec

/-- One `add` call under the aggregation invariant. -/
theorem add_agg (R : Rect) (k : ℕ) (S : List Body) (t : BHTree) (ha : AggInv R k S t)
    (b : Body) (hb : 0 < b.mass) (hbin : R.contains b.position = true)
    (hfresh : ∀ c ∈ S, cellIndexAt R k c.position ≠ cellIndexAt R k b.position) :
    ∃ t2, t.add (3 * k + 5) b = some t2 ∧ AggInv R k (S ++ [b]) t2 := by
  unfold BHTree.add
  cases hc : t.space.contains b.position with
  | false =>
    rw [ha.spaceE] at hc
    rw [hbin] at hc
    cases hc
  | true =>
    simp only [if_true]
    obtain ⟨n0, hn0, hn0s⟩ := ha.wf.rootW
    have hcont : n0.space.contains b.position = true := by
      rw [hn0s, ha.spaceE]
      exact hbin
    have hmeas : insMeasure t k ⟨0, b⟩ + k + 2 ≤ 3 * k + 5 := by
      rw [insMeasure_eq t k 0 b n0 hn0, level_zero]
      cases t.is_leaf n0 <;> simp <;> omega
    exact insertLoop_agg R k S b hb hbin hfresh (3 * k + 5) t 0 n0 ha hn0 hcont
      (onPath_zero t.space b.position) hmeas

/-- A whole build run under the aggregation invariant. -/
theorem addAll_agg (R : Rect) (k : ℕ) :
    ∀ (S2 S1 : List Body) (t : BHTree), AggInv R k S1 t →
      (∀ c ∈ S2, 0 < c.mass) → (∀ c ∈ S2, R.contains c.position = true) →
      distinctCells R k (S1 ++ S2) = true →
      ∃ t2, t.addAll (3 * k + 5) S2 = some t2 ∧ AggInv R k (S1 ++ S2) t2 := by
  intro S2
  induction S2 with
  | nil =>
    intro S1 t ha hpos hin hdist
    refine ⟨t, rfl, ?_⟩
    rw [List.append_nil]
    exact ha
  | cons b rest ih =>
    intro S1 t ha hpos hin hdist
    have hfresh : ∀ c ∈ S1, cellIndexAt R k c.position ≠ cellIndexAt R k b.position :=
      distinctCells_head R k S1 b rest hdist
    obtain ⟨t1, hadd, hagg1⟩ := add_agg R k S1 t ha b
      (hpos b (List.mem_cons_self b rest)) (hin b (List.mem_cons_self b rest)) hfresh
    have hEq : S1 ++ b :: rest = (S1 ++ [b]) ++ rest := by
      rw [List.append_assoc, List.singleton_append]
    have hdist2 : distinctCells R k ((S1 ++ [b]) ++ rest) = true := by
      rw [← hEq]
      exact hdist
    obtain ⟨t2, hrest, hagg2⟩ := ih (S1 ++ [b]) t1 hagg1
      (fun c hc => hpos c (List.mem_cons_of_mem b hc))
      (fun c hc => hin c (List.mem_cons_of_mem b hc)) hdist2
    refine ⟨t2, ?_, ?_⟩
    · unfold BHTree.addAll
      rw [hadd]
      exact hrest
    · rw [hEq]
      exact hagg2

/-- Over a `2^k` root, a contained point on the path of a non-bottom index is
on the path of exactly one of the four child indices. -/
theorem onPath_child_unique (R : Rect) (k : ℕ) (hw : R.size.width = 2 ^ k)
    (hh : R.size.height = 2 ^ k) (p : Point) (hp : R.contains p = true)
    (idx : ℕ) (hop : onPath R p idx) (hlt : level idx < k) :
    ∃ s0, 1 ≤ s0 ∧ s0 ≤ 4 ∧ onPath R p (4 * idx + s0) ∧
      ∀ s, 1 ≤ s → s ≤ 4 → s ≠ s0 → ¬ onPath R p (4 * idx + s) := by
  unfold onPath at hop
  cases hpath : pathAt R p (level idx) with
  | none =>
    rw [hpath] at hop
    cases hop
  | some pr =>
    obtain ⟨i2, r⟩ := pr
    rw [hpath] at hop
    simp only [Option.map_some', Option.some.injEq] at hop
    cases hop
    obtain ⟨hc, -⟩ := pathAt_cell R p (level idx) idx r hpath
    obtain ⟨-, hwr, hhr⟩ := cellOf_size R k hw hh idx r hc
    have hrcont : r.contains p = true := by
      match hlv : level idx, hpath with
      | 0, hpath =>
        rw [pathAt_zero] at hpath
        cases hpath
        exact hp
      | j + 1, hpath => exact pathAt_contains R p j idx r hpath
    have hge : 1 ≤ k - level idx := by omega
    obtain ⟨q, hq⟩ := quadrant_total r (k - level idx) hwr hhr hge p hrcont
    have hnext : pathAt R p (level idx + 1) = some (childIdx idx q, q.space) := by
      rw [pathAt_succ, hpath]
      simp only [hq]
    obtain ⟨hs1, hs4⟩ := quadSlot_bounds q
    refine ⟨quadSlot q, hs1, hs4, ?_, ?_⟩
    · unfold onPath
      rw [level_child idx (quadSlot q) hs1 hs4, hnext]
      rfl
    · intro s hs1s hs4s hne hops
      unfold onPath at hops
      rw [level_child idx s hs1s hs4s, hnext] at hops
      simp only [Option.map_some', Option.some.injEq] at hops
      unfold childIdx at hops
      omega

/-- Splitting a path-membership contribution over the four children. -/
theorem onPath_ite_split (R : Rect) (k : ℕ) (hw : R.size.width = 2 ^ k)
    (hh : R.size.height = 2 ^ k) (p : Point) (hp : R.contains p = true)
    (idx : ℕ) (hlt : level idx < k) (x : ℚ) :
    (if onPath R p idx then x else 0) =
      (if onPath R p (4 * idx + 1) then x else 0) +
      (if onPath R p (4 * idx + 2) then x else 0) +
      (if onPath R p (4 * idx + 3) then x else 0) +
      (if onPath R p (4 * idx + 4) then x else 0) := by
  by_cases hop : onPath R p idx
  · obtain ⟨s0, hs1, hs4, hops0, huniq⟩ := onPath_child_unique R k hw hh p hp idx hop hlt
    rw [if_pos hop]
    have hcases : s0 = 1 ∨ s0 = 2 ∨ s0 = 3 ∨ s0 = 4 := by omega
    rcases hcases with rfl | rfl | rfl | rfl
    · rw [if_pos hops0, if_neg (huniq 2 (by norm_num) (by norm_num) (by norm_num)),
        if_neg (huniq 3 (by norm_num) (by norm_num) (by norm_num)),
        if_neg (huniq 4 (by norm_num) (by norm_num) (by norm_num))]
      ring
    · rw [if_pos hops0, if_neg (huniq 1 (by norm_num) (by norm_num) (by norm_num)),
        if_neg (huniq 3 (by norm_num) (by norm_num) (by norm_num)),
        if_neg (huniq 4 (by norm_num) (by norm_num) (by norm_num))]
      ring
    · rw [if_pos hops0, if_neg (huniq 1 (by norm_num) (by norm_num) (by norm_num)),
        if_neg (huniq 2 (by norm_num) (by norm_num) (by norm_num)),
        if_neg (huniq 4 (by norm_num) (by norm_num) (by norm_num))]
      ring
    · rw [if_pos hops0, if_neg (huniq 1 (by norm_num) (by norm_num) (by norm_num)),
        if_neg (huniq 2 (by norm_num) (by norm_num) (by norm_num)),
        if_neg (huniq 3 (by norm_num) (by norm_num) (by norm_num))]
      ring
  · have hchild : ∀ s, 1 ≤ s → s ≤ 4 → ¬ onPath R p (4 * idx + s) := by
      intro s a bb hops
      apply hop
      have h1 := onPath_parent R p (4 * idx + s) (by omega) hops
      rwa [parentIdx_child idx s a bb] at h1
    rw [if_neg hop, if_neg (hchild 1 (by norm_num) (by norm_num)),
      if_neg (hchild 2 (by norm_num) (by norm_num)),
      if_neg (hchild 3 (by norm_num) (by norm_num)),
      if_neg (hchild 4 (by norm_num) (by norm_num))]
    ring

/-- The subtree mass splits over the four children. -/
theorem pathMass_children (R : Rect) (k : ℕ) (hw : R.size.width = 2 ^ k)
    (hh : R.size.height = 2 ^ k) (idx : ℕ) (hlt : level idx < k) :
    ∀ S : List Body, (∀ c ∈ S, R.contains c.position = true) →
      pathMass R S idx = pathMass R S (4 * idx + 1) + pathMass R S (4 * idx + 2) +
        pathMass R S (4 * idx + 3) + pathMass R S (4 * idx + 4) := by
  intro S
  induction S with
  | nil =>
    intro _
    simp [pathMass_nil]
  | cons c rest ih =>
    intro hin
    rw [pathMass_cons, pathMass_cons, pathMass_cons, pathMass_cons, pathMass_cons]
    rw [ih (fun c2 hc2 => hin c2 (List.mem_cons_of_mem c hc2))]
    rw [onPath_ite_split R k hw hh c.position (hin c (List.mem_cons_self c rest)) idx hlt
      c.mass]
    ring

theorem massSum_append (l1 l2 : List VirtualBody) :
    massSum (l1 ++ l2) = massSum l1 + massSum l2 := by
  unfold massSum
  rw [List.map_append, List.sum_append]

/-- The traversal of `virtual_bodies` over a tree satisfying the aggregation
invariant, when the pruning condition fails along the query's path (internal
nodes) and holds at every other leaf: the emitted masses are the subtree
masses of a list of indices, the total is the subtree mass minus the query's
contribution, and every other body is covered exactly once. -/
theorem visitAux_spec (R : Rect) (k : ℕ) (S : List Body) (t : BHTree) (q : Body)
    (ha : AggInv R k S t) (hq : q ∈ S) (hdist : distinctCells R k S = true)
    (hchk : checkTraversal t R q.position (4 ^ (k + 1)) = true) :
    ∀ (fuel idx : ℕ) (n : Node), t.nodes idx = some n → k + 1 ≤ level idx + fuel →
      ∃ E : List ℕ,
        (t.visitAux q fuel idx).map VirtualBody.mass = E.map (pathMass R S) ∧
        massSum (t.visitAux q fuel idx) =
          pathMass R S idx - (if onPath R q.position idx then q.mass else 0) ∧
        (∀ c ∈ S, c ≠ q → onPath R c.position idx →
          (E.countP fun e => decide (onPath R c.position e)) = 1) ∧
        (∀ p : Point, ¬ onPath R p idx →
          (E.countP fun e => decide (onPath R p e)) = 0) := by
  have hR : R = t.space := ha.spaceE.symm
  have hw : R.size.width = 2 ^ k := by
    rw [hR]
    exact ha.wf.spaceW.1
  have hh : R.size.height = 2 ^ k := by
    rw [hR]
    exact ha.wf.spaceW.2
  intro fuel
  induction fuel with
  | zero =>
    intro idx n hn hfuel
    have := ha.wf.levelW idx n hn
    omega
  | succ fuel ih =>
    intro idx n hn hfuel
    have hidxlt : idx < 4 ^ (k + 1) := idx_lt_of_level_le idx k (ha.wf.levelW idx n hn)
    have hchk2 := checkTraversal_spec t R q.position (4 ^ (k + 1)) hchk idx hidxlt n hn
    cases hfar : farCondition q.position n with
    | true =>
      have hnq : ¬ onPath R q.position idx := by
        intro hopq
        cases hlf : t.is_leaf n with
        | false =>
          have h2 := hchk2.2 hlf hopq
          rw [hfar] at h2
          cases h2
        | true =>
          have hbody : n.body = VirtualBody.ofBody q := ha.leafB idx n hn hlf q hq hopq
          have hqm : q.mass ≠ 0 := ne_of_gt (ha.posB q hq)
          have hcpos : n.body.centered.position = q.position := by
            rw [hbody, centered_ofBody q hqm]
          simp only [farCondition] at hfar
          rw [hcpos] at hfar
          have hzero : (q.position.x - q.position.x) ^ 2 +
              (q.position.y - q.position.y) ^ 2 = (0 : ℚ) := by
            ring
          rw [hzero] at hfar
          simp at hfar
      have hout : t.visitAux q (fuel + 1) idx = [n.body.centered] := by
        simp only [BHTree.visitAux, hn, hfar, if_true]
      refine ⟨[idx], ?_, ?_, ?_, ?_⟩
      · rw [hout]
        simp only [List.map_cons, List.map_nil]
        rw [show n.body.centered.mass = n.body.mass from rfl, ha.agg idx n hn]
      · rw [hout]
        show n.body.centered.mass + 0 = _
        rw [show n.body.centered.mass = n.body.mass from rfl, ha.agg idx n hn, if_neg hnq]
        ring
      · intro c hc hcq hopc
        rw [List.countP_cons, List.countP_nil]
        simp [hopc]
      · intro p hnp
        rw [List.countP_cons, List.countP_nil]
        simp [hnp]
    | false =>
      cases hlf : t.is_leaf n with
      | true =>
        by_cases hopq : onPath R q.position idx
        case neg =>
          have h2 := hchk2.1 hlf hopq
          rw [hfar] at h2
          cases h2
        case pos =>
        have hbody : n.body = VirtualBody.ofBody q := ha.leafB idx n hn hlf q hq hopq
        have hout : t.visitAux q (fuel + 1) idx = leafEmit q n := by
          simp only [BHTree.visitAux, hn, hfar, hlf, Bool.false_eq_true, if_false, if_true]
        have hemit : leafEmit q n = [] := by
          unfold leafEmit
          rw [hbody]
          simp [VirtualBody.ofBody]
        have hpm : pathMass R S idx = q.mass := by
          rw [← ha.agg idx n hn, hbody]
          rfl
        refine ⟨[], ?_, ?_, ?_, ?_⟩
        · rw [hout, hemit]
          rfl
        · rw [hout, hemit]
          show (0 : ℚ) = _
          rw [if_pos hopq, hpm]
          ring
        · intro c hc hcq hopc
          exfalso
          have hbody2 : n.body = VirtualBody.ofBody c := ha.leafB idx n hn hlf c hc hopc
          have hqm : q.mass ≠ 0 := ne_of_gt (ha.posB q hq)
          have heq : VirtualBody.ofBody c = VirtualBody.ofBody q := by
            rw [← hbody2, hbody]
          have hmass_eq : c.mass = q.mass := congrArg VirtualBody.mass heq
          have hposw : c.position.mulScalar c.mass = q.position.mulScalar q.mass :=
            congrArg VirtualBody.position heq
          have hpos_eq : c.position = q.position := by
            rw [hmass_eq] at hposw
            simp only [Point.mulScalar, Point.mk.injEq] at hposw
            obtain ⟨hx, hy⟩ := hposw
            have hx2 := mul_right_cancel₀ hqm hx
            have hy2 := mul_right_cancel₀ hqm hy
            have h1 : c.position = ⟨c.position.x, c.position.y⟩ := rfl
            have h2 : q.position = ⟨q.position.x, q.position.y⟩ := rfl
            rw [h1, h2, hx2, hy2]
          exact distinctCells_pairwise R k S hdist c hc q hq hcq (by rw [hpos_eq])
        · intro p hnp
          rfl
      | false =>
        have hlevlt : level idx < k := internal_level_lt t k ha.wf idx n hn hlf
        have hout : t.visitAux q (fuel + 1) idx =
            t.visitAux q fuel (4 * idx + 1) ++ t.visitAux q fuel (4 * idx + 2) ++
              t.visitAux q fuel (4 * idx + 3) ++ t.visitAux q fuel (4 * idx + 4) := by
          simp only [BHTree.visitAux, hn, hfar, hlf, Bool.false_eq_true, if_false]
        have hsub : ∀ s, 1 ≤ s → s ≤ 4 →
            ∃ E : List ℕ,
              (t.visitAux q fuel (4 * idx + s)).map VirtualBody.mass =
                E.map (pathMass R S) ∧
              massSum (t.visitAux q fuel (4 * idx + s)) =
                pathMass R S (4 * idx + s) -
                  (if onPath R q.position (4 * idx + s) then q.mass else 0) ∧
              (∀ c ∈ S, c ≠ q → onPath R c.position (4 * idx + s) →
                (E.countP fun e => decide (onPath R c.position e)) = 1) ∧
              (∀ p : Point, ¬ onPath R p (4 * idx + s) →
                (E.countP fun e => decide (onPath R p e)) = 0) := by
          intro s hs1 hs4
          cases hcs : t.nodes (4 * idx + s) with
          | some child =>
            have hflev : k + 1 ≤ level (4 * idx + s) + fuel := by
              rw [level_child idx s hs1 hs4]
              omega
            exact ih (4 * idx + s) child hcs hflev
          | none =>
            have hnob : ∀ c ∈ S, ¬ onPath R c.position (4 * idx + s) :=
              absent_child_no_body R k S t ha idx n hn hlf (4 * idx + s) hcs
                (parentIdx_child idx s hs1 hs4) (by omega)
            have hvempty : t.visitAux q fuel (4 * idx + s) = [] := by
              cases fuel with
              | zero => rfl
              | succ f => simp only [BHTree.visitAux, hcs]
            refine ⟨[], ?_, ?_, ?_, ?_⟩
            · rw [hvempty]
              rfl
            · rw [hvempty]
              rw [pathMass_eq_zero R (4 * idx + s) S hnob, if_neg (hnob q hq)]
              show (0 : ℚ) = 0 - 0
              ring
            · intro c hc hcq hopc
              exact absurd hopc (hnob c hc)
            · intro p hnp
              rfl
        obtain ⟨E1, ha1, hb1, hc1, hd1⟩ := hsub 1 (by norm_num) (by norm_num)
        obtain ⟨E2, ha2, hb2, hc2, hd2⟩ := hsub 2 (by norm_num) (by norm_num)
        obtain ⟨E3, ha3, hb3, hc3, hd3⟩ := hsub 3 (by norm_num) (by norm_num)
        obtain ⟨E4, ha4, hb4, hc4, hd4⟩ := hsub 4 (by norm_num) (by norm_num)
        have hq_in : R.contains q.position = true := ha.inbB q hq
        have hsplit_q : (if onPath R q.position idx then q.mass else 0) =
            (if onPath R q.position (4 * idx + 1) then q.mass else 0) +
            (if onPath R q.position (4 * idx + 2) then q.mass else 0) +
            (if onPath R q.position (4 * idx + 3) then q.mass else 0) +
            (if onPath R q.position (4 * idx + 4) then q.mass else 0) :=
          onPath_ite_split R k hw hh q.position hq_in idx hlevlt q.mass
        have hpm_split : pathMass R S idx =
            pathMass R S (4 * idx + 1) + pathMass R S (4 * idx + 2) +
            pathMass R S (4 * idx + 3) + pathMass R S (4 * idx + 4) :=
          pathMass_children R k hw hh idx hlevlt S ha.inbB
        refine ⟨E1 ++ E2 ++ E3 ++ E4, ?_, ?_, ?_, ?_⟩
        · rw [hout]
          rw [List.map_append, List.map_append, List.map_append, List.map_append,
            List.map_append, List.map_append]
          rw [ha1, ha2, ha3, ha4]
        · rw [hout, massSum_append, massSum_append, massSum_append, hb1, hb2, hb3, hb4,
            hpm_split, hsplit_q]
          ring
        · intro c hc hcq hopc
          have hcin : R.contains c.position = true := ha.inbB c hc
          obtain ⟨s0, hs1, hs4, hops0, huniq⟩ :=
            onPath_child_unique R k hw hh c.position hcin idx hopc hlevlt
          have hcount : ∀ s, 1 ≤ s → s ≤ 4 → ∀ E : List ℕ,
              (∀ c2 ∈ S, c2 ≠ q → onPath R c2.position (4 * idx + s) →
                (E.countP fun e => decide (onPath R c2.position e)) = 1) →
              (∀ p : Point, ¬ onPath R p (4 * idx + s) →
                (E.countP fun e => decide (onPath R p e)) = 0) →
              (E.countP fun e => decide (onPath R c.position e)) =
                if s = s0 then 1 else 0 := by
            intro s hs1s hs4s E hcov hzero
            by_cases hss : s = s0
            · subst hss
              rw [if_pos rfl]
              exact hcov c hc hcq hops0
            · rw [if_neg hss]
              exact hzero c.position (huniq s hs1s hs4s hss)
          rw [List.countP_append, List.countP_append, List.countP_append,
            hcount 1 (by norm_num) (by norm_num) E1 hc1 hd1,
            hcount 2 (by norm_num) (by norm_num) E2 hc2 hd2,
            hcount 3 (by norm_num) (by norm_num) E3 hc3 hd3,
            hcount 4 (by norm_num) (by norm_num) E4 hc4 hd4]
          have hcases : s0 = 1 ∨ s0 = 2 ∨ s0 = 3 ∨ s0 = 4 := by omega
          rcases hcases with rfl | rfl | rfl | rfl <;> norm_num
        · intro p hnp
          have hnps : ∀ s, 1 ≤ s → s ≤ 4 → ¬ onPath R p (4 * idx + s) := by
            intro s a bb hops
            apply hnp
            have h1 := onPath_parent R p (4 * idx + s) (by omega) hops
            rwa [parentIdx_child idx s a bb] at h1
          rw [List.countP_append, List.countP_append, List.countP_append,
            hd1 p (hnps 1 (by norm_num) (by norm_num)),
            hd2 p (hnps 2 (by norm_num) (by norm_num)),
            hd3 p (hnps 3 (by norm_num) (by norm_num)),
            hd4 p (hnps 4 (by norm_num) (by norm_num))]

/-- C2 (amended): build a tree over a `2^k` root square by `new` followed by
`add` of every body of `S` (fuel `3k+5`); assume the bodies are in bounds
with positive mass and pairwise-distinct unit cells, the query `q` is one of
them, and the pruning ratio behaves as the claim presumes (`checkTraversal`:
no internal node on the query's path is pruned, every stored leaf off the
query's path is pruned).  Then the masses returned by `virtual_bodies q`
(any traversal fuel ≥ k+1) sum to the total inserted mass minus `q.mass`,
and the returned virtual bodies are the subtree aggregates of a list of
indices `E` that covers every other inserted body exactly once.  Without the
`checkTraversal` hypothesis the sum claim is false: the code prunes at nodes
whose subtree contains the query without removing the query's contribution,
and subtracts the query's mass at every visited leaf. -/
theorem c2_virtual_bodies_sum_amended (x y : ℚ) (k : ℕ) (S : List Body) (q : Body)
    (t : BHTree) (fuel : ℕ)
    (hbuild : (BHTree.new (Square.new x y k)).addAll (3 * k + 5) S = some t)
    (hq : q ∈ S)
    (hpos : (S.all fun c => decide (0 < c.mass)) = true)
    (hin : (S.all fun c => (Square.new x y k).contains c.position) = true)
    (hdist : distinctCells (Square.new x y k) k S = true)
    (hchk : checkTraversal t (Square.new x y k) q.position (4 ^ (k + 1)) = true)
    (hfuel : k + 1 ≤ fuel) :
    massSum (t.virtual_bodies q fuel) = massOf S - q.mass ∧
    ∃ E : List ℕ,
      (t.virtual_bodies q fuel).map VirtualBody.mass =
        E.map (pathMass (Square.new x y k) S) ∧
      ∀ c ∈ S, c ≠ q →
        (E.countP fun e => decide (onPath (Square.new x y k) c.position e)) = 1 := by
  have hpos2 : ∀ c ∈ S, 0 < c.mass := by
    rw [List.all_eq_true] at hpos
    intro c hc
    exact of_decide_eq_true (hpos c hc)
  have hin2 : ∀ c ∈ S, (Square.new x y k).contains c.position = true := by
    rw [List.all_eq_true] at hin
    intro c hc
    exact hin c hc
  have hinit : AggInv (Square.new x y k) k [] (BHTree.new (Square.new x y k)) :=
    AggInv.init (Square.new x y k) k rfl rfl
  obtain ⟨t2, hall, hagg0⟩ := addAll_agg (Square.new x y k) k S []
    (BHTree.new (Square.new x y k)) hinit hpos2 hin2 hdist
  have hagg : AggInv (Square.new x y k) k S t2 := hagg0
  rw [hbuild] at hall
  cases hall
  obtain ⟨n0, hn0, hn0s⟩ := hagg.wf.rootW
  obtain ⟨E, hmap, hsum, hcov, hzero⟩ :=
    visitAux_spec (Square.new x y k) k S t q hagg hq hdist hchk fuel 0 n0 hn0
      (by rw [level_zero]; omega)
  constructor
  · show massSum (t.visitAux q fuel 0) = _
    rw [hsum, pathMass_root, if_pos (onPath_zero _ _)]
  · refine ⟨E, hmap, ?_⟩
    intro c hc hcq
    exact hcov c hc hcq (onPath_zero _ _)

/-- C2 amended witness: `k = 2` root square from (0,0) with edge 4; the
bodies are q = Body(mass 1, (0,0)) and Body(mass 1, (3,3)); every hypothesis
holds by evaluation (in particular the pruning check: the root fails the
ratio, the far leaf satisfies it) and the virtual-body masses for q sum to
2 - 1 = 1. -/
theorem c2_virtual_bodies_sum_amended_witness :
    ∃ t, (BHTree.new (Square.new 0 0 2)).addAll (3 * 2 + 5)
        [⟨1, ⟨0, 0⟩, Vector.zero⟩, ⟨1, ⟨3, 3⟩, Vector.zero⟩] = some t ∧
      massSum (t.virtual_bodies ⟨1, ⟨0, 0⟩, Vector.zero⟩ 3) =
        massOf [⟨1, ⟨0, 0⟩, Vector.zero⟩, ⟨1, ⟨3, 3⟩, Vector.zero⟩] - 1 := by
  have hsome : ((BHTree.new (Square.new 0 0 2)).addAll (3 * 2 + 5)
      [⟨1, ⟨0, 0⟩, Vector.zero⟩, ⟨1, ⟨3, 3⟩, Vector.zero⟩]).isSome = true := by
    with_unfolding_all rfl
  cases hall : (BHTree.new (Square.new 0 0 2)).addAll (3 * 2 + 5)
      [⟨1, ⟨0, 0⟩, Vector.zero⟩, ⟨1, ⟨3, 3⟩, Vector.zero⟩] with
  | none =>
    rw [hall] at hsome
    cases hsome
  | some t =>
    refine ⟨t, rfl, ?_⟩
    have hchk : checkTraversal t (Square.new 0 0 2)
        (⟨1, ⟨0, 0⟩, Vector.zero⟩ : Body).position (4 ^ (2 + 1)) = true := by
      have h2 : ((BHTree.new (Square.new 0 0 2)).addAll (3 * 2 + 5)
          [⟨1, ⟨0, 0⟩, Vector.zero⟩, ⟨1, ⟨3, 3⟩, Vector.zero⟩]).map
            (fun t0 => checkTraversal t0 (Square.new 0 0 2) ⟨0, 0⟩ (4 ^ (2 + 1))) =
          some true := by
        with_unfolding_all rfl
      rw [hall] at h2
      exact Option.some.inj h2
    exact (c2_virtual_bodies_sum_amended 0 0 2
      [⟨1, ⟨0, 0⟩, Vector.zero⟩, ⟨1, ⟨3, 3⟩, Vector.zero⟩] ⟨1, ⟨0, 0⟩, Vector.zero⟩ t 3
      hall (List.mem_cons_self _ _)
      (by with_unfolding_all rfl)
      (by with_unfolding_all rfl)
      (by with_unfolding_all rfl)
      hchk
      (by norm_num)).1

end Newton
